import Mathlib

/-!
# Shenandoah concurrent mark: chunked arrays, liveness, marking primitive

A shallow embedding of `shenandoahConcurrentMark.inline.hpp`.

* C++ `int` values are `Int`s; every arithmetic result is brought back to the
  signed 32-bit range by `wrap32`, so an overflowing operation wraps around
  as it does on the machine.
* `while` loops are recursive functions on a fuel argument and return `none`
  when the fuel runs out.
* Calls on the task queue and on the array iterator made by the array
  decomposer are recorded, in program order, as a list of `Event`s.
* The decomposer is given a second time in exact arithmetic (`*_exact`), where
  a value outside the `int` range or a shift count outside `0..30` ends the
  run with `none`; this is what the overflow claim compares the wrap-around
  run with.
-/

namespace Shenandoah

/-! ## Machine integers -/

/-- Two's complement wrap-around of an integer to the signed 32-bit range. -/
def wrap32 (x : Int) : Int := (x + 2147483648) % 4294967296 - 2147483648

/-- The C++ expression `x << n` on `int`s: the shift count is taken modulo 32,
as the shift instructions do, and the result wraps to 32 bits. -/
def shl32 (x n : Int) : Int := wrap32 (x * 2 ^ (n % 32).toNat)

/-- Loop of `log2_long`: `i` counts the doublings of `p` that stay below `x`. -/
def log2_loop (x : Nat) : Nat → Int → Nat → Int
  | 0, i, _ => i
  | fuel + 1, i, p => if p ≤ x then log2_loop x fuel (i + 1) (2 * p) else i

/-- Modelled from the spec: `log2_long` lives in globalDefinitions.hpp, outside
the sources at hand. The spec's `bits = ceil(log2(L))`, which the source gets
from `log2_long(len)` followed by the compensation for lengths that are not a
power of two, makes it the largest `i` with `2^i ≤ x` (and `-1` for `x = 0`).
The argument is read as an unsigned 64-bit value and the doubling stops once
`p` has left the 64-bit range. -/
def log2_long (x : Int) : Int := log2_loop (x % 18446744073709551616).toNat 64 (-1) 1

/-! ## Array chunk decomposer -/

/-- What the decomposer does to its collaborators: `push chunk pow` is
`_queue->push(SCMTask(array, chunk, pow))`, `iterate from to` is
`array->oop_iterate_range(&_mark_refs, from, to)`. -/
inductive Event where
  | push (chunk pow : Int)
  | iterate (lo hi : Int)
  deriving DecidableEq, Repr

/-- The chunk Tasks `(chunk, pow)` pushed by a run, in push order. -/
def pushes : List Event → List (Int × Int)
  | [] => []
  | Event.push c p :: es => (c, p) :: pushes es
  | Event.iterate _ _ :: es => pushes es

/-- The ranges `(from, to)` handed to `oop_iterate_range` by a run, in order. -/
def visits : List Event → List (Int × Int)
  | [] => []
  | Event.push _ _ :: es => visits es
  | Event.iterate f t :: es => (f, t) :: visits es

/-- Values of `chunk`, `pow` and `last_idx` when a splitting loop stops,
together with the events of the loop. -/
structure LoopResult where
  chunk : Int
  pow : Int
  last_idx : Int
  events : List Event
  deriving DecidableEq, Repr

/-- The splitting loop of `do_chunked_array_start` (source lines 132-146) for
stride `S`, cap `C = SCMTask::chunk_size` and array length `len`. -/
def start_loop (S C len : Int) : Nat → Int → Int → Int → Option LoopResult
  | 0, _, _, _ => none
  | fuel + 1, chunk, pow, last_idx =>
    if shl32 1 pow > S ∧ wrap32 (chunk * 2) < C then
      let pow1 := wrap32 (pow - 1)
      let left_chunk := wrap32 (wrap32 (chunk * 2) - 1)
      let right_chunk := wrap32 (chunk * 2)
      let left_chunk_end := wrap32 (left_chunk * shl32 1 pow1)
      if left_chunk_end < len then
        (start_loop S C len fuel right_chunk pow1 left_chunk_end).map
          (fun r => { r with events := Event.push left_chunk pow1 :: r.events })
      else
        start_loop S C len fuel left_chunk pow1 last_idx
    else
      some ⟨chunk, pow, last_idx, []⟩

/-- Values of `bits` after the compensation step (source lines 104-106). -/
def start_bits (len : Int) : Int :=
  let bits := log2_long len
  if len ≠ shl32 1 bits then wrap32 (bits + 1) else bits

/-- The chunking branch of `do_chunked_array_start` up to the end of the
splitting loop (source lines 104-146): the overflow step for `pow >= 31`,
then the loop. -/
def start_split (S C len : Int) : Option LoopResult :=
  let bits := start_bits len
  if bits ≥ 31 then
    let pow := wrap32 (bits - 1)
    (start_loop S C len 32 2 pow (shl32 1 pow)).map
      (fun r => { r with events := Event.push 1 pow :: r.events })
  else
    start_loop S C len 32 1 bits 0

/-- `ShenandoahMarkObjsClosure::do_chunked_array_start` for an array of length
`len`, with `S = (int) ObjArrayMarkingStride` and `C = SCMTask::chunk_size`. -/
def do_chunked_array_start (S C len : Int) : Option (List Event) :=
  if len ≤ wrap32 (S * 2) then
    some [Event.iterate 0 len]
  else
    (start_split S C len).map
      (fun r => if r.last_idx < len then r.events ++ [Event.iterate r.last_idx len] else r.events)

/-- The splitting loop of `do_chunked_array` (source lines 165-170). -/
def chunk_loop (S C : Int) : Nat → Int → Int → Option LoopResult
  | 0, _, _ => none
  | fuel + 1, chunk, pow =>
    if shl32 1 pow > S ∧ wrap32 (chunk * 2) < C then
      let pow1 := wrap32 (pow - 1)
      let chunk1 := wrap32 (chunk * 2)
      (chunk_loop S C fuel chunk1 pow1).map
        (fun r => { r with events := Event.push (wrap32 (chunk1 - 1)) pow1 :: r.events })
    else
      some ⟨chunk, pow, 0, []⟩

/-- `ShenandoahMarkObjsClosure::do_chunked_array` on the Task `(chunk, pow)`. -/
def do_chunked_array (S C chunk pow : Int) : Option (List Event) :=
  (chunk_loop S C 32 chunk pow).map (fun r =>
    let chunk_size := shl32 1 r.pow
    let lo := wrap32 (wrap32 (r.chunk - 1) * chunk_size)
    let hi := wrap32 (r.chunk * chunk_size)
    r.events ++ [Event.iterate lo hi])

/-! ## Tasks and worker queues -/

/-- Modelled from the spec: `SCMTask` is declared in shenandoahTaskqueue.hpp,
outside the sources at hand. Following the spec's data model it is the value
`{target, chunk, pow}`; `SCMTask(obj)` is the whole-object Task with
`chunk = 0` and `pow = 0`. -/
structure SCMTask where
  obj : Nat
  chunk : Int
  pow : Int
  deriving DecidableEq, Repr

/-- Modelled from the spec: `chunk == 0` means whole object, not yet chunked. -/
def SCMTask.is_not_chunked (t : SCMTask) : Bool := decide (t.chunk = 0)

/-- Modelled from the spec: `SCMObjToScanQueue` is declared in
shenandoahTaskqueue.hpp, outside the sources at hand. It has the three tiers
of the spec: the single-slot buffer, the local deque (bounded by `cap`, most
recent Task first) and the unbounded overflow pool (most recent first). -/
structure SCMObjToScanQueue where
  buf : Option SCMTask
  deque : List SCMTask
  overflow : List SCMTask
  cap : Nat
  deriving DecidableEq, Repr

namespace SCMObjToScanQueue

/-- Modelled from the spec: a push never fails. The new Task goes to the
buffer; a Task already buffered moves to the local deque, or to the overflow
pool when the deque is full. -/
def push (q : SCMObjToScanQueue) (t : SCMTask) : SCMObjToScanQueue :=
  match q.buf with
  | none => { q with buf := some t }
  | some e =>
    if q.deque.length < q.cap then { q with buf := some t, deque := e :: q.deque }
    else { q with buf := some t, overflow := e :: q.overflow }

/-- Modelled from the spec: pop from the single-slot buffer. -/
def pop_buffer (q : SCMObjToScanQueue) : Option (SCMTask × SCMObjToScanQueue) :=
  match q.buf with
  | none => none
  | some t => some (t, { q with buf := none })

/-- Modelled from the spec: pop from the owner's end of the local deque. -/
def pop_local (q : SCMObjToScanQueue) : Option (SCMTask × SCMObjToScanQueue) :=
  match q.deque with
  | [] => none
  | t :: rest => some (t, { q with deque := rest })

/-- Modelled from the spec: pop from the overflow pool. -/
def pop_overflow (q : SCMObjToScanQueue) : Option (SCMTask × SCMObjToScanQueue) :=
  match q.overflow with
  | [] => none
  | t :: rest => some (t, { q with overflow := rest })

/-- All Tasks held by the queue, over its three tiers. -/
def tasks (q : SCMObjToScanQueue) : List SCMTask := q.buf.toList ++ q.deque ++ q.overflow

/-- Number of whole-object Tasks for object `o` held by the queue. -/
def whole_tasks (o : Nat) (q : SCMObjToScanQueue) : Nat :=
  q.tasks.countP (fun t => decide (t.obj = o) && t.is_not_chunked)

end SCMObjToScanQueue

/-- `ShenandoahConcurrentMark::try_queue`: the three pops in their order, the
`||` stopping at the first that succeeds. `none` is the result `false`. -/
def try_queue (q : SCMObjToScanQueue) : Option (SCMTask × SCMObjToScanQueue) :=
  match q.pop_buffer with
  | some r => some r
  | none =>
    match q.pop_local with
    | some r => some r
    | none => q.pop_overflow

/-! ## Heap, mark state and liveness -/

/-- The four reference update modes of the marking primitive. -/
inductive UpdateRefsMode where
  | NONE
  | RESOLVE
  | SIMPLE
  | CONCURRENT
  deriving DecidableEq, Repr

/-- Replaces the value of a function at one argument. -/
def upd {β : Type} (f : Nat → β) (a : Nat) (v : β) : Nat → β :=
  fun x => if x = a then v else f x

/-- The collaborators of the marking code, as one state. Objects and reference
cells are named by their addresses; a cell holds `none` for a null reference.

* `mem`: contents of the reference cells (object fields, array elements and
  entries of SATB buffers);
* `fwd`: the forwarding pointer of each object (`resolve_oop_static_not_null`);
* `marked`: the next mark state of each object (`is_marked_next`);
* `is_objArray`, `fields`, `size`, `region`: whether an object is an object
  array, the addresses of its reference fields (for an array: its elements, in
  index order), its size in words, the index of its region;
* `word_size`: `BrooksPointer::word_size()`;
* `live`: the authoritative live word counter of each region;
* `live_data`: the local counters `_live_data` of each worker's closure;
* `satb`: the completed SATB buffers, each as base address and size;
* `queues`: the queue of each worker. -/
structure ShenandoahHeap where
  mem : Nat → Option Nat
  fwd : Nat → Nat
  marked : Nat → Bool
  is_objArray : Nat → Bool
  fields : Nat → List Nat
  size : Nat → Int
  region : Nat → Nat
  word_size : Int
  live : Nat → Int
  live_data : Nat → Nat → Int
  satb : List (Nat × Nat)
  queues : Nat → SCMObjToScanQueue

/-- `_queue->push(task)` on the queue of worker `w`. -/
def push_task (w : Nat) (t : SCMTask) (h : ShenandoahHeap) : ShenandoahHeap :=
  { h with queues := upd h.queues w ((h.queues w).push t) }

/-- Modelled from the spec: `increase_live_data_words` of a region (declared
outside the sources at hand) adds to the region's authoritative counter, which
is wider than the local one. -/
def increase_live_data_words (region_idx : Nat) (s : Int) (h : ShenandoahHeap) :
    ShenandoahHeap :=
  { h with live := upd h.live region_idx (h.live region_idx + s) }

/-- Values of `max` in `count_liveness`: `(1 << (sizeof(jushort) * 8)) - 1`. -/
def live_data_max : Int := wrap32 (shl32 1 16 - 1)

/-- `ShenandoahMarkObjsClosure::count_liveness` in the closure of worker `w`.
The cast `(jushort) new_val` is the remainder modulo `2^16`. -/
def count_liveness (w obj : Nat) (h : ShenandoahHeap) : ShenandoahHeap :=
  let region_idx := h.region obj
  let cur := h.live_data w region_idx
  let size := wrap32 (h.size obj + h.word_size)
  let max := live_data_max
  if size ≥ max then
    increase_live_data_words region_idx size h
  else
    let new_val := wrap32 (cur + size)
    if new_val ≥ max then
      let h1 := increase_live_data_words region_idx new_val h
      { h1 with live_data := upd h1.live_data w (upd (h1.live_data w) region_idx 0) }
    else
      { h with live_data := upd h.live_data w (upd (h.live_data w) region_idx (new_val % 65536)) }

/-- Modelled from the spec: `mark_next` (declared outside the sources at hand)
is the atomic claim. It answers `true` and marks the object when the object
was unmarked, and answers `false` and changes nothing otherwise. -/
def mark_next (obj : Nat) (h : ShenandoahHeap) : Bool × ShenandoahHeap :=
  if h.marked obj then (false, h) else (true, { h with marked := upd h.marked obj true })

/-- Modelled from the spec: `update_oop_ref_not_null` (mode SIMPLE, declared
outside the sources at hand) follows forwarding and repairs the cell. -/
def update_oop_ref_not_null (p obj : Nat) (h : ShenandoahHeap) : Nat × ShenandoahHeap :=
  (h.fwd obj, { h with mem := upd h.mem p (some (h.fwd obj)) })

/-- Modelled from the spec: `maybe_update_oop_ref_not_null` (mode CONCURRENT,
declared outside the sources at hand) follows forwarding and tries to repair
the cell by compare-and-set. `race` is the value a mutator has stored into the
cell since it was loaded, if any. An object that is not forwarded is returned
as it is. Otherwise, when the cell still holds `obj` it is repaired and the
forwardee returned; when it does not, the mutator's value stays and the
result is null. -/
def maybe_update_oop_ref_not_null (race : Option (Option Nat)) (p obj : Nat)
    (h : ShenandoahHeap) : Option Nat × ShenandoahHeap :=
  let cur := match race with
    | none => h.mem p
    | some v => v
  if h.fwd obj = obj then (some obj, { h with mem := upd h.mem p cur })
  else if cur = some obj then (some (h.fwd obj), { h with mem := upd h.mem p (some (h.fwd obj)) })
  else (none, { h with mem := upd h.mem p cur })

/-- The `switch (UPDATE_REFS)` of `mark_through_ref` (source lines 222-237) on
the non-null object `o` loaded from cell `p`: the resolved object, null when it
vanished, and the state after the update of the cell. -/
def resolve_ref (mode : UpdateRefsMode) (race : Option (Option Nat)) (p o : Nat)
    (h : ShenandoahHeap) : Option Nat × ShenandoahHeap :=
  match mode with
  | UpdateRefsMode.NONE => (some o, h)
  | UpdateRefsMode.RESOLVE => (some (h.fwd o), h)
  | UpdateRefsMode.SIMPLE =>
    let r := update_oop_ref_not_null p o h
    (some r.1, r.2)
  | UpdateRefsMode.CONCURRENT => maybe_update_oop_ref_not_null race p o h

/-- `ShenandoahConcurrentMark::mark_through_ref<T, UPDATE_REFS>(p, heap, q)`,
with `q` the queue of worker `w`. -/
def mark_through_ref (mode : UpdateRefsMode) (race : Option (Option Nat)) (p w : Nat)
    (h : ShenandoahHeap) : ShenandoahHeap :=
  match h.mem p with
  | none => h
  | some o =>
    let r := resolve_ref mode race p o h
    match r.1 with
    | none => r.2
    | some obj =>
      let m := mark_next obj r.2
      if m.1 then push_task w ⟨obj, 0, 0⟩ m.2 else m.2

/-- `ShenandoahSATBBufferClosure::do_buffer(buffer, size)` of the closure built
on the queue of worker `w`: entry `i` is the cell at address `buffer + i`. -/
def do_buffer (w buffer size : Nat) (h : ShenandoahHeap) : ShenandoahHeap :=
  (List.range size).foldl
    (fun h i => mark_through_ref UpdateRefsMode.RESOLVE none (buffer + i) w h) h

/-- Modelled from the spec: `apply_closure_to_completed_buffer` of the SATB
queue set (declared outside the sources at hand) retrieves one completed
buffer, feeds it to the closure and answers whether there was one. -/
def apply_closure_to_completed_buffer (w : Nat) (h : ShenandoahHeap) : Bool × ShenandoahHeap :=
  match h.satb with
  | [] => (false, h)
  | b :: rest => (true, do_buffer w b.1 b.2 { h with satb := rest })

/-- `ShenandoahConcurrentMark::try_draining_satb_buffer(q, task)` with `q` the
queue of worker `w`. The result `some t` is the answer `true` with `task = t`,
`none` is the answer `false`; `&&` does not evaluate `try_queue` when
`had_refs` is false. -/
def try_draining_satb_buffer (w : Nat) (h : ShenandoahHeap) : Option SCMTask × ShenandoahHeap :=
  let r := apply_closure_to_completed_buffer w h
  let had_refs := r.1
  if had_refs then
    match try_queue (r.2.queues w) with
    | none => (none, r.2)
    | some (t, q) => (some t, { r.2 with queues := upd r.2.queues w q })
  else (none, r.2)

/-- Modelled from the spec: the closure `_mark_refs` (declared outside the
sources at hand) invokes the marking primitive, in the closure's update mode
and on the closure's queue, on each cell it is given. `races p` is the
mutator's interference with cell `p`, if any. -/
def mark_refs (mode : UpdateRefsMode) (races : Nat → Option (Option Nat)) (w : Nat)
    (cells : List Nat) (h : ShenandoahHeap) : ShenandoahHeap :=
  cells.foldl (fun h p => mark_through_ref mode (races p) p w h) h

/-- Modelled from the spec: `array->length()`, the number of elements. -/
def array_length (h : ShenandoahHeap) (obj : Nat) : Int := ((h.fields obj).length : Int)

/-- Modelled from the spec: `oop_iterate_range(cl, from, to)` (declared
outside the sources at hand) visits the elements with index in `[from, to)`,
clipped to the bounds of the array. -/
def oop_iterate_range (mode : UpdateRefsMode) (races : Nat → Option (Option Nat)) (w obj : Nat)
    (lo hi : Int) (h : ShenandoahHeap) : ShenandoahHeap :=
  mark_refs mode races w (((h.fields obj).take hi.toNat).drop lo.toNat) h

/-- Carries out the events of a decomposer run on array `obj` in order. -/
def run_events (mode : UpdateRefsMode) (races : Nat → Option (Option Nat)) (w obj : Nat) :
    List Event → ShenandoahHeap → ShenandoahHeap
  | [], h => h
  | Event.push c p :: es, h => run_events mode races w obj es (push_task w ⟨obj, c, p⟩ h)
  | Event.iterate lo hi :: es, h =>
    run_events mode races w obj es (oop_iterate_range mode races w obj lo hi h)

/-- `ShenandoahMarkObjsClosure<T, CL>::do_task(task)` in the closure of worker
`w`, where `mode` is the update mode of `T`, `S = (int) ObjArrayMarkingStride`
and `C = SCMTask::chunk_size`. The result is `none` when a splitting loop does
not end. -/
def do_task (mode : UpdateRefsMode) (CL : Bool) (S C : Int)
    (races : Nat → Option (Option Nat)) (w : Nat) (task : SCMTask) (h : ShenandoahHeap) :
    Option ShenandoahHeap :=
  let obj := task.obj
  if task.is_not_chunked then
    let h1 := if CL then count_liveness w obj h else h
    if !h1.is_objArray obj then
      some (mark_refs mode races w (h1.fields obj) h1)
    else
      (do_chunked_array_start S C (array_length h1 obj)).map
        (fun evs => run_events mode races w obj evs h1)
  else
    (do_chunked_array S C task.chunk task.pow).map
      (fun evs => run_events mode races w obj evs h)

/-- One call `mark_through_ref<T, mode>(p, heap, q)` with `q` the queue of
worker `w`, and the interference `race` of a mutator with the cell `p`. -/
structure MarkCall where
  mode : UpdateRefsMode
  race : Option (Option Nat)
  p : Nat
  w : Nat

/-- The state after the call. -/
def MarkCall.apply (c : MarkCall) (h : ShenandoahHeap) : ShenandoahHeap :=
  mark_through_ref c.mode c.race c.p c.w h

/-- The object the call resolves to (the value of `obj` at source line 243),
`none` when the cell is null or the object vanished. -/
def MarkCall.resolved (c : MarkCall) (h : ShenandoahHeap) : Option Nat :=
  match h.mem c.p with
  | none => none
  | some o => (resolve_ref c.mode c.race c.p o h).1

/-- The state after a sequence of calls, each taken as one atomic step. -/
def mark_calls (cs : List MarkCall) (h : ShenandoahHeap) : ShenandoahHeap :=
  cs.foldl (fun h c => c.apply h) h

/-- Number of calls of the sequence at which object `o` goes from unmarked to
marked. -/
def mark_transitions (o : Nat) : List MarkCall → ShenandoahHeap → Nat
  | [], _ => 0
  | c :: cs, h =>
    (if h.marked o = false ∧ (c.apply h).marked o = true then 1 else 0) +
      mark_transitions o cs (c.apply h)

/-- Whether some call of the sequence resolves to object `o`. -/
def resolves_to (o : Nat) : List MarkCall → ShenandoahHeap → Bool
  | [], _ => false
  | c :: cs, h => decide (c.resolved h = some o) || resolves_to o cs (c.apply h)

/-- Number of whole-object Tasks for `o` over the queues of workers `0 .. n-1`. -/
def total_whole_tasks (o n : Nat) (h : ShenandoahHeap) : Nat :=
  ((List.range n).map (fun w => (h.queues w).whole_tasks o)).sum

/-- A small heap for the examples: objects 1, 2 and 3, of 40000, 30000 and
70000 words, object 3 in region 1 and the others in region 0; object 1 has the
reference fields 10 and 11, both referring to object 2, and cell 20 is a SATB
buffer entry referring to object 3; nothing is marked or forwarded and the
queues are empty. -/
def example_heap : ShenandoahHeap where
  mem := fun p => if p = 10 then some 2 else if p = 11 then some 2 else
    if p = 20 then some 3 else none
  fwd := fun o => o
  marked := fun _ => false
  is_objArray := fun _ => false
  fields := fun o => if o = 1 then [10, 11] else []
  size := fun o => if o = 1 then 40000 else if o = 2 then 30000 else 70000
  region := fun o => if o = 3 then 1 else 0
  word_size := 1
  live := fun _ => 0
  live_data := fun _ _ => 0
  satb := []
  queues := fun _ => ⟨none, [], [], 4⟩

/-- The example heap with one more object: the marked object array 5, of ten
elements at the cells 100 to 109, all null. -/
def example_array_heap : ShenandoahHeap :=
  { example_heap with
    marked := fun o => decide (o = 5)
    is_objArray := fun o => decide (o = 5)
    fields := fun o => if o = 5 then List.range' 100 10 else if o = 1 then [10, 11] else [] }

/-- Pushes the chunk Tasks `ts` of object `obj`, in order, onto a queue. -/
def push_chunks (obj : Nat) (ts : List (Int × Int)) (q : SCMObjToScanQueue) :
    SCMObjToScanQueue :=
  ts.foldl (fun q t => q.push ⟨obj, t.1, t.2⟩) q

/-- The object a non-null reference `e` resolves to in the given mode when no
mutator interferes: `e` itself in mode NONE, its forwardee otherwise. -/
def resolution (mode : UpdateRefsMode) (h : ShenandoahHeap) (e : Nat) : Nat :=
  match mode with
  | UpdateRefsMode.NONE => e
  | _ => h.fwd e

/-- Cell `p` is null or refers to an object whose resolution is marked. -/
def CellDone (mode : UpdateRefsMode) (h : ShenandoahHeap) (p : Nat) : Prop :=
  ∀ e, h.mem p = some e → h.marked (resolution mode h e) = true

/-- Every Task on every queue refers to a marked object. -/
def QueuesMarked (h : ShenandoahHeap) : Prop :=
  ∀ w t, t ∈ (h.queues w).tasks → h.marked t.obj = true

/-- Dispatches the Tasks of a list, one after the other, with `do_task` in the
closure of worker `w`. -/
def dispatch_all (mode : UpdateRefsMode) (CL : Bool) (S C : Int)
    (races : Nat → Option (Option Nat)) (w : Nat) :
    List SCMTask → ShenandoahHeap → Option ShenandoahHeap
  | [], h => some h
  | t :: ts, h =>
    match do_task mode CL S C races w t h with
    | none => none
    | some h1 => dispatch_all mode CL S C races w ts h1

/-! ## The decomposer in exact arithmetic -/

/-- An exact integer as an `int`: `none` when it is outside the signed 32-bit
range. -/
def chk32 (x : Int) : Option Int :=
  if -2147483648 ≤ x ∧ x ≤ 2147483647 then some x else none

/-- The shift `x << n` in exact arithmetic: `none` when the count is negative
or 31 or more, or when the result is outside the signed 32-bit range. -/
def shl_exact (x n : Int) : Option Int :=
  if 0 ≤ n ∧ n ≤ 30 then chk32 (x * 2 ^ n.toNat) else none

/-- The splitting loop of `do_chunked_array_start` (source lines 132-146) in
exact arithmetic: every intermediate value is computed without wrap-around and
the run stops with `none` at the first one that does not fit an `int`. The
product `chunk*2` is evaluated only when the first operand of `&&` holds. -/
def start_loop_exact (S C len : Int) : Nat → Int → Int → Int → Option LoopResult
  | 0, _, _, _ => none
  | fuel + 1, chunk, pow, last_idx => do
    let p ← shl_exact 1 pow
    if p > S then
      let c2 ← chk32 (chunk * 2)
      if c2 < C then
        let pow1 ← chk32 (pow - 1)
        let left_chunk ← chk32 (c2 - 1)
        let right_chunk := c2
        let p1 ← shl_exact 1 pow1
        let left_chunk_end ← chk32 (left_chunk * p1)
        if left_chunk_end < len then
          let r ← start_loop_exact S C len fuel right_chunk pow1 left_chunk_end
          pure { r with events := Event.push left_chunk pow1 :: r.events }
        else
          start_loop_exact S C len fuel left_chunk pow1 last_idx
      else
        pure ⟨chunk, pow, last_idx, []⟩
    else
      pure ⟨chunk, pow, last_idx, []⟩

/-- Values of `bits` after the compensation step, in exact arithmetic. -/
def start_bits_exact (len : Int) : Option Int := do
  let bits := log2_long len
  let p ← shl_exact 1 bits
  if len ≠ p then chk32 (bits + 1) else pure bits

/-- The chunking branch of `do_chunked_array_start` up to the end of the
splitting loop, in exact arithmetic. -/
def start_split_exact (S C len : Int) : Option LoopResult := do
  let bits ← start_bits_exact len
  if bits ≥ 31 then
    let pow ← chk32 (bits - 1)
    let p ← shl_exact 1 pow
    let r ← start_loop_exact S C len 32 2 pow p
    pure { r with events := Event.push 1 pow :: r.events }
  else
    start_loop_exact S C len 32 1 bits 0

/-- `do_chunked_array_start` in exact arithmetic. -/
def do_chunked_array_start_exact (S C len : Int) : Option (List Event) := do
  let s2 ← chk32 (S * 2)
  if len ≤ s2 then
    pure [Event.iterate 0 len]
  else
    let r ← start_split_exact S C len
    pure (if r.last_idx < len then r.events ++ [Event.iterate r.last_idx len] else r.events)

/-- The splitting loop of `do_chunked_array` in exact arithmetic. -/
def chunk_loop_exact (S C : Int) : Nat → Int → Int → Option LoopResult
  | 0, _, _ => none
  | fuel + 1, chunk, pow => do
    let p ← shl_exact 1 pow
    if p > S then
      let c2 ← chk32 (chunk * 2)
      if c2 < C then
        let pow1 ← chk32 (pow - 1)
        let left_chunk ← chk32 (c2 - 1)
        let r ← chunk_loop_exact S C fuel c2 pow1
        pure { r with events := Event.push left_chunk pow1 :: r.events }
      else
        pure ⟨chunk, pow, 0, []⟩
    else
      pure ⟨chunk, pow, 0, []⟩

/-- `do_chunked_array` in exact arithmetic. -/
def do_chunked_array_exact (S C chunk pow : Int) : Option (List Event) := do
  let r ← chunk_loop_exact S C 32 chunk pow
  let chunk_size ← shl_exact 1 r.pow
  let c1 ← chk32 (r.chunk - 1)
  let lo ← chk32 (c1 * chunk_size)
  let hi ← chk32 (r.chunk * chunk_size)
  pure (r.events ++ [Event.iterate lo hi])

/-! ## Running the chunk Tasks of one array -/

/-- Index range `[(chunk-1)*2^pow, chunk*2^pow)` denoted by a chunk Task. -/
def chunkRange (t : Int × Int) : Int × Int :=
  ((t.1 - 1) * 2 ^ t.2.toNat, t.1 * 2 ^ t.2.toNat)

/-- Whether index `i` lies in the half-open range `r = (from, to)`. -/
def covers (i : Int) (r : Int × Int) : Bool := decide (r.1 ≤ i) && decide (i < r.2)

/-- Takes the element at position `k` out of a list. -/
def select {α : Type} (k : Nat) (l : List α) : Option (α × List α) :=
  match l.drop k with
  | [] => none
  | t :: post => some (t, l.take k ++ post)

/-- Runs `do_chunked_array` on the pending chunk Tasks of one array until none
remains, and returns the ranges visited. `pick` chooses which pending Task is
taken next (any worker may pop or steal any of them); a choice beyond the end
of the list takes the first Task. The Tasks pushed by a run become pending. -/
def run_chunks (S C : Int) (pick : List (Int × Int) → Nat) :
    Nat → List (Int × Int) → Option (List (Int × Int))
  | 0, _ => none
  | _ + 1, [] => some []
  | fuel + 1, t0 :: rest0 =>
    let sel := (select (pick (t0 :: rest0)) (t0 :: rest0)).getD (t0, rest0)
    match do_chunked_array S C sel.1.1 sel.1.2 with
    | none => none
    | some evs => (run_chunks S C pick fuel (sel.2 ++ pushes evs)).map (fun vs => visits evs ++ vs)

/-- Chunk Tasks that stem from one run of the start algorithm on an array of
length `L`: those it pushes, and those pushed by `do_chunked_array` when it
runs on such a Task. -/
inductive Pushed (S C L : Int) : Int × Int → Prop where
  | start (evs : List Event) (t : Int × Int) :
      do_chunked_array_start S C L = some evs → t ∈ pushes evs → Pushed S C L t
  | split (evs : List Event) (t u : Int × Int) :
      Pushed S C L t → do_chunked_array S C t.1 t.2 = some evs → u ∈ pushes evs →
      Pushed S C L u

/-- Consecutive chunk Tasks: the ranges of the Tasks in the list follow one
another from `a` to `b`, and their exponents decrease strictly below `n`. -/
def ChunkChain : List (Int × Int) → Int → Int → Nat → Prop
  | [], a, b, _ => a = b
  | t :: rest, a, b, n =>
    ∃ m : Nat, t.2 = (m : Int) ∧ m < n ∧ 1 ≤ t.1 ∧ (t.1 - 1) * 2 ^ m = a ∧
      ChunkChain rest (t.1 * 2 ^ m) b m

/-- Number of array elements in the ranges of a list of chunk Tasks. -/
def chunkWork (ts : List (Int × Int)) : Nat := (ts.map (fun t => 2 ^ t.2.toNat)).sum

/-- Chunk Task whose range `[(chunk-1)*2^pow, chunk*2^pow)` lies in `[0, L]`
and whose exponent is a valid shift count. -/
def ValidTask (L : Int) (t : Int × Int) : Prop :=
  ∃ m : Nat, t.2 = (m : Int) ∧ m ≤ 30 ∧ 1 ≤ t.1 ∧ t.1 * 2 ^ m ≤ L

/-! ## Machine arithmetic lemmas -/

theorem wrap32_eq (x : Int) (h1 : -2147483648 ≤ x) (h2 : x < 2147483648) : wrap32 x = x := by
  unfold wrap32; omega

theorem two_pow_pos (n : Nat) : (1 : Int) ≤ 2 ^ n := by
  have : (0 : Int) < 2 ^ n := by positivity
  omega

theorem two_pow_le (n m : Nat) (h : n ≤ m) : (2 : Int) ^ n ≤ 2 ^ m :=
  pow_le_pow_right₀ (by norm_num) h

theorem two_pow_le_30 (n : Nat) (h : n ≤ 30) : (2 : Int) ^ n ≤ 1073741824 := by
  have := two_pow_le n 30 h
  norm_num at this
  exact this

theorem shl32_one (n : Nat) (h : n ≤ 30) : shl32 1 (n : Int) = 2 ^ n := by
  unfold shl32
  have h1 : ((n : Int) % 32).toNat = n := by omega
  rw [h1, one_mul]
  exact wrap32_eq _ (by have := two_pow_pos n; omega) (by have := two_pow_le_30 n h; omega)

theorem ChunkChain_mono : ∀ (ts : List (Int × Int)) (a b : Int) (n k : Nat),
    n ≤ k → ChunkChain ts a b n → ChunkChain ts a b k
  | [], _, _, _, _, _, h => h
  | _ :: _, _, _, _, _, hk, ⟨m, h1, h2, h3⟩ => ⟨m, h1, by omega, h3⟩

/-- State of the splitting loop of the start algorithm when it stops. -/
theorem start_loop_spec (S C len : Int) (hS : 1 ≤ S) :
    ∀ (fuel n : Nat) (chunk last : Int), n < fuel → n ≤ 30 → 1 ≤ chunk →
      len ≤ chunk * 2 ^ n → chunk * 2 ^ n ≤ 2147483648 → len ≤ 2147483647 →
      last = (chunk - 1) * 2 ^ n → last < len →
      ∃ (r : LoopResult) (m : Nat) (ts : List (Int × Int)),
        start_loop S C len fuel chunk n last = some r ∧ r.pow = m ∧ m ≤ n ∧ 1 ≤ r.chunk ∧
        len ≤ r.chunk * 2 ^ m ∧ r.chunk * 2 ^ m ≤ 2147483648 ∧
        r.last_idx = (r.chunk - 1) * 2 ^ m ∧ r.last_idx < len ∧
        (2 ^ m ≤ S ∨ C ≤ wrap32 (r.chunk * 2)) ∧
        r.events = ts.map (fun t => Event.push t.1 t.2) ∧ ChunkChain ts last r.last_idx n := by
  intro fuel
  induction fuel with
  | zero => intro n _ _ h; omega
  | succ fuel ih =>
    intro n chunk last hf hn hc hlo hhi hlen hlast hlt
    rw [start_loop, shl32_one n hn]
    by_cases hcond : (2 : Int) ^ n > S ∧ wrap32 (chunk * 2) < C
    · rw [if_pos hcond]
      obtain ⟨k, rfl⟩ : ∃ k, n = k + 1 := by
        rcases n with _ | k
        · simp at hcond; omega
        · exact ⟨k, rfl⟩
      have hP := two_pow_pos k
      have hpow : (2 : Int) ^ (k + 1) = 2 * 2 ^ k := by ring
      rw [hpow] at hlo hhi hlast
      have hX : chunk ≤ chunk * 2 ^ k := le_mul_of_one_le_right (by omega) hP
      have hX2 : (2 : Int) ^ k ≤ chunk * 2 ^ k := le_mul_of_one_le_left (by omega) hc
      have hmul : chunk * (2 * 2 ^ k) = 2 * (chunk * 2 ^ k) := by ring
      have hpow1 : wrap32 (((k + 1 : Nat) : Int) - 1) = (k : Int) := by
        rw [wrap32_eq] <;> omega
      have hleft : wrap32 (wrap32 (chunk * 2) - 1) = 2 * chunk - 1 := by
        unfold wrap32; omega
      have hlce_eq : (2 * chunk - 1) * 2 ^ k = 2 * (chunk * 2 ^ k) - 2 ^ k := by ring
      have hlce : wrap32 ((2 * chunk - 1) * 2 ^ k) = (2 * chunk - 1) * 2 ^ k := by
        rw [wrap32_eq] <;> omega
      simp only [hpow1, hleft, shl32_one k (by omega), hlce]
      by_cases hbr : (2 * chunk - 1) * 2 ^ k < len
      · rw [if_pos hbr]
        have hright : wrap32 (chunk * 2) = 2 * chunk := by
          have hne : chunk ≠ 1073741824 := by
            intro h
            have h0 : chunk * (2 ^ k - 1) = 0 := by
              have : chunk * (2 ^ k - 1) = chunk * 2 ^ k - chunk := by ring
              omega
            rcases mul_eq_zero.mp h0 with h1 | h1 <;> omega
          rw [wrap32_eq] <;> omega
        rw [hright]
        obtain ⟨r, m, ts, hr, h1, h2, h3, h4, h5, h6, h7, h8, h9, h10⟩ :=
          ih k (2 * chunk) ((2 * chunk - 1) * 2 ^ k) (by omega) (by omega) (by omega)
            (by rw [mul_assoc]; omega) (by rw [mul_assoc]; omega) hlen (by ring) hbr
        refine ⟨{ r with events := Event.push (2 * chunk - 1) k :: r.events }, m,
          (2 * chunk - 1, (k : Int)) :: ts, ?_, h1, by omega, h3, h4, h5, h6, h7, h8, ?_, ?_⟩
        · rw [hr]; rfl
        · simp [h9]
        · refine ⟨k, rfl, by omega, by omega, ?_, h10⟩
          rw [hlast]; ring
      · rw [if_neg hbr]
        obtain ⟨r, m, ts, hr, h1, h2, h3, h4, h5, h6, h7, h8, h9, h10⟩ :=
          ih k (2 * chunk - 1) last (by omega) (by omega) (by omega)
            (by omega) (by omega) hlen (by rw [hlast]; ring) hlt
        exact ⟨r, m, ts, hr, h1, by omega, h3, h4, h5, h6, h7, h8, h9,
          ChunkChain_mono ts _ _ k (k + 1) (by omega) h10⟩
    · rw [if_neg hcond]
      refine ⟨⟨chunk, n, last, []⟩, n, [], rfl, rfl, le_refl _, hc, hlo, hhi, hlast, hlt, ?_, rfl, rfl⟩
      show (2 : Int) ^ n ≤ S ∨ C ≤ wrap32 (chunk * 2)
      by_cases h : (2 : Int) ^ n ≤ S
      · exact Or.inl h
      · right
        by_contra h2
        exact hcond ⟨by omega, by omega⟩

/-- State of the splitting loop of the continuation algorithm when it stops. -/
theorem chunk_loop_spec (S C : Int) (hS : 1 ≤ S) :
    ∀ (fuel n : Nat) (chunk : Int), n < fuel → n ≤ 30 → 1 ≤ chunk →
      chunk * 2 ^ n < 2147483648 →
      ∃ (r : LoopResult) (m : Nat) (ts : List (Int × Int)),
        chunk_loop S C fuel chunk n = some r ∧ r.pow = m ∧ m ≤ n ∧ 1 ≤ r.chunk ∧
        r.chunk * 2 ^ m = chunk * 2 ^ n ∧ (2 ^ m ≤ S ∨ C ≤ r.chunk * 2) ∧
        r.events = ts.map (fun t => Event.push t.1 t.2) ∧
        ChunkChain ts ((chunk - 1) * 2 ^ n) ((r.chunk - 1) * 2 ^ m) n := by
  intro fuel
  induction fuel with
  | zero => intro n _ h; omega
  | succ fuel ih =>
    intro n chunk hf hn hc hhi
    rw [chunk_loop, shl32_one n hn]
    have hP0 := two_pow_pos n
    have hc2 : chunk ≤ chunk * 2 ^ n := le_mul_of_one_le_right (by omega) hP0
    by_cases hcond : (2 : Int) ^ n > S ∧ wrap32 (chunk * 2) < C
    · rw [if_pos hcond]
      obtain ⟨k, rfl⟩ : ∃ k, n = k + 1 := by
        rcases n with _ | k
        · simp at hcond; omega
        · exact ⟨k, rfl⟩
      have hP := two_pow_pos k
      have hpow : (2 : Int) ^ (k + 1) = 2 * 2 ^ k := by ring
      rw [hpow] at hhi
      have hX : chunk ≤ chunk * 2 ^ k := le_mul_of_one_le_right (by omega) hP
      have hmul : chunk * (2 * 2 ^ k) = 2 * (chunk * 2 ^ k) := by ring
      have hpow1 : wrap32 (((k + 1 : Nat) : Int) - 1) = (k : Int) := by
        rw [wrap32_eq] <;> omega
      have hright : wrap32 (chunk * 2) = 2 * chunk := by
        rw [wrap32_eq] <;> omega
      have hleft : wrap32 (2 * chunk - 1) = 2 * chunk - 1 := by
        rw [wrap32_eq] <;> omega
      simp only [hpow1, hright, hleft]
      obtain ⟨r, m, ts, hr, h1, h2, h3, h4, h5, h6, h7⟩ :=
        ih k (2 * chunk) (by omega) (by omega) (by omega) (by rw [mul_assoc]; omega)
      refine ⟨{ r with events := Event.push (2 * chunk - 1) k :: r.events }, m,
        (2 * chunk - 1, (k : Int)) :: ts, ?_, h1, by omega, h3, ?_, h5, ?_, ?_⟩
      · rw [hr]; rfl
      · show r.chunk * 2 ^ m = chunk * 2 ^ (k + 1)
        rw [h4]; ring
      · simp [h6]
      · refine ⟨k, rfl, by omega, by omega, by ring, ?_⟩
        exact h7
    · rw [if_neg hcond]
      refine ⟨⟨chunk, n, 0, []⟩, n, [], rfl, rfl, le_refl _, hc, rfl, ?_, rfl, rfl⟩
      show (2 : Int) ^ n ≤ S ∨ C ≤ chunk * 2
      by_cases h : (2 : Int) ^ n ≤ S
      · exact Or.inl h
      · right
        by_contra h2
        have hright : wrap32 (chunk * 2) = chunk * 2 := by
          rcases n with _ | k
          · simp at h; omega
          · have hP := two_pow_pos k
            have hpow : (2 : Int) ^ (k + 1) = 2 * 2 ^ k := by ring
            rw [hpow] at hhi
            have hX : chunk ≤ chunk * 2 ^ k := le_mul_of_one_le_right (by omega) hP
            have hmul : chunk * (2 * 2 ^ k) = 2 * (chunk * 2 ^ k) := by ring
            rw [wrap32_eq] <;> omega
        exact hcond ⟨by omega, by omega⟩

theorem pushes_map_push (ts : List (Int × Int)) (rest : List Event) :
    pushes (ts.map (fun t => Event.push t.1 t.2) ++ rest) = ts ++ pushes rest := by
  induction ts with
  | nil => rfl
  | cons t ts ih => simp [pushes, ih]

theorem visits_map_push (ts : List (Int × Int)) (rest : List Event) :
    visits (ts.map (fun t => Event.push t.1 t.2) ++ rest) = visits rest := by
  induction ts with
  | nil => rfl
  | cons t ts ih => simp [visits, ih]

/-- Result of the continuation algorithm on a Task whose range fits in an `int`. -/
theorem do_chunked_array_spec (S C : Int) (hS : 1 ≤ S) (n : Nat) (chunk : Int)
    (hn : n ≤ 30) (hc : 1 ≤ chunk) (hhi : chunk * 2 ^ n < 2147483648) :
    ∃ (c : Int) (m : Nat) (ts : List (Int × Int)),
      do_chunked_array S C chunk n =
        some (ts.map (fun t => Event.push t.1 t.2) ++
          [Event.iterate ((c - 1) * 2 ^ m) (c * 2 ^ m)]) ∧
      m ≤ n ∧ 1 ≤ c ∧ c * 2 ^ m = chunk * 2 ^ n ∧ (2 ^ m ≤ S ∨ C ≤ c * 2) ∧
      ChunkChain ts ((chunk - 1) * 2 ^ n) ((c - 1) * 2 ^ m) n := by
  obtain ⟨r, m, ts, hr, h1, h2, h3, h4, h5, h6, h7⟩ :=
    chunk_loop_spec S C hS 32 n chunk (by omega) hn hc hhi
  refine ⟨r.chunk, m, ts, ?_, h2, h3, h4, h5, h7⟩
  have hP := two_pow_pos m
  have hP2 : (2 : Int) ^ m ≤ r.chunk * 2 ^ m := le_mul_of_one_le_left (by omega) h3
  have hsub : (r.chunk - 1) * 2 ^ m = r.chunk * 2 ^ m - 2 ^ m := by ring
  have hw1 : wrap32 (r.chunk - 1) = r.chunk - 1 := by
    have hX : r.chunk ≤ r.chunk * 2 ^ m := le_mul_of_one_le_right (by omega) hP
    rw [wrap32_eq] <;> omega
  unfold do_chunked_array
  rw [hr]
  simp only [Option.map_some', h1, h6, shl32_one m (by omega), hw1]
  rw [wrap32_eq _ (by omega) (by omega), wrap32_eq _ (by omega) (by omega)]

theorem log2_loop_spec (x : Nat) :
    ∀ (fuel j : Nat), 2 ^ j ≤ x → x < 2 ^ (j + fuel) →
      ∃ b : Nat, log2_loop x fuel ((j : Int) - 1) (2 ^ j) = (b : Int) ∧ 2 ^ b ≤ x ∧
        x < 2 ^ (b + 1) := by
  intro fuel
  induction fuel with
  | zero => intro j h1 h2; simp at h2; omega
  | succ fuel ih =>
    intro j h1 h2
    rw [log2_loop, if_pos h1]
    have e1 : (j : Int) - 1 + 1 = ((j + 1 : Nat) : Int) - 1 := by push_cast; ring
    have e2 : 2 * 2 ^ j = 2 ^ (j + 1) := by ring
    rw [e1, e2]
    by_cases h3 : 2 ^ (j + 1) ≤ x
    · exact ih (j + 1) h3 (by rw [show j + 1 + fuel = j + (fuel + 1) by omega]; exact h2)
    · refine ⟨j, ?_, h1, by omega⟩
      cases fuel with
      | zero => simp [log2_loop]
      | succ f => rw [log2_loop, if_neg h3]; simp

/-- On a positive `int`, `log2_long` is the floor of the binary logarithm. -/
theorem log2_long_spec (len : Int) (h1 : 1 ≤ len) (h2 : len ≤ 2147483647) :
    ∃ b : Nat, log2_long len = (b : Int) ∧ b ≤ 30 ∧ (2 : Int) ^ b ≤ len ∧
      len < 2 ^ (b + 1) := by
  obtain ⟨x, rfl⟩ : ∃ x : Nat, len = (x : Int) := ⟨len.toNat, by omega⟩
  have hx : ((x : Int) % 18446744073709551616).toNat = x := by omega
  have h3 : 2 ^ 0 ≤ x := by simp; omega
  obtain ⟨b, hb, hb1, hb2⟩ := log2_loop_spec x 64 0 h3 (by norm_num; omega)
  refine ⟨b, ?_, ?_, by exact_mod_cast hb1, by exact_mod_cast hb2⟩
  · unfold log2_long
    rw [hx]
    simpa using hb
  · by_contra hgt
    have : (2 : Nat) ^ 31 ≤ 2 ^ b := Nat.pow_le_pow_right (by norm_num) (by omega)
    norm_num at this
    omega

/-- Values of `bits` for a positive length: the ceiling of the binary logarithm. -/
theorem start_bits_spec (len : Int) (h1 : 1 ≤ len) (h2 : len ≤ 2147483647) :
    ∃ n : Nat, start_bits len = (n : Int) ∧ n ≤ 31 ∧ len ≤ 2 ^ n ∧
      (n = 31 → 1073741824 < len) ∧ (1 ≤ n → (2 : Int) ^ (n - 1) < len) := by
  obtain ⟨b, hb, hb30, hlo, hhi⟩ := log2_long_spec len h1 h2
  unfold start_bits
  simp only [hb, shl32_one b hb30]
  have hpow : (2 : Int) ^ (b + 1) = 2 * 2 ^ b := by ring
  have h30 := two_pow_le_30 b hb30
  by_cases he : len = 2 ^ b
  · refine ⟨b, by simp [he], by omega, by omega, by omega, ?_⟩
    intro hb1
    obtain ⟨k, rfl⟩ : ∃ k, b = k + 1 := ⟨b - 1, by omega⟩
    have hP := two_pow_pos k
    have hpow2 : (2 : Int) ^ (k + 1) = 2 * 2 ^ k := by ring
    simp only [Nat.add_sub_cancel]
    omega
  · refine ⟨b + 1, ?_, by omega, by omega, ?_, ?_⟩
    · rw [if_pos he, wrap32_eq] <;> push_cast <;> omega
    · intro hb31
      have hb' : b = 30 := by omega
      subst hb'
      norm_num at hlo
      omega
    · intro _
      simp only [Nat.add_sub_cancel]
      omega

/-- State of the start algorithm at the end of its splitting loop, for a
positive length. -/
theorem start_split_spec (S C len : Int) (hS : 1 ≤ S) (h1 : 1 ≤ len)
    (h2 : len ≤ 2147483647) :
    ∃ (r : LoopResult) (m : Nat) (ts : List (Int × Int)),
      start_split S C len = some r ∧ r.pow = m ∧ m ≤ 30 ∧ 1 ≤ r.chunk ∧
      len ≤ r.chunk * 2 ^ m ∧ r.chunk * 2 ^ m ≤ 2147483648 ∧
      r.last_idx = (r.chunk - 1) * 2 ^ m ∧ r.last_idx < len ∧
      (2 ^ m ≤ S ∨ C ≤ wrap32 (r.chunk * 2)) ∧
      r.events = ts.map (fun t => Event.push t.1 t.2) ∧ ChunkChain ts 0 r.last_idx 32 := by
  obtain ⟨n, hn, hn31, hle, hbig, _⟩ := start_bits_spec len h1 h2
  unfold start_split
  simp only [hn]
  by_cases hov : (n : Int) ≥ 31
  · have hn' : n = 31 := by omega
    subst hn'
    have hbig' := hbig rfl
    rw [if_pos hov]
    have hpow : wrap32 (((31 : Nat) : Int) - 1) = ((30 : Nat) : Int) := by decide
    rw [hpow, shl32_one 30 (by omega)]
    obtain ⟨r, m, ts, hr, h3, h4, h5, h6, h7, h8, h9, h10, h11, h12⟩ :=
      start_loop_spec S C len hS 32 30 2 (2 ^ 30) (by omega) (by omega) (by omega)
        (by norm_num; omega) (by norm_num) h2 (by norm_num) (by norm_num; omega)
    refine ⟨{ r with events := Event.push 1 ((30 : Nat) : Int) :: r.events }, m,
      (1, ((30 : Nat) : Int)) :: ts, ?_, h3, h4, h5, h6, h7, h8, h9, h10, ?_, ?_⟩
    · rw [hr]; rfl
    · simp [h11]
    · exact ⟨30, rfl, by omega, by omega, by norm_num, by simpa using h12⟩
  · rw [if_neg hov]
    obtain ⟨r, m, ts, hr, h3, h4, h5, h6, h7, h8, h9, h10, h11, h12⟩ :=
      start_loop_spec S C len hS 32 n 1 0 (by omega) (by omega) (by omega)
        (by omega) (by have := two_pow_le_30 n (by omega); omega) h2 (by ring) (by omega)
    exact ⟨r, m, ts, hr, h3, by omega, h5, h6, h7, h8, h9, h10, h11,
      ChunkChain_mono ts _ _ n 32 (by omega) h12⟩

/-- Events of the start algorithm: a chain of chunk Tasks covering `[0, t)`,
then the directly visited range `[t, len)`. -/
theorem do_chunked_array_start_spec (S C len : Int) (hS : 1 ≤ S) (h1 : 0 ≤ len)
    (h2 : len ≤ 2147483647) :
    ∃ (ts : List (Int × Int)) (t : Int), ChunkChain ts 0 t 32 ∧ t ≤ len ∧
      (do_chunked_array_start S C len =
          some (ts.map (fun t => Event.push t.1 t.2) ++ [Event.iterate t len]) ∨
        (len = 0 ∧ ts = [] ∧ do_chunked_array_start S C len = some [])) := by
  unfold do_chunked_array_start
  by_cases hshort : len ≤ wrap32 (S * 2)
  · exact ⟨[], 0, rfl, h1, Or.inl (by rw [if_pos hshort]; rfl)⟩
  · rw [if_neg hshort]
    by_cases h0 : len = 0
    · subst h0
      refine ⟨[], 0, rfl, le_refl _, Or.inr ⟨rfl, rfl, ?_⟩⟩
      have hb : start_bits 0 = 0 := by decide
      have hs : shl32 1 0 = 1 := by decide
      have hns : ¬ ((1 : Int) > S ∧ wrap32 (1 * 2) < C) := by omega
      have hsp : start_split S C 0 = some ⟨1, 0, 0, []⟩ := by
        unfold start_split
        simp only [hb]
        rw [if_neg (by decide), show (32 : Nat) = 31 + 1 from rfl, start_loop, hs, if_neg hns]
      rw [hsp]
      rfl
    · obtain ⟨r, m, ts, hr, h3, h4, h5, h6, h7, h8, h9, h10, h11, h12⟩ :=
        start_split_spec S C len hS (by omega) h2
      refine ⟨ts, r.last_idx, h12, by omega, Or.inl ?_⟩
      rw [hr]
      simp [h9, h11]

theorem two_pow_lt_31 (m : Nat) (h : (2 : Int) ^ m < 2147483648) : m ≤ 30 := by
  by_contra hgt
  have := two_pow_le 31 m (by omega)
  norm_num at this
  omega

theorem ChunkChain_le : ∀ (ts : List (Int × Int)) (a b : Int) (n : Nat),
    ChunkChain ts a b n → a ≤ b
  | [], _, _, _, h => le_of_eq h
  | t :: ts, a, b, _, ⟨m, _, _, h3, h4, h5⟩ => by
    have := ChunkChain_le ts _ _ _ h5
    have hP := two_pow_pos m
    have : (t.1 - 1) * 2 ^ m = t.1 * 2 ^ m - 2 ^ m := by ring
    omega

theorem ChunkChain_valid : ∀ (ts : List (Int × Int)) (a b : Int) (n : Nat),
    ChunkChain ts a b n → ∀ t ∈ ts, ∃ m : Nat, t.2 = (m : Int) ∧ m < n ∧ 1 ≤ t.1 ∧
      a ≤ (t.1 - 1) * 2 ^ m ∧ t.1 * 2 ^ m ≤ b
  | [], _, _, _, _ => by simp
  | t :: ts, a, b, n, ⟨m, h1, h2, h3, h4, h5⟩ => by
    intro u hu
    have hle := ChunkChain_le ts _ _ _ h5
    rcases List.mem_cons.mp hu with rfl | hu
    · exact ⟨m, h1, h2, h3, by omega, hle⟩
    · obtain ⟨k, e1, e2, e3, e4, e5⟩ := ChunkChain_valid ts _ _ _ h5 u hu
      have hP := two_pow_pos m
      have : (t.1 - 1) * 2 ^ m = t.1 * 2 ^ m - 2 ^ m := by ring
      exact ⟨k, e1, by omega, e3, by omega, e5⟩

theorem ChunkChain_cover : ∀ (ts : List (Int × Int)) (a b : Int) (n : Nat),
    ChunkChain ts a b n → ∀ i : Int,
      List.countP (covers i) (ts.map chunkRange) = if a ≤ i ∧ i < b then 1 else 0
  | [], a, b, _, h => by
    intro i
    have : ¬ (a ≤ i ∧ i < b) := by have : a = b := h; omega
    simp [this]
  | t :: ts, a, b, n, ⟨m, h1, h2, h3, h4, h5⟩ => by
    intro i
    have hle := ChunkChain_le ts _ _ _ h5
    have ih := ChunkChain_cover ts _ _ _ h5 i
    have hP := two_pow_pos m
    have hsub : (t.1 - 1) * 2 ^ m = t.1 * 2 ^ m - 2 ^ m := by ring
    have hr : chunkRange t = (a, t.1 * 2 ^ m) := by
      unfold chunkRange
      rw [h1, Int.toNat_ofNat, h4]
    rw [List.map_cons, List.countP_cons, ih, hr]
    unfold covers
    by_cases c1 : a ≤ i <;> by_cases c2 : i < t.1 * 2 ^ m <;> by_cases c3 : i < b <;>
      simp [c1, c2, c3] <;> omega

theorem ChunkChain_work : ∀ (ts : List (Int × Int)) (a b : Int) (n : Nat),
    ChunkChain ts a b n → (chunkWork ts : Int) = b - a
  | [], a, b, _, h => by
    have : a = b := h
    simp [chunkWork, this]
  | t :: ts, a, b, n, ⟨m, h1, h2, h3, h4, h5⟩ => by
    have ih := ChunkChain_work ts _ _ _ h5
    have hsub : (t.1 - 1) * 2 ^ m = t.1 * 2 ^ m - 2 ^ m := by ring
    unfold chunkWork at ih ⊢
    rw [List.map_cons, List.sum_cons, h1, Int.toNat_ofNat]
    push_cast at ih ⊢
    omega

theorem select_perm {α : Type} (k : Nat) (l : List α) (t : α) (rest : List α)
    (h : select k l = some (t, rest)) : l.Perm (t :: rest) := by
  unfold select at h
  have hl := List.take_append_drop k l
  cases hd : l.drop k with
  | nil => rw [hd] at h; simp at h
  | cons u post =>
    rw [hd] at h hl
    simp only [Option.some.injEq, Prod.mk.injEq] at h
    obtain ⟨rfl, rfl⟩ := h
    have hp : (l.take k ++ u :: post).Perm (u :: (l.take k ++ post)) := List.perm_middle
    rwa [hl] at hp

/-- One run of the continuation algorithm on a valid Task: the Tasks it pushes
are valid and smaller, and with the range it visits they cover the range of
the Task exactly once. -/
theorem valid_task_split (S C L : Int) (hS : 1 ≤ S) (hL : L ≤ 2147483647) (t : Int × Int)
    (ht : ValidTask L t) :
    ∃ (lo hi : Int) (ts : List (Int × Int)),
      do_chunked_array S C t.1 t.2 =
        some (ts.map (fun u => Event.push u.1 u.2) ++ [Event.iterate lo hi]) ∧
      (∀ u ∈ ts, ValidTask L u) ∧ chunkWork ts < 2 ^ t.2.toNat ∧
      0 ≤ lo ∧ lo < hi ∧ hi ≤ L ∧
      ∀ i : Int, List.countP (covers i) [(lo, hi)] +
        List.countP (covers i) (ts.map chunkRange) = if covers i (chunkRange t) then 1 else 0 := by
  obtain ⟨n, hn, hn30, hc, hhi⟩ := ht
  rw [hn]
  obtain ⟨c, m, ts, hrun, h1, h2, h3, h4, h5⟩ :=
    do_chunked_array_spec S C hS n t.1 hn30 hc (by omega)
  have hPm := two_pow_pos m
  have hPn := two_pow_pos n
  have hsubm : (c - 1) * 2 ^ m = c * 2 ^ m - 2 ^ m := by ring
  have hsubn : (t.1 - 1) * 2 ^ n = t.1 * 2 ^ n - 2 ^ n := by ring
  have hPn2 : (2 : Int) ^ n ≤ t.1 * 2 ^ n := le_mul_of_one_le_left (by omega) hc
  have hle := ChunkChain_le _ _ _ _ h5
  refine ⟨(c - 1) * 2 ^ m, c * 2 ^ m, ts, hrun, ?_, ?_, by omega, by omega, by omega, ?_⟩
  · intro u hu
    obtain ⟨k, e1, e2, e3, e4, e5⟩ := ChunkChain_valid _ _ _ _ h5 u hu
    exact ⟨k, e1, by omega, e3, by omega⟩
  · have hw := ChunkChain_work _ _ _ _ h5
    have : ((chunkWork ts : Nat) : Int) < ((2 ^ n : Nat) : Int) := by push_cast; omega
    rw [Int.toNat_ofNat]
    exact_mod_cast this
  · intro i
    rw [ChunkChain_cover _ _ _ _ h5 i]
    have hr : chunkRange t = ((t.1 - 1) * 2 ^ n, t.1 * 2 ^ n) := by
      unfold chunkRange
      rw [hn, Int.toNat_ofNat]
    rw [hr]
    simp only [List.countP_cons, List.countP_nil, covers]
    by_cases c1 : (t.1 - 1) * 2 ^ n ≤ i <;> by_cases c2 : i < (c - 1) * 2 ^ m <;>
      by_cases c3 : i < t.1 * 2 ^ n <;> by_cases c4 : (c - 1) * 2 ^ m ≤ i <;>
      by_cases c5 : i < c * 2 ^ m <;> simp [c1, c2, c3, c4, c5] <;> omega

theorem chunkWork_append (xs ys : List (Int × Int)) :
    chunkWork (xs ++ ys) = chunkWork xs + chunkWork ys := by
  simp [chunkWork]

theorem chunkWork_perm (xs ys : List (Int × Int)) (h : xs.Perm ys) :
    chunkWork xs = chunkWork ys := by
  unfold chunkWork
  exact (h.map _).sum_eq

/-- Running all pending chunk Tasks ends, whatever the order in which they are
taken, and visits every index of their ranges as often as the ranges hold it. -/
theorem run_chunks_spec (S C L : Int) (pick : List (Int × Int) → Nat) (hS : 1 ≤ S)
    (hL : L ≤ 2147483647) :
    ∀ (fuel : Nat) (pending : List (Int × Int)), (∀ t ∈ pending, ValidTask L t) →
      chunkWork pending < fuel →
      ∃ vs, run_chunks S C pick fuel pending = some vs ∧
        (∀ r ∈ vs, 0 ≤ r.1 ∧ r.1 < r.2 ∧ r.2 ≤ L) ∧
        ∀ i : Int, List.countP (covers i) vs = List.countP (covers i) (pending.map chunkRange) := by
  intro fuel
  induction fuel with
  | zero => intro _ _ h; omega
  | succ fuel ih =>
    intro pending hv hw
    cases pending with
    | nil => exact ⟨[], rfl, by simp, by simp⟩
    | cons t0 rest0 =>
      rw [run_chunks]
      generalize hsel : (select (pick (t0 :: rest0)) (t0 :: rest0)).getD (t0, rest0) = sel
      have hperm : (t0 :: rest0).Perm (sel.1 :: sel.2) := by
        cases hs : select (pick (t0 :: rest0)) (t0 :: rest0) with
        | none => rw [hs] at hsel; subst hsel; exact List.Perm.refl _
        | some p =>
          rw [hs] at hsel
          subst hsel
          exact select_perm _ _ _ _ hs
      have hv1 : ValidTask L sel.1 := hv _ (hperm.mem_iff.mpr (List.mem_cons_self _ _))
      obtain ⟨lo, hi, ts, hrun, hvts, hwts, hlo, hlh, hhi, hcov⟩ :=
        valid_task_split S C L hS hL sel.1 hv1
      simp only [hrun, pushes_map_push, visits_map_push, pushes, visits, List.append_nil]
      have hwp := chunkWork_perm _ _ hperm
      have hwc : chunkWork (sel.1 :: sel.2) = 2 ^ sel.1.2.toNat + chunkWork sel.2 := by
        simp [chunkWork]
      obtain ⟨vs, hvs, hrng, hcnt⟩ := ih (sel.2 ++ ts)
        (by
          intro u hu
          rcases List.mem_append.mp hu with hu | hu
          · exact hv _ (hperm.mem_iff.mpr (List.mem_cons_of_mem _ hu))
          · exact hvts u hu)
        (by rw [chunkWork_append]; omega)
      refine ⟨(lo, hi) :: vs, by rw [hvs]; rfl, ?_, ?_⟩
      · intro r hr
        rcases List.mem_cons.mp hr with rfl | hr
        · exact ⟨hlo, hlh, hhi⟩
        · exact hrng r hr
      · intro i
        have h1 := hcov i
        have h2 := (hperm.map chunkRange).countP_eq (covers i)
        rw [h2, List.countP_cons, hcnt i, List.map_append, List.countP_append, List.map_cons,
          List.countP_cons]
        simp only [List.countP_cons, List.countP_nil] at h1
        omega

theorem start_pushes_valid (S C L : Int) (hS : 1 ≤ S) (hL0 : 0 ≤ L) (hL : L ≤ 2147483647)
    (evs : List Event) (h : do_chunked_array_start S C L = some evs) :
    ∀ t ∈ pushes evs, ValidTask L t := by
  obtain ⟨ts, b, hchain, hb, hrun⟩ := do_chunked_array_start_spec S C L hS hL0 hL
  have hts : pushes evs = ts := by
    rcases hrun with hrun | ⟨_, h1, hrun⟩
    · rw [hrun] at h
      rw [← Option.some.inj h, pushes_map_push]
      simp [pushes]
    · rw [hrun] at h
      rw [← Option.some.inj h, h1]
      rfl
  rw [hts]
  intro t ht
  obtain ⟨m, e1, _, e3, _, e5⟩ := ChunkChain_valid _ _ _ _ hchain t ht
  have hP2 : (2 : Int) ^ m ≤ t.1 * 2 ^ m := le_mul_of_one_le_left (by positivity) e3
  exact ⟨m, e1, two_pow_lt_31 m (by omega), e3, by omega⟩

theorem Pushed_valid (S C L : Int) (hS : 1 ≤ S) (hL0 : 0 ≤ L) (hL : L ≤ 2147483647)
    (t : Int × Int) (h : Pushed S C L t) : ValidTask L t := by
  induction h with
  | start _ _ hrun hmem => exact start_pushes_valid S C L hS hL0 hL _ hrun _ hmem
  | split _ _ _ _ hrun hmem ih =>
    obtain ⟨lo, hi, ts, hrun2, hv, _⟩ := valid_task_split S C L hS hL _ ih
    rw [hrun2] at hrun
    rw [← Option.some.inj hrun, pushes_map_push] at hmem
    simp only [pushes, List.append_nil] at hmem
    exact hv _ hmem

theorem ChunkChain_shape : ∀ (ts : List (Int × Int)) (a b : Int) (n : Nat),
    ChunkChain ts a b n →
      List.Chain' (fun x y => (chunkRange x).2 = (chunkRange y).1 ∧ y.2 < x.2) ts ∧
      List.Pairwise (fun x y => (chunkRange x).2 ≤ (chunkRange y).1) ts ∧
      (∀ x, ts.head? = some x → (chunkRange x).1 = a) ∧
      (∀ x, ts.getLast? = some x → (chunkRange x).2 = b) ∧
      ∀ x ∈ ts, 1 ≤ x.1 ∧ 0 ≤ x.2 ∧ (chunkRange x).2 - (chunkRange x).1 = 2 ^ x.2.toNat
  | [], _, _, _, _ => by simp
  | t :: ts, a, b, n, ⟨m, h1, h2, h3, h4, h5⟩ => by
    obtain ⟨ih1, ih2, ih3, ih4, ih5⟩ := ChunkChain_shape ts _ _ _ h5
    have hr : chunkRange t = (a, t.1 * 2 ^ m) := by
      unfold chunkRange
      rw [h1, Int.toNat_ofNat, h4]
    have hsub : (t.1 - 1) * 2 ^ m = t.1 * 2 ^ m - 2 ^ m := by ring
    refine ⟨?_, ?_, ?_, ?_, ?_⟩
    · cases ts with
      | nil => exact List.chain'_singleton _
      | cons u us =>
        refine List.Chain'.cons ?_ ih1
        obtain ⟨k, e1, e2, _, _, _⟩ := h5
        have hu := ih3 u rfl
        rw [hr, hu, h1, e1]
        exact ⟨rfl, by omega⟩
    · refine List.Pairwise.cons ?_ ih2
      intro u hu
      obtain ⟨k, e1, _, _, e4, _⟩ := ChunkChain_valid _ _ _ _ h5 u hu
      have : chunkRange u = ((u.1 - 1) * 2 ^ k, u.1 * 2 ^ k) := by
        unfold chunkRange
        rw [e1, Int.toNat_ofNat]
      rw [hr, this]
      exact e4
    · intro x hx
      simp only [List.head?_cons, Option.some.injEq] at hx
      rw [← hx, hr]
    · intro x hx
      cases ts with
      | nil =>
        simp only [List.getLast?_singleton, Option.some.injEq] at hx
        have hb : t.1 * 2 ^ m = b := h5
        rw [← hx, hr]
        exact hb
      | cons u us =>
        rw [List.getLast?_cons_cons] at hx
        exact ih4 x hx
    · intro x hx
      rcases List.mem_cons.mp hx with rfl | hx
      · refine ⟨h3, by omega, ?_⟩
        rw [hr, h1, Int.toNat_ofNat]
        show x.1 * 2 ^ m - a = 2 ^ m
        omega
      · exact ih5 x hx

/-- A length of at most `2*S`, with `2*S` fitting an `int`, takes the direct
branch of the start algorithm. -/
theorem short_array_direct (L S C : Int) (hL : 0 ≤ L) (hS : S ≤ 1073741823)
    (hshort : L ≤ 2 * S) : do_chunked_array_start S C L = some [Event.iterate 0 L] := by
  have hw : wrap32 (S * 2) = S * 2 := by rw [wrap32_eq] <;> omega
  unfold do_chunked_array_start
  rw [hw, if_pos (by omega)]

/-! ## Claims on the array chunk decomposer -/

/-- C1. Array partition completeness: for a length `0 ≤ L ≤ 2^31-1`, a stride
`S ≥ 1` and any cap `C`, the start algorithm returns, running the continuation
algorithm on every chunk Task pushed (transitively, in any order `pick`) ends
within `L + 1` steps, and every index lies in exactly one visited range when
it is in `[0, L)` and in none otherwise. -/
theorem array_partition_complete (L S C : Int) (pick : List (Int × Int) → Nat) (fuel : Nat)
    (hL0 : 0 ≤ L) (hL : L ≤ 2147483647) (hS : 1 ≤ S) (hfuel : L.toNat < fuel) :
    ∃ evs vs, do_chunked_array_start S C L = some evs ∧
      run_chunks S C pick fuel (pushes evs) = some vs ∧
      ∀ i : Int, List.countP (covers i) (visits evs ++ vs) = if 0 ≤ i ∧ i < L then 1 else 0 := by
  obtain ⟨ts, b, hchain, hb, hrun⟩ := do_chunked_array_start_spec S C L hS hL0 hL
  have hb0 := ChunkChain_le _ _ _ _ hchain
  have hwork := ChunkChain_work _ _ _ _ hchain
  have hcover := ChunkChain_cover _ _ _ _ hchain
  obtain ⟨evs, hevs, hp, hv⟩ : ∃ evs, do_chunked_array_start S C L = some evs ∧
      pushes evs = ts ∧ ∀ i : Int, List.countP (covers i) (visits evs) =
        if b ≤ i ∧ i < L then 1 else 0 := by
    rcases hrun with hrun | ⟨h0, h1, hrun⟩
    · refine ⟨_, hrun, by simp [pushes_map_push, pushes], ?_⟩
      intro i
      simp only [visits_map_push, visits, List.countP_cons, List.countP_nil, covers]
      by_cases c1 : b ≤ i <;> by_cases c2 : i < L <;> simp [c1, c2]
    · refine ⟨_, hrun, by rw [h1]; rfl, ?_⟩
      intro i
      have : ¬ (b ≤ i ∧ i < L) := by omega
      simp [visits, this]
  have hvalid := start_pushes_valid S C L hS hL0 hL evs hevs
  obtain ⟨vs, hvs, _, hcnt⟩ := run_chunks_spec S C L pick hS hL fuel (pushes evs) hvalid
    (by rw [hp]; omega)
  refine ⟨evs, vs, hevs, hvs, ?_⟩
  intro i
  rw [List.countP_append, hv i, hcnt i, hp, hcover i]
  by_cases c1 : 0 ≤ i <;> by_cases c2 : i < b <;> by_cases c3 : i < L <;>
    by_cases c4 : b ≤ i <;> simp [c1, c2, c3, c4] <;> omega

/-- C1 at length 1000, stride 16, cap 1024, taking the pending Tasks in
list order. -/
theorem array_partition_complete_witness :
    ∃ evs vs, do_chunked_array_start 16 1024 1000 = some evs ∧
      run_chunks 16 1024 (fun _ => 0) 1001 (pushes evs) = some vs ∧
      ∀ i : Int, List.countP (covers i) (visits evs ++ vs) =
        if 0 ≤ i ∧ i < 1000 then 1 else 0 :=
  array_partition_complete 1000 16 1024 (fun _ => 0) 1001 (by decide) (by decide) (by decide)
    (by decide)

/-- C2. Pushed chunks are always in bounds: for `0 ≤ L ≤ 2^31-1`, `S ≥ 1` and
any `C`, every chunk Task that stems from the start algorithm has a valid
exponent and a range inside `[0, L]`, and `do_chunked_array` run on it visits
one range `[from, to)` that passes both debug assertions, `0 ≤ from < L` and
`0 < to ≤ L`. -/
theorem pushed_chunks_in_bounds (L S C : Int) (t : Int × Int)
    (hL0 : 0 ≤ L) (hL : L ≤ 2147483647) (hS : 1 ≤ S) (ht : Pushed S C L t) :
    (0 ≤ t.2 ∧ t.2 ≤ 30 ∧ 1 ≤ t.1 ∧ 0 ≤ (chunkRange t).1 ∧
      (chunkRange t).1 < (chunkRange t).2 ∧ (chunkRange t).2 ≤ L) ∧
    ∃ evs lo hi, do_chunked_array S C t.1 t.2 = some evs ∧ visits evs = [(lo, hi)] ∧
      (0 ≤ lo ∧ lo < L) ∧ (0 < hi ∧ hi ≤ L) ∧ lo < hi := by
  have hv := Pushed_valid S C L hS hL0 hL t ht
  obtain ⟨lo, hi, ts, hrun, _, _, h1, h2, h3, _⟩ := valid_task_split S C L hS hL t hv
  obtain ⟨m, e1, e2, e3, e4⟩ := hv
  have hP := two_pow_pos m
  have hP2 : (2 : Int) ^ m ≤ t.1 * 2 ^ m := le_mul_of_one_le_left (by omega) e3
  have hsub : (t.1 - 1) * 2 ^ m = t.1 * 2 ^ m - 2 ^ m := by ring
  refine ⟨?_, _, lo, hi, hrun, by simp [visits_map_push, visits], ⟨h1, by omega⟩,
    ⟨by omega, h3⟩, h2⟩
  unfold chunkRange
  rw [e1, Int.toNat_ofNat]
  refine ⟨by omega, by omega, e3, by omega, by omega, e4⟩

/-- C2 at the Task `(3, 7)` pushed by the continuation on `(1, 9)`, itself pushed
by the start algorithm for length 1000, stride 16, cap 1024. -/
theorem pushed_chunks_in_bounds_witness :
    Pushed 16 1024 1000 (3, 7) ∧
    ((0 ≤ ((3, 7) : Int × Int).2 ∧ ((3, 7) : Int × Int).2 ≤ 30 ∧ 1 ≤ ((3, 7) : Int × Int).1 ∧
      0 ≤ (chunkRange (3, 7)).1 ∧ (chunkRange (3, 7)).1 < (chunkRange (3, 7)).2 ∧
      (chunkRange (3, 7)).2 ≤ 1000) ∧
    ∃ evs lo hi, do_chunked_array 16 1024 ((3, 7) : Int × Int).1 ((3, 7) : Int × Int).2 = some evs ∧
      visits evs = [(lo, hi)] ∧ (0 ≤ lo ∧ lo < 1000) ∧ (0 < hi ∧ hi ≤ 1000) ∧ lo < hi) :=
  have h : Pushed 16 1024 1000 (3, 7) :=
    Pushed.split
      [Event.push 1 8, Event.push 3 7, Event.push 7 6, Event.push 15 5, Event.push 31 4,
        Event.iterate 496 512] (1, 9) (3, 7)
      (Pushed.start
        [Event.push 1 9, Event.push 3 8, Event.push 7 7, Event.push 15 6, Event.push 31 5,
          Event.iterate 992 1000] (1, 9) (by decide) (by decide))
      (by decide) (by decide)
  ⟨h, pushed_chunks_in_bounds 1000 16 1024 (3, 7) (by decide) (by decide) (by decide) h⟩

/-- C6, as stated, fails: for length 10 and stride 4 the test `10 <= 4*2` is
false, and with cap 1024 the start algorithm pushes the chunk Task `(1, 3)`
and visits the tail `[8, 10)` instead of the single range `[0, 10)`. -/
theorem start_length10_stride4_pushes :
    do_chunked_array_start 4 1024 10 = some [Event.push 1 3, Event.iterate 8 10] ∧
    do_chunked_array_start 4 1024 10 ≠ some [Event.iterate 0 10] := by
  decide

/-- C6 amended. For length 10 and stride 4 the start algorithm chunks, since
`10 > 2*4`: for every cap `C > 2` it pushes the one chunk Task `(1, 3)`, range
`[0, 8)`, and visits the tail `[8, 10)`; for `C ≤ 2` it visits `[0, 10)` and
pushes nothing. -/
theorem start_length10_stride4 (C : Int) :
    do_chunked_array_start 4 C 10 =
      if 2 < C then some [Event.push 1 3, Event.iterate 8 10] else some [Event.iterate 0 10] := by
  have hb : start_bits 10 = 4 := by decide
  have hw : ¬ ((10 : Int) ≤ wrap32 (4 * 2)) := by decide
  have e1 : shl32 1 4 = 16 := by decide
  have e2 : wrap32 (1 * 2) = 2 := by decide
  have e3 : wrap32 (4 - 1) = 3 := by decide
  have e4 : shl32 1 3 = 8 := by decide
  have e5 : wrap32 (2 - 1) = 1 := by decide
  have e6 : wrap32 (1 * 8) = 8 := by decide
  have e7 : wrap32 (2 * 2) = 4 := by decide
  have e8 : wrap32 (3 - 1) = 2 := by decide
  have e9 : shl32 1 2 = 4 := by decide
  have e10 : wrap32 (3 * 4) = 12 := by decide
  have e11 : wrap32 (3 * 2) = 6 := by decide
  have key : ∀ f : Nat, (start_loop 4 C 10 (f + 1 + 1 + 1) 1 4 0).map
      (fun r => if r.last_idx < 10 then r.events ++ [Event.iterate r.last_idx 10] else r.events)
      = if 2 < C then some [Event.push 1 3, Event.iterate 8 10]
        else some [Event.iterate 0 10] := by
    intro f
    by_cases h1 : 2 < C
    · by_cases h2 : 4 < C
      · simp only [start_loop, e1, e2, e3, e4, e5, e6, e7, e8, e9, e10, e11, h1, h2]
        simp
      · simp only [start_loop, e1, e2, e3, e4, e5, e6, e7, e8, e9, e10, e11, h1, h2]
        simp
    · simp only [start_loop, e1, e2, h1]
      simp
  unfold do_chunked_array_start start_split
  rw [if_neg hw, hb, if_neg (by decide)]
  exact key 29

/-- C9, as stated, fails: for stride `2^30` the product `(int) stride * 2` wraps
to `-2^31`, so an array of length `2^30 + 1 ≤ 2 * 2^30` is not taken as short:
the chunk Task `(1, 30)` is pushed and only `[2^30, 2^30 + 1)` is visited
directly. -/
theorem start_short_array_stride_overflow :
    (1073741825 : Int) ≤ 2 * 1073741824 ∧
    do_chunked_array_start 1073741824 1024 1073741825 =
      some [Event.push 1 30, Event.iterate 1073741824 1073741825] ∧
    do_chunked_array_start 1073741824 1024 1073741825 ≠
      some [Event.iterate 0 1073741825] := by
  decide

/-- C9 amended. Start algorithm on a short array: for every length `L ≥ 0` and
stride `S` with `L ≤ 2*S`, where `2*S` fits a signed 32-bit `int`
(`S ≤ 2^30 - 1`), `do_chunked_array_start` visits exactly the one range
`[0, L)` and pushes no Task, whatever the cap. -/
theorem start_short_array (L S C : Int) (hL : 0 ≤ L) (hS : S ≤ 1073741823)
    (hshort : L ≤ 2 * S) :
    do_chunked_array_start S C L = some [Event.iterate 0 L] ∧
    pushes [Event.iterate 0 L] = [] ∧ visits [Event.iterate 0 L] = [(0, L)] :=
  ⟨short_array_direct L S C hL hS hshort, rfl, rfl⟩

/-- C9 amended, at length 1024 and stride 512 (the default stride). -/
theorem start_short_array_witness :
    do_chunked_array_start 512 1024 1024 = some [Event.iterate 0 1024] ∧
    pushes [Event.iterate 0 1024] = [] ∧ visits [Event.iterate 0 1024] = [(0, 1024)] :=
  start_short_array 1024 512 1024 (by decide) (by decide) (by decide)

/-- C10. Shape of the start algorithm's output on a long array: for `S ≥ 1`,
`C > 2` and `2*S < L ≤ 2^31-1` the events are the pushes of a non-empty list
`ts` of chunk Tasks followed by one directly visited range `[t, L)`. The range
of the first Task starts at 0, each range starts where the previous one ends
and is strictly smaller than it, each has size `2^pow`, the ranges are pairwise
disjoint, and `t` is the end of the last pushed range, with `t < L`. -/
theorem start_long_array_shape (L S C : Int) (hS : 1 ≤ S) (hC : 2 < C) (hlong : 2 * S < L)
    (hL : L ≤ 2147483647) :
    ∃ (ts : List (Int × Int)) (first last : Int × Int) (t : Int),
      do_chunked_array_start S C L =
        some (ts.map (fun u => Event.push u.1 u.2) ++ [Event.iterate t L]) ∧
      ts.head? = some first ∧ (chunkRange first).1 = 0 ∧
      ts.getLast? = some last ∧ (chunkRange last).2 = t ∧ t < L ∧
      List.Chain' (fun x y => (chunkRange x).2 = (chunkRange y).1 ∧
        (chunkRange y).2 - (chunkRange y).1 < (chunkRange x).2 - (chunkRange x).1) ts ∧
      (∀ x ∈ ts, 1 ≤ x.1 ∧ 0 ≤ x.2 ∧ (chunkRange x).2 - (chunkRange x).1 = 2 ^ x.2.toNat) ∧
      List.Pairwise (fun x y => ∀ i : Int,
        ¬ (covers i (chunkRange x) = true ∧ covers i (chunkRange y) = true)) ts := by
  obtain ⟨r, m, ts, hr, h3, h4, h5, h6, h7, h8, h9, h10, h11, h12⟩ :=
    start_split_spec S C L hS (by omega) hL
  obtain ⟨s1, s2, s3, s4, s5⟩ := ChunkChain_shape _ _ _ _ h12
  have hP := two_pow_pos m
  have hne : ts ≠ [] := by
    intro he
    subst he
    have h0 : (0 : Int) = r.last_idx := h12
    have hc1 : r.chunk = 1 := by
      have hz : (r.chunk - 1) * 2 ^ m = 0 := by omega
      rcases mul_eq_zero.mp hz with hz | hz <;> omega
    rw [hc1] at h6 h10
    have hw : wrap32 (1 * 2) = 2 := by decide
    rw [hw] at h10
    omega
  obtain ⟨first, rest, rfl⟩ := List.exists_cons_of_ne_nil hne
  refine ⟨first :: rest, first, (first :: rest).getLast hne, r.last_idx, ?_, rfl, s3 first rfl,
    List.getLast?_eq_getLast _ hne, s4 _ (List.getLast?_eq_getLast _ hne), h9, ?_, s5, ?_⟩
  · unfold do_chunked_array_start
    have hw : wrap32 (S * 2) = S * 2 := by rw [wrap32_eq] <;> omega
    rw [hw, if_neg (by omega), hr]
    simp [h9, h11]
  · refine (List.Chain'.iff_mem.mp s1).imp ?_
    rintro x y ⟨hx, hy, hxy⟩
    refine ⟨hxy.1, ?_⟩
    obtain ⟨_, hx2, hxs⟩ := s5 x hx
    obtain ⟨_, hy2, hys⟩ := s5 y hy
    rw [hxs, hys]
    exact pow_lt_pow_right₀ (by norm_num) (by omega)
  · refine List.Pairwise.imp ?_ s2
    intro x y hxy i hcov
    unfold covers at hcov
    simp only [Bool.and_eq_true, decide_eq_true_eq] at hcov
    omega

/-- C10 at length 1000, stride 16, cap 1024: five chunk Tasks are pushed, of
sizes 512, 256, 128, 64 and 32, and the tail visited directly is `[992, 1000)`. -/
theorem start_long_array_shape_witness :
    (∃ (ts : List (Int × Int)) (first last : Int × Int) (t : Int),
      do_chunked_array_start 16 1024 1000 =
        some (ts.map (fun u => Event.push u.1 u.2) ++ [Event.iterate t 1000]) ∧
      ts.head? = some first ∧ (chunkRange first).1 = 0 ∧
      ts.getLast? = some last ∧ (chunkRange last).2 = t ∧ t < 1000 ∧
      List.Chain' (fun x y => (chunkRange x).2 = (chunkRange y).1 ∧
        (chunkRange y).2 - (chunkRange y).1 < (chunkRange x).2 - (chunkRange x).1) ts ∧
      (∀ x ∈ ts, 1 ≤ x.1 ∧ 0 ≤ x.2 ∧ (chunkRange x).2 - (chunkRange x).1 = 2 ^ x.2.toNat) ∧
      List.Pairwise (fun x y => ∀ i : Int,
        ¬ (covers i (chunkRange x) = true ∧ covers i (chunkRange y) = true)) ts) ∧
    do_chunked_array_start 16 1024 1000 =
      some [Event.push 1 9, Event.push 3 8, Event.push 7 7, Event.push 15 6, Event.push 31 5,
        Event.iterate 992 1000] :=
  ⟨start_long_array_shape 1000 16 1024 (by decide) (by decide) (by decide) (by decide),
    by decide⟩

/-! ## Claims on liveness accounting -/

theorem live_data_max_eq : live_data_max = 65535 := by decide

theorem push_whole_tasks (q : SCMObjToScanQueue) (t : SCMTask) (x : Nat) :
    (q.push t).whole_tasks x =
      q.whole_tasks x + if t.obj = x ∧ t.is_not_chunked = true then 1 else 0 := by
  unfold SCMObjToScanQueue.push SCMObjToScanQueue.whole_tasks SCMObjToScanQueue.tasks
  cases hb : q.buf with
  | none =>
    by_cases ht : t.obj = x ∧ t.is_not_chunked = true
    · simp [hb, ht, List.countP_cons]
    · have : ¬ (decide (t.obj = x) && t.is_not_chunked) = true := by simpa using ht
      simp [hb, ht, List.countP_cons, this]
  | some e =>
    by_cases hc : q.deque.length < q.cap <;> by_cases ht : t.obj = x ∧ t.is_not_chunked = true
    · simp [hb, hc, ht, List.countP_cons, List.countP_append]
    · have : ¬ (decide (t.obj = x) && t.is_not_chunked) = true := by simpa using ht
      simp [hb, hc, ht, List.countP_cons, List.countP_append, this]
    · simp [hb, hc, ht, List.countP_cons, List.countP_append]
      omega
    · have : ¬ (decide (t.obj = x) && t.is_not_chunked) = true := by simpa using ht
      simp [hb, hc, ht, List.countP_cons, List.countP_append, this]
      omega

/-- Resolving a reference changes at most the contents of the cells. -/
theorem resolve_ref_frame (mode : UpdateRefsMode) (race : Option (Option Nat)) (p o : Nat)
    (h : ShenandoahHeap) :
    (resolve_ref mode race p o h).2.marked = h.marked ∧
    (resolve_ref mode race p o h).2.queues = h.queues ∧
    (resolve_ref mode race p o h).2.fwd = h.fwd ∧
    (resolve_ref mode race p o h).2.live = h.live ∧
    (resolve_ref mode race p o h).2.live_data = h.live_data ∧
    (resolve_ref mode race p o h).2.fields = h.fields ∧
    (resolve_ref mode race p o h).2.is_objArray = h.is_objArray := by
  cases mode
  · exact ⟨rfl, rfl, rfl, rfl, rfl, rfl, rfl⟩
  · exact ⟨rfl, rfl, rfl, rfl, rfl, rfl, rfl⟩
  · exact ⟨rfl, rfl, rfl, rfl, rfl, rfl, rfl⟩
  · simp only [resolve_ref, maybe_update_oop_ref_not_null]
    split_ifs <;> exact ⟨rfl, rfl, rfl, rfl, rfl, rfl, rfl⟩

/-- Effect of one call of the marking primitive on the mark state and on the
queues: the resolved object becomes marked, and a whole-object Task for it is
pushed on the caller's queue exactly when it was unmarked. -/
theorem mark_call_effect (c : MarkCall) (h : ShenandoahHeap) :
    (∀ x, (c.apply h).marked x = (h.marked x || decide (c.resolved h = some x))) ∧
    ∀ v x, ((c.apply h).queues v).whole_tasks x = (h.queues v).whole_tasks x +
      if v = c.w ∧ h.marked x = false ∧ c.resolved h = some x then 1 else 0 := by
  unfold MarkCall.apply MarkCall.resolved mark_through_ref
  cases hm : h.mem c.p with
  | none => simp
  | some o =>
    obtain ⟨f1, f2, -⟩ := resolve_ref_frame c.mode c.race c.p o h
    obtain ⟨r, hr⟩ : ∃ r, resolve_ref c.mode c.race c.p o h = r := ⟨_, rfl⟩
    rw [hr] at f1 f2
    simp only [hr]
    obtain ⟨ro, rh⟩ := r
    simp only at f1 f2 ⊢
    cases ro with
    | none => simp [f1, f2]
    | some obj =>
      simp only [mark_next, f1]
      by_cases hmk : h.marked obj = true
      · simp only [hmk, if_true, f1, f2]
        refine ⟨?_, ?_⟩
        · intro x
          by_cases hx : obj = x
          · subst hx; simp [hmk, f1]
          · simp [hx, f1]
        · intro v x
          by_cases hx : obj = x
          · subst hx; simp [hmk, f2]
          · simp [hx, f2]
      · have hmk' : h.marked obj = false := by simpa using hmk
        simp only [hmk', push_task, f2]
        refine ⟨?_, ?_⟩
        · intro x
          by_cases hx : obj = x
          · subst hx; simp [upd]
          · have hx' : ¬ x = obj := fun e => hx e.symm
            simp [upd, hx, hx', f1]
        · intro v x
          by_cases hv : v = c.w
          · subst hv
            by_cases hx : obj = x
            · subst hx; simp [upd, push_whole_tasks, SCMTask.is_not_chunked, hmk']
            · simp [upd, push_whole_tasks, SCMTask.is_not_chunked, hx]
          · simp [upd, hv]

theorem range_sum_indicator (w : Nat) (P : Prop) [Decidable P] : ∀ n : Nat,
    ((List.range n).map (fun v => if v = w ∧ P then 1 else 0)).sum =
      if w < n ∧ P then 1 else 0 := by
  intro n
  induction n with
  | zero => simp
  | succ n ih =>
    rw [List.range_succ, List.map_append, List.sum_append, ih]
    by_cases hP : P
    · by_cases h1 : w < n
      · have h2 : ¬ n = w := by omega
        have h3 : w < n + 1 := by omega
        simp [hP, h1, h2, h3]
      · by_cases h2 : n = w
        · have h3 : w < n + 1 := by omega
          simp [hP, h1, h2, h3]
        · have h3 : ¬ w < n + 1 := by omega
          simp [hP, h1, h2, h3]
    · simp [hP]

theorem total_whole_tasks_step (c : MarkCall) (h : ShenandoahHeap) (o n : Nat) (hw : c.w < n) :
    total_whole_tasks o n (c.apply h) = total_whole_tasks o n h +
      if h.marked o = false ∧ c.resolved h = some o then 1 else 0 := by
  unfold total_whole_tasks
  have hq := (mark_call_effect c h).2
  simp only [hq, List.sum_map_add]
  rw [range_sum_indicator c.w (h.marked o = false ∧ c.resolved h = some o) n]
  simp [hw]

/-- C4. Exactly-once marking: over any sequence of `mark_through_ref` calls,
taken as atomic steps, with any cells, modes, races and workers `< n`, an
object `o` goes from unmarked to marked at most once; it does so exactly when
it was unmarked at the start and some call resolved to it; the number of
whole-object Tasks for `o` over all queues grows by exactly the number of such
transitions; and `o` is marked at the end iff it was marked at the start or
some call resolved to it. -/
theorem exactly_once_marking (o n : Nat) : ∀ (cs : List MarkCall) (h : ShenandoahHeap),
    (∀ c ∈ cs, c.w < n) →
    mark_transitions o cs h ≤ 1 ∧
    mark_transitions o cs h =
      (if h.marked o = false ∧ resolves_to o cs h = true then 1 else 0) ∧
    total_whole_tasks o n (mark_calls cs h) =
      total_whole_tasks o n h + mark_transitions o cs h ∧
    (mark_calls cs h).marked o = (h.marked o || resolves_to o cs h) := by
  intro cs
  induction cs with
  | nil => intro h _; simp [mark_transitions, resolves_to, mark_calls]
  | cons c cs ih =>
    intro h hw
    obtain ⟨i1, i2, i3, i4⟩ := ih (c.apply h) (fun x hx => hw x (List.mem_cons_of_mem _ hx))
    have hm := (mark_call_effect c h).1 o
    have ht := total_whole_tasks_step c h o n (hw c (List.mem_cons_self _ _))
    have hfold : mark_calls (c :: cs) h = mark_calls cs (c.apply h) := rfl
    rw [hfold, i3, i4, ht]
    simp only [mark_transitions, resolves_to, i2, hm]
    by_cases h1 : h.marked o = true <;> by_cases h2 : c.resolved h = some o <;>
      by_cases h3 : resolves_to o cs (c.apply h) = true <;> simp [h1, h2, h3]

/-- C4 on the example heap: workers 0 and 1 each call the primitive on a cell
that refers to the unmarked object 2. The first call pushes the Task, the
second pushes nothing: one Task in total. -/
theorem exactly_once_marking_witness :
    (mark_transitions 2 [⟨UpdateRefsMode.RESOLVE, none, 10, 0⟩,
        ⟨UpdateRefsMode.CONCURRENT, none, 11, 1⟩] example_heap ≤ 1 ∧
      mark_transitions 2 [⟨UpdateRefsMode.RESOLVE, none, 10, 0⟩,
        ⟨UpdateRefsMode.CONCURRENT, none, 11, 1⟩] example_heap =
        (if example_heap.marked 2 = false ∧ resolves_to 2 [⟨UpdateRefsMode.RESOLVE, none, 10, 0⟩,
          ⟨UpdateRefsMode.CONCURRENT, none, 11, 1⟩] example_heap = true then 1 else 0) ∧
      total_whole_tasks 2 2 (mark_calls [⟨UpdateRefsMode.RESOLVE, none, 10, 0⟩,
        ⟨UpdateRefsMode.CONCURRENT, none, 11, 1⟩] example_heap) =
        total_whole_tasks 2 2 example_heap + mark_transitions 2
          [⟨UpdateRefsMode.RESOLVE, none, 10, 0⟩,
            ⟨UpdateRefsMode.CONCURRENT, none, 11, 1⟩] example_heap ∧
      (mark_calls [⟨UpdateRefsMode.RESOLVE, none, 10, 0⟩,
        ⟨UpdateRefsMode.CONCURRENT, none, 11, 1⟩] example_heap).marked 2 =
        (example_heap.marked 2 || resolves_to 2 [⟨UpdateRefsMode.RESOLVE, none, 10, 0⟩,
          ⟨UpdateRefsMode.CONCURRENT, none, 11, 1⟩] example_heap)) ∧
    ((mark_calls [⟨UpdateRefsMode.RESOLVE, none, 10, 0⟩,
        ⟨UpdateRefsMode.CONCURRENT, none, 11, 1⟩] example_heap).queues 0).tasks = [⟨2, 0, 0⟩] ∧
    ((mark_calls [⟨UpdateRefsMode.RESOLVE, none, 10, 0⟩,
        ⟨UpdateRefsMode.CONCURRENT, none, 11, 1⟩] example_heap).queues 1).tasks = [] ∧
    total_whole_tasks 2 2 (mark_calls [⟨UpdateRefsMode.RESOLVE, none, 10, 0⟩,
        ⟨UpdateRefsMode.CONCURRENT, none, 11, 1⟩] example_heap) = 1 :=
  ⟨exactly_once_marking 2 2 _ example_heap (by decide), by decide, by decide, by decide⟩

/-! ## Claims on the SATB buffer drain -/

/-- In mode RESOLVE a call that finds a null cell or a marked object changes
nothing. -/
theorem mark_resolve_idle (p w : Nat) (h : ShenandoahHeap)
    (hp : ∀ e, h.mem p = some e → h.marked (h.fwd e) = true) :
    mark_through_ref UpdateRefsMode.RESOLVE none p w h = h := by
  unfold mark_through_ref
  cases hm : h.mem p with
  | none => rfl
  | some e => simp [resolve_ref, mark_next, hp e hm]

/-- In mode RESOLVE a call that finds an unmarked object marks it and pushes
its Task. -/
theorem mark_resolve_claim (p w e : Nat) (h : ShenandoahHeap) (hm : h.mem p = some e)
    (hu : h.marked (h.fwd e) = false) :
    mark_through_ref UpdateRefsMode.RESOLVE none p w h =
      push_task w ⟨h.fwd e, 0, 0⟩ { h with marked := upd h.marked (h.fwd e) true } := by
  unfold mark_through_ref
  simp [hm, resolve_ref, mark_next, hu]

theorem push_tasks_ne_nil (q : SCMObjToScanQueue) (t : SCMTask) : (q.push t).tasks ≠ [] := by
  unfold SCMObjToScanQueue.push SCMObjToScanQueue.tasks
  cases hb : q.buf with
  | none => simp
  | some e => by_cases hc : q.deque.length < q.cap <;> simp [hc]

theorem try_queue_none_iff (q : SCMObjToScanQueue) : try_queue q = none ↔ q.tasks = [] := by
  unfold try_queue SCMObjToScanQueue.pop_buffer SCMObjToScanQueue.pop_local
    SCMObjToScanQueue.pop_overflow SCMObjToScanQueue.tasks
  cases hb : q.buf <;> cases hd : q.deque <;> cases ho : q.overflow <;> simp

/-- State after the marking of the buffer entries with indices in `l`: cells
and forwarding are untouched, marks only grow, every logged object is marked,
and the worker's queue holds a Task iff it held one before or some entry
referred to an unmarked object. -/
theorem buffer_fold_spec (w buffer : Nat) : ∀ (l : List Nat) (h : ShenandoahHeap),
    (l.foldl (fun h i => mark_through_ref UpdateRefsMode.RESOLVE none (buffer + i) w h) h).mem
      = h.mem ∧
    (l.foldl (fun h i => mark_through_ref UpdateRefsMode.RESOLVE none (buffer + i) w h) h).fwd
      = h.fwd ∧
    (∀ x, h.marked x = true →
      (l.foldl (fun h i => mark_through_ref UpdateRefsMode.RESOLVE none (buffer + i) w h)
        h).marked x = true) ∧
    (∀ i ∈ l, ∀ e, h.mem (buffer + i) = some e →
      (l.foldl (fun h i => mark_through_ref UpdateRefsMode.RESOLVE none (buffer + i) w h)
        h).marked (h.fwd e) = true) ∧
    (((l.foldl (fun h i => mark_through_ref UpdateRefsMode.RESOLVE none (buffer + i) w h)
        h).queues w).tasks ≠ [] ↔
      ((h.queues w).tasks ≠ [] ∨
        ∃ i ∈ l, ∃ e, h.mem (buffer + i) = some e ∧ h.marked (h.fwd e) = false)) := by
  intro l
  induction l with
  | nil => intro h; simp
  | cons i l ih =>
    intro h
    simp only [List.foldl_cons]
    by_cases hidle : ∀ e, h.mem (buffer + i) = some e → h.marked (h.fwd e) = true
    · rw [mark_resolve_idle _ _ _ hidle]
      obtain ⟨i1, i2, i3, i4, i5⟩ := ih h
      refine ⟨i1, i2, i3, ?_, ?_⟩
      · intro j hj e he
        rcases List.mem_cons.mp hj with rfl | hj
        · exact i3 _ (hidle e he)
        · exact i4 j hj e he
      · rw [i5]
        constructor
        · rintro (hq | ⟨j, hj, e, he, hu⟩)
          · exact Or.inl hq
          · exact Or.inr ⟨j, List.mem_cons_of_mem _ hj, e, he, hu⟩
        · rintro (hq | ⟨j, hj, e, he, hu⟩)
          · exact Or.inl hq
          · rcases List.mem_cons.mp hj with rfl | hj
            · rw [hidle e he] at hu; cases hu
            · exact Or.inr ⟨j, hj, e, he, hu⟩
    · push_neg at hidle
      obtain ⟨e, he, hu⟩ := hidle
      have hu' : h.marked (h.fwd e) = false := by simpa using hu
      rw [mark_resolve_claim _ _ e _ he hu']
      obtain ⟨i1, i2, i3, i4, i5⟩ :=
        ih (push_task w ⟨h.fwd e, 0, 0⟩ { h with marked := upd h.marked (h.fwd e) true })
      have hmk : ∀ x, h.marked x = true → upd h.marked (h.fwd e) true x = true := by
        intro x hx
        unfold upd
        split_ifs <;> simp [hx]
      refine ⟨i1, i2, fun x hx => i3 x (hmk x hx), ?_, ?_⟩
      · intro j hj e2 he2
        rcases List.mem_cons.mp hj with rfl | hj
        · rw [he] at he2
          cases he2
          exact i3 _ (by simp [push_task, upd])
        · exact i4 j hj e2 he2
      · have hq : ((push_task w ⟨h.fwd e, 0, 0⟩
            { h with marked := upd h.marked (h.fwd e) true }).queues w).tasks ≠ [] := by
          simp only [push_task, upd, if_true]
          exact push_tasks_ne_nil _ _
        constructor
        · intro _
          exact Or.inr ⟨i, List.mem_cons_self _ _, e, he, hu'⟩
        · intro _
          exact i5.mpr (Or.inl hq)

theorem mark_resolve_mem (p w : Nat) (h : ShenandoahHeap) :
    (mark_through_ref UpdateRefsMode.RESOLVE none p w h).mem = h.mem ∧
    (mark_through_ref UpdateRefsMode.RESOLVE none p w h).fwd = h.fwd := by
  by_cases hidle : ∀ e, h.mem p = some e → h.marked (h.fwd e) = true
  · rw [mark_resolve_idle _ _ _ hidle]
    exact ⟨rfl, rfl⟩
  · push_neg at hidle
    obtain ⟨e, he, hu⟩ := hidle
    rw [mark_resolve_claim _ _ e _ he (by simpa using hu)]
    exact ⟨rfl, rfl⟩

/-- In mode RESOLVE the marks and queues after a call depend on the cell `p`
only through its own contents. -/
theorem mark_resolve_congr (p w : Nat) (h1 h2 : ShenandoahHeap) (hp : h1.mem p = h2.mem p)
    (hf : h1.fwd = h2.fwd) (hm : h1.marked = h2.marked) (hq : h1.queues = h2.queues) :
    (mark_through_ref UpdateRefsMode.RESOLVE none p w h1).marked =
      (mark_through_ref UpdateRefsMode.RESOLVE none p w h2).marked ∧
    (mark_through_ref UpdateRefsMode.RESOLVE none p w h1).queues =
      (mark_through_ref UpdateRefsMode.RESOLVE none p w h2).queues := by
  by_cases hidle : ∀ e, h2.mem p = some e → h2.marked (h2.fwd e) = true
  · have hidle1 : ∀ e, h1.mem p = some e → h1.marked (h1.fwd e) = true := by
      intro e he
      rw [hm, hf]
      exact hidle e (hp ▸ he)
    rw [mark_resolve_idle _ _ _ hidle, mark_resolve_idle _ _ _ hidle1]
    exact ⟨hm, hq⟩
  · push_neg at hidle
    obtain ⟨e, he, hu⟩ := hidle
    have hu2 : h2.marked (h2.fwd e) = false := by simpa using hu
    have hu1 : h1.marked (h1.fwd e) = false := by rw [hm, hf]; exact hu2
    rw [mark_resolve_claim _ _ e _ he hu2, mark_resolve_claim _ _ e _ (hp.trans he) hu1]
    simp [push_task, hm, hf, hq]

theorem buffer_fold_congr (w buffer : Nat) : ∀ (l : List Nat) (h1 h2 : ShenandoahHeap),
    (∀ i ∈ l, h1.mem (buffer + i) = h2.mem (buffer + i)) →
    h1.fwd = h2.fwd → h1.marked = h2.marked → h1.queues = h2.queues →
    (l.foldl (fun h i => mark_through_ref UpdateRefsMode.RESOLVE none (buffer + i) w h)
        h1).marked =
      (l.foldl (fun h i => mark_through_ref UpdateRefsMode.RESOLVE none (buffer + i) w h)
        h2).marked ∧
    (l.foldl (fun h i => mark_through_ref UpdateRefsMode.RESOLVE none (buffer + i) w h)
        h1).queues =
      (l.foldl (fun h i => mark_through_ref UpdateRefsMode.RESOLVE none (buffer + i) w h)
        h2).queues := by
  intro l
  induction l with
  | nil => intro h1 h2 _ _ hm hq; exact ⟨hm, hq⟩
  | cons i l ih =>
    intro h1 h2 hp hf hm hq
    simp only [List.foldl_cons]
    obtain ⟨c1, c2⟩ := mark_resolve_congr (buffer + i) w h1 h2
      (hp i (List.mem_cons_self _ _)) hf hm hq
    obtain ⟨m1, f1⟩ := mark_resolve_mem (buffer + i) w h1
    obtain ⟨m2, f2⟩ := mark_resolve_mem (buffer + i) w h2
    refine ih _ _ ?_ (by rw [f1, f2, hf]) c1 c2
    intro j hj
    rw [m1, m2]
    exact hp j (List.mem_cons_of_mem _ hj)

/-- C8. SATB soundness: after `do_buffer` has run over a buffer, the to-space
resolution of every non-null entry is marked, for every mark state and
whatever the other cells hold; the drain changes no cell, and its marks and
queues are the same for any contents of the cells outside the buffer (for
instance a heap slot that a mutator has overwritten with null since the entry
was logged). -/
theorem satb_soundness (h : ShenandoahHeap) (w buffer size : Nat) :
    (∀ i e, i < size → h.mem (buffer + i) = some e →
      (do_buffer w buffer size h).marked (h.fwd e) = true) ∧
    (do_buffer w buffer size h).mem = h.mem ∧
    ∀ mem2 : Nat → Option Nat, (∀ i, i < size → mem2 (buffer + i) = h.mem (buffer + i)) →
      (do_buffer w buffer size { h with mem := mem2 }).marked =
        (do_buffer w buffer size h).marked ∧
      (do_buffer w buffer size { h with mem := mem2 }).queues =
        (do_buffer w buffer size h).queues := by
  obtain ⟨s1, _, _, s4, _⟩ := buffer_fold_spec w buffer (List.range size) h
  refine ⟨fun i e hi he => s4 i (List.mem_range.mpr hi) e he, s1, ?_⟩
  intro mem2 hagree
  exact buffer_fold_congr w buffer (List.range size) { h with mem := mem2 } h
    (fun i hi => hagree i (List.mem_range.mp hi)) rfl rfl rfl

/-- C8 on the example heap: cell 20 is a buffer entry logging object 3; the
heap slots 10 and 11 have been overwritten with null since. Object 3 is marked
by the drain. -/
theorem satb_soundness_witness :
    (do_buffer 0 20 1 { example_heap with mem := fun p => if p = 20 then some 3 else none }).marked
      (example_heap.fwd 3) = true :=
  (satb_soundness { example_heap with mem := fun p => if p = 20 then some 3 else none }
    0 20 1).1 0 3 (by decide) (by decide)

/-- C7, as stated, fails: with one completed buffer whose only entry refers to
an object that is already marked, and an empty queue, the buffer set answers
that it had a buffer, yet `try_draining_satb_buffer` returns false. -/
theorem satb_drain_false_with_entries :
    (apply_closure_to_completed_buffer 0
      { example_heap with satb := [(20, 1)], marked := fun _ => true }).1 = true ∧
    (try_draining_satb_buffer 0
      { example_heap with satb := [(20, 1)], marked := fun _ => true }).1 = none := by
  decide

/-- C7 amended. `try_draining_satb_buffer` returns true iff a completed buffer
was retrieved and, once its entries are processed, a Task can be popped from
the worker's queue: that is, iff there was a completed buffer and either the
queue held a Task already or some entry of the buffer referred to an object
whose resolution was unmarked. Its result is `had_refs && try_queue(q, task)`. -/
theorem satb_drain_result (h : ShenandoahHeap) (w : Nat) :
    ((try_draining_satb_buffer w h).1.isSome = true ↔
      ∃ b rest, h.satb = b :: rest ∧
        ((h.queues w).tasks ≠ [] ∨
          ∃ i e, i < b.2 ∧ h.mem (b.1 + i) = some e ∧ h.marked (h.fwd e) = false)) ∧
    (try_draining_satb_buffer w h).1.isSome =
      ((apply_closure_to_completed_buffer w h).1 &&
        (try_queue ((apply_closure_to_completed_buffer w h).2.queues w)).isSome) := by
  unfold try_draining_satb_buffer apply_closure_to_completed_buffer
  cases hs : h.satb with
  | nil => simp
  | cons b rest =>
    obtain ⟨_, _, _, _, s5⟩ := buffer_fold_spec w b.1 (List.range b.2) { h with satb := rest }
    have hd : do_buffer w b.1 b.2 { h with satb := rest } =
        (List.range b.2).foldl
          (fun h i => mark_through_ref UpdateRefsMode.RESOLVE none (b.1 + i) w h)
          { h with satb := rest } := rfl
    rw [← hd] at s5
    simp only [if_true]
    cases htq : try_queue ((do_buffer w b.1 b.2 { h with satb := rest }).queues w) with
    | none =>
      have hnil := (try_queue_none_iff _).mp htq
      have hno := (not_congr s5).mp (by simpa using hnil)
      simp only [Option.isSome_none, Bool.false_eq_true, false_iff, Bool.and_false, and_true]
      rintro ⟨b2, rest2, heq, hcase⟩
      simp only [List.cons.injEq] at heq
      obtain ⟨rfl, rfl⟩ := heq
      apply hno
      rcases hcase with hq | ⟨i, e, hi, he, hu⟩
      · exact Or.inl hq
      · exact Or.inr ⟨i, List.mem_range.mpr hi, e, he, hu⟩
    | some r =>
      have hne : ((do_buffer w b.1 b.2 { h with satb := rest }).queues w).tasks ≠ [] := by
        intro hnil
        rw [(try_queue_none_iff _).mpr hnil] at htq
        cases htq
      simp only [Option.isSome_some, Bool.and_self, and_true, true_iff]
      refine ⟨b, rest, rfl, ?_⟩
      rcases s5.mp hne with hq | ⟨i, hi, e, he, hu⟩
      · exact Or.inl hq
      · exact Or.inr ⟨i, e, List.mem_range.mp hi, he, hu⟩

/-! ## Claims on the task dispatcher -/

/-- Without interference, resolving the reference `o` loaded from cell `p`
yields its resolution, leaves the other cells alone, and leaves in `p` a
reference with the same resolution. -/
theorem resolve_ref_quiet (mode : UpdateRefsMode) (p o : Nat) (h : ShenandoahHeap)
    (hm : h.mem p = some o) (hidem : ∀ x, h.fwd (h.fwd x) = h.fwd x) :
    (resolve_ref mode none p o h).1 = some (resolution mode h o) ∧
    (∀ p2, p2 ≠ p → (resolve_ref mode none p o h).2.mem p2 = h.mem p2) ∧
    ∃ o2, (resolve_ref mode none p o h).2.mem p = some o2 ∧
      resolution mode h o2 = resolution mode h o := by
  cases mode
  · exact ⟨rfl, fun _ _ => rfl, o, hm, rfl⟩
  · exact ⟨rfl, fun _ _ => rfl, o, hm, rfl⟩
  · refine ⟨rfl, ?_, h.fwd o, ?_, ?_⟩
    · intro p2 hp2
      simp [resolve_ref, update_oop_ref_not_null, upd, hp2]
    · simp [resolve_ref, update_oop_ref_not_null, upd]
    · simp [resolution, hidem]
  · by_cases hf : h.fwd o = o
    · refine ⟨?_, ?_, o, ?_, rfl⟩
      · simp [resolve_ref, maybe_update_oop_ref_not_null, hf, resolution]
      · intro p2 hp2
        simp [resolve_ref, maybe_update_oop_ref_not_null, hf, upd, hp2]
      · simp [resolve_ref, maybe_update_oop_ref_not_null, hf, upd, hm]
    · refine ⟨?_, ?_, h.fwd o, ?_, ?_⟩
      · simp [resolve_ref, maybe_update_oop_ref_not_null, hf, hm, resolution]
      · intro p2 hp2
        simp [resolve_ref, maybe_update_oop_ref_not_null, hf, hm, upd, hp2]
      · simp [resolve_ref, maybe_update_oop_ref_not_null, hf, hm, upd]
      · simp [resolution, hidem]

/-- What a call of the marking primitive leaves untouched. -/
theorem mark_through_ref_frame (mode : UpdateRefsMode) (race : Option (Option Nat)) (p w : Nat)
    (h : ShenandoahHeap) :
    (mark_through_ref mode race p w h).fwd = h.fwd ∧
    (mark_through_ref mode race p w h).live = h.live ∧
    (mark_through_ref mode race p w h).live_data = h.live_data ∧
    (mark_through_ref mode race p w h).fields = h.fields ∧
    (mark_through_ref mode race p w h).is_objArray = h.is_objArray := by
  unfold mark_through_ref
  cases hm : h.mem p with
  | none => exact ⟨rfl, rfl, rfl, rfl, rfl⟩
  | some o =>
    obtain ⟨_, _, f3, f4, f5, f6, f7⟩ := resolve_ref_frame mode race p o h
    obtain ⟨r, hr⟩ : ∃ r, resolve_ref mode race p o h = r := ⟨_, rfl⟩
    rw [hr] at f3 f4 f5 f6 f7
    simp only [hr]
    obtain ⟨ro, rh⟩ := r
    simp only at f3 f4 f5 f6 f7 ⊢
    cases ro with
    | none => exact ⟨f3, f4, f5, f6, f7⟩
    | some obj =>
      simp only [mark_next]
      by_cases hmk : rh.marked obj = true
      · simp only [hmk, if_true]
        exact ⟨f3, f4, f5, f6, f7⟩
      · have hmk2 : rh.marked obj = false := by simpa using hmk
        simp only [hmk2, push_task]
        exact ⟨f3, f4, f5, f6, f7⟩

/-- A quiet call of the marking primitive on a cell that holds `o`: if the
resolution of `o` is marked only the cell may change, otherwise the resolution
is marked and its Task pushed. -/
theorem mark_through_ref_quiet_eq (mode : UpdateRefsMode) (p w o : Nat) (h : ShenandoahHeap)
    (hm : h.mem p = some o) (hidem : ∀ x, h.fwd (h.fwd x) = h.fwd x) :
    mark_through_ref mode none p w h =
      if h.marked (resolution mode h o) = true then (resolve_ref mode none p o h).2
      else push_task w ⟨resolution mode h o, 0, 0⟩
        { (resolve_ref mode none p o h).2 with
          marked := upd h.marked (resolution mode h o) true } := by
  obtain ⟨q1, _, _⟩ := resolve_ref_quiet mode p o h hm hidem
  obtain ⟨f1, _⟩ := resolve_ref_frame mode none p o h
  unfold mark_through_ref
  rw [hm]
  simp only [q1, mark_next, f1]
  by_cases hmk : h.marked (resolution mode h o) = true
  · simp [hmk]
  · have hmk2 : h.marked (resolution mode h o) = false := by simpa using hmk
    simp [hmk2]

/-- One quiet call of the marking primitive on cell `p`: afterwards `p` is
done, cells that were done stay done, and if `p` was done already the marks
and the queues are unchanged. -/
theorem mark_through_ref_quiet (mode : UpdateRefsMode) (p w : Nat) (h : ShenandoahHeap)
    (hidem : ∀ x, h.fwd (h.fwd x) = h.fwd x) :
    CellDone mode (mark_through_ref mode none p w h) p ∧
    (∀ p2, CellDone mode h p2 → CellDone mode (mark_through_ref mode none p w h) p2) ∧
    (CellDone mode h p →
      (mark_through_ref mode none p w h).marked = h.marked ∧
      (mark_through_ref mode none p w h).queues = h.queues) := by
  cases hm : h.mem p with
  | none =>
    have hsame : mark_through_ref mode none p w h = h := by
      unfold mark_through_ref
      rw [hm]
    rw [hsame]
    refine ⟨?_, fun _ hd => hd, fun _ => ⟨rfl, rfl⟩⟩
    intro e he
    rw [hm] at he
    cases he
  | some o =>
    obtain ⟨_, q2, o2, q3, q4⟩ := resolve_ref_quiet mode p o h hm hidem
    obtain ⟨f1, f2, f3, _⟩ := resolve_ref_frame mode none p o h
    have heq := mark_through_ref_quiet_eq mode p w o h hm hidem
    have hres : ∀ (g : ShenandoahHeap) (x : Nat), g.fwd = h.fwd →
        resolution mode g x = resolution mode h x := by
      intro g x hg
      cases mode <;> simp [resolution, hg]
    by_cases hmk : h.marked (resolution mode h o) = true
    · rw [if_pos hmk] at heq
      rw [heq]
      have hdone : CellDone mode (resolve_ref mode none p o h).2 p := by
        intro e he
        rw [q3] at he
        cases he
        rw [hres _ _ f3, q4, f1]
        exact hmk
      refine ⟨hdone, ?_, fun _ => ⟨f1, f2⟩⟩
      intro p2 hd
      by_cases hp : p2 = p
      · rw [hp]; exact hdone
      · intro e he
        rw [q2 p2 hp] at he
        rw [hres _ _ f3, f1]
        exact hd e he
    · rw [if_neg hmk] at heq
      rw [heq]
      have hdone : CellDone mode (push_task w ⟨resolution mode h o, 0, 0⟩
          { (resolve_ref mode none p o h).2 with
            marked := upd h.marked (resolution mode h o) true }) p := by
        intro e he
        have he2 : (resolve_ref mode none p o h).2.mem p = some e := he
        rw [q3] at he2
        cases he2
        rw [hres _ _ (show (push_task w ⟨resolution mode h o, 0, 0⟩
          { (resolve_ref mode none p o h).2 with
            marked := upd h.marked (resolution mode h o) true }).fwd = h.fwd from f3), q4]
        simp [push_task, upd]
      refine ⟨hdone, ?_, ?_⟩
      · intro p2 hd
        by_cases hp : p2 = p
        · rw [hp]; exact hdone
        · intro e he
          have he2 : (resolve_ref mode none p o h).2.mem p2 = some e := he
          rw [q2 p2 hp] at he2
          rw [hres _ _ (show (push_task w ⟨resolution mode h o, 0, 0⟩
            { (resolve_ref mode none p o h).2 with
              marked := upd h.marked (resolution mode h o) true }).fwd = h.fwd from f3)]
          have := hd e he2
          simp only [push_task, upd]
          split_ifs <;> simp [this]
      · intro hd
        exact absurd (hd o hm) hmk

theorem mark_refs_frame (mode : UpdateRefsMode) (races : Nat → Option (Option Nat)) (w : Nat) :
    ∀ (cells : List Nat) (h : ShenandoahHeap),
      (mark_refs mode races w cells h).fwd = h.fwd ∧
      (mark_refs mode races w cells h).live = h.live ∧
      (mark_refs mode races w cells h).live_data = h.live_data ∧
      (mark_refs mode races w cells h).fields = h.fields ∧
      (mark_refs mode races w cells h).is_objArray = h.is_objArray := by
  intro cells
  induction cells with
  | nil => intro h; exact ⟨rfl, rfl, rfl, rfl, rfl⟩
  | cons p ps ih =>
    intro h
    obtain ⟨a1, a2, a3, a4, a5⟩ := mark_through_ref_frame mode (races p) p w h
    obtain ⟨b1, b2, b3, b4, b5⟩ := ih (mark_through_ref mode (races p) p w h)
    have hfold : mark_refs mode races w (p :: ps) h =
        mark_refs mode races w ps (mark_through_ref mode (races p) p w h) := rfl
    rw [hfold]
    exact ⟨b1.trans a1, b2.trans a2, b3.trans a3, b4.trans a4, b5.trans a5⟩

/-- After a quiet pass of the marking primitive over a list of cells, each of
them is done, and cells that were done before stay done. -/
theorem mark_refs_done (mode : UpdateRefsMode) (w : Nat) :
    ∀ (cells : List Nat) (h : ShenandoahHeap), (∀ x, h.fwd (h.fwd x) = h.fwd x) →
      (∀ p ∈ cells, CellDone mode (mark_refs mode (fun _ => none) w cells h) p) ∧
      ∀ p2, CellDone mode h p2 → CellDone mode (mark_refs mode (fun _ => none) w cells h) p2 := by
  intro cells
  induction cells with
  | nil => intro h _; exact ⟨by simp, fun _ hd => hd⟩
  | cons p ps ih =>
    intro h hidem
    obtain ⟨q1, q2, _⟩ := mark_through_ref_quiet mode p w h hidem
    have hf := (mark_through_ref_frame mode none p w h).1
    obtain ⟨i1, i2⟩ := ih (mark_through_ref mode none p w h) (by rw [hf]; exact hidem)
    have hfold : mark_refs mode (fun _ => none) w (p :: ps) h =
        mark_refs mode (fun _ => none) w ps (mark_through_ref mode none p w h) := rfl
    rw [hfold]
    refine ⟨?_, fun p2 hd => i2 p2 (q2 p2 hd)⟩
    intro x hx
    rcases List.mem_cons.mp hx with rfl | hx
    · exact i2 _ q1
    · exact i1 x hx

/-- A quiet pass over cells that are all done marks nothing and pushes
nothing. -/
theorem mark_refs_idle (mode : UpdateRefsMode) (w : Nat) :
    ∀ (cells : List Nat) (h : ShenandoahHeap), (∀ x, h.fwd (h.fwd x) = h.fwd x) →
      (∀ p ∈ cells, CellDone mode h p) →
      (mark_refs mode (fun _ => none) w cells h).marked = h.marked ∧
      (mark_refs mode (fun _ => none) w cells h).queues = h.queues := by
  intro cells
  induction cells with
  | nil => intro h _ _; exact ⟨rfl, rfl⟩
  | cons p ps ih =>
    intro h hidem hd
    obtain ⟨_, q2, q3⟩ := mark_through_ref_quiet mode p w h hidem
    obtain ⟨m1, m2⟩ := q3 (hd p (List.mem_cons_self _ _))
    have hf := (mark_through_ref_frame mode none p w h).1
    obtain ⟨i1, i2⟩ := ih (mark_through_ref mode none p w h) (by rw [hf]; exact hidem)
      (fun x hx => q2 x (hd x (List.mem_cons_of_mem _ hx)))
    have hfold : mark_refs mode (fun _ => none) w (p :: ps) h =
        mark_refs mode (fun _ => none) w ps (mark_through_ref mode none p w h) := rfl
    rw [hfold]
    exact ⟨i1.trans m1, i2.trans m2⟩

/-- What `count_liveness` leaves untouched. -/
theorem count_liveness_frame (w o : Nat) (h : ShenandoahHeap) :
    (count_liveness w o h).mem = h.mem ∧ (count_liveness w o h).marked = h.marked ∧
    (count_liveness w o h).fwd = h.fwd ∧ (count_liveness w o h).queues = h.queues ∧
    (count_liveness w o h).fields = h.fields ∧
    (count_liveness w o h).is_objArray = h.is_objArray := by
  unfold count_liveness
  simp only [increase_live_data_words]
  split_ifs <;> exact ⟨rfl, rfl, rfl, rfl, rfl, rfl⟩

/-- Dispatch of a whole-object Task for an object that is not an array, or is
an array of at most `2*S` elements: liveness is recorded when tracking is on,
then every reference cell of the object goes through the marking primitive. -/
theorem do_task_whole (mode : UpdateRefsMode) (CL : Bool) (S C : Int)
    (races : Nat → Option (Option Nat)) (w : Nat) (task : SCMTask) (h : ShenandoahHeap)
    (hchunk : task.chunk = 0)
    (hobj : h.is_objArray task.obj = false ∨
      (array_length h task.obj ≤ 2 * S ∧ S ≤ 1073741823)) :
    do_task mode CL S C races w task h =
      some (mark_refs mode races w (h.fields task.obj)
        (if CL = true then count_liveness w task.obj h else h)) := by
  have hframe : (if CL = true then count_liveness w task.obj h else h).fields = h.fields ∧
      (if CL = true then count_liveness w task.obj h else h).is_objArray = h.is_objArray := by
    cases CL
    · exact ⟨rfl, rfl⟩
    · obtain ⟨_, _, _, _, c5, c6⟩ := count_liveness_frame w task.obj h
      exact ⟨c5, c6⟩
  unfold do_task
  simp only [SCMTask.is_not_chunked, hchunk, decide_True, if_true]
  generalize (if CL = true then count_liveness w task.obj h else h) = hc at hframe ⊢
  obtain ⟨hfields, harr⟩ := hframe
  by_cases ha : h.is_objArray task.obj = true
  · have hlen : array_length hc task.obj ≤ 2 * S ∧ S ≤ 1073741823 := by
      rcases hobj with hobj | hobj
      · rw [ha] at hobj; cases hobj
      · unfold array_length at hobj ⊢
        rw [hfields]
        exact hobj
    have hlen0 : 0 ≤ array_length hc task.obj := by
      unfold array_length
      exact Int.natCast_nonneg _
    have hrun := short_array_direct (array_length hc task.obj) S C hlen0 hlen.2 hlen.1
    rw [harr, ha, hrun]
    simp only [Bool.not_true, Bool.false_eq_true, if_false, Option.map_some', run_events,
      oop_iterate_range, array_length, Int.toNat_ofNat, Int.toNat_zero, List.drop_zero,
      List.take_length, hfields]
  · have ha2 : h.is_objArray task.obj = false := by simpa using ha
    rw [harr, ha2, hfields]
    simp

/-- C5, as stated, fails. On the example heap, with everything marked and
liveness tracking on, a second dispatch of the whole-object Task for object 1
changes the liveness table: the local counter of region 0 is 40001 after the
first dispatch, and the second dispatch flushes 80002 words to the
authoritative counter. And with stride 4, a second dispatch of the
whole-object Task for a marked array of 10 null elements pushes the chunk Task
`(1, 3)` once more. -/
theorem redispatch_counts_and_pushes_again :
    ((do_task UpdateRefsMode.RESOLVE true 512 1024 (fun _ => none) 0 ⟨1, 0, 0⟩
        { example_heap with marked := fun _ => true }).bind
      (fun h1 => (do_task UpdateRefsMode.RESOLVE true 512 1024 (fun _ => none) 0 ⟨1, 0, 0⟩ h1).map
        (fun h2 => (h1.live_data 0 0, h1.live 0, h2.live_data 0 0, h2.live 0)))) =
      some (40001, 0, 0, 80002) ∧
    ((do_task UpdateRefsMode.RESOLVE false 4 1024 (fun _ => none) 0 ⟨5, 0, 0⟩
        { example_heap with marked := fun _ => true, is_objArray := fun o => decide (o = 5),
                            fields := fun o => if o = 5 then List.range 10 else [] }).bind
      (fun h1 => (do_task UpdateRefsMode.RESOLVE false 4 1024 (fun _ => none) 0 ⟨5, 0, 0⟩ h1).map
        (fun h2 => ((h1.queues 0).tasks, (h2.queues 0).tasks)))) =
      some ([⟨5, 1, 3⟩], [⟨5, 1, 3⟩, ⟨5, 1, 3⟩]) := by
  decide

/-- Second dispatch of a whole-object Task whose dispatch visits every cell
directly. For an object `o` that is not an array, or is an array of at
most `2*S` elements (with `2*S` fitting an `int`), when forwarding is
idempotent and no mutator interferes with the two dispatches, a second
dispatch of the whole-object Task `{o, chunk = 0}` right after a first one
marks nothing and leaves every queue unchanged. With liveness tracking off it
leaves the liveness table unchanged; with liveness tracking on it records the
object once more, as one further `count_liveness` call does. -/
theorem redispatch_direct (mode : UpdateRefsMode) (CL : Bool) (S C : Int) (w : Nat)
    (task : SCMTask) (h h1 : ShenandoahHeap)
    (hchunk : task.chunk = 0)
    (hobj : h.is_objArray task.obj = false ∨
      (array_length h task.obj ≤ 2 * S ∧ S ≤ 1073741823))
    (hidem : ∀ x, h.fwd (h.fwd x) = h.fwd x)
    (hfirst : do_task mode CL S C (fun _ => none) w task h = some h1) :
    ∃ h2, do_task mode CL S C (fun _ => none) w task h1 = some h2 ∧
      h2.queues = h1.queues ∧ h2.marked = h1.marked ∧
      (CL = false → h2.live = h1.live ∧ h2.live_data = h1.live_data) ∧
      (CL = true → h2.live = (count_liveness w task.obj h1).live ∧
        h2.live_data = (count_liveness w task.obj h1).live_data) := by
  rw [do_task_whole mode CL S C _ w task h hchunk hobj] at hfirst
  have h1eq := (Option.some.inj hfirst).symm
  obtain ⟨c1, c2, c3, c4, c5, c6⟩ := count_liveness_frame w task.obj h
  have hc : (if CL = true then count_liveness w task.obj h else h).fwd = h.fwd ∧
      (if CL = true then count_liveness w task.obj h else h).fields = h.fields ∧
      (if CL = true then count_liveness w task.obj h else h).is_objArray = h.is_objArray := by
    cases CL
    · exact ⟨rfl, rfl, rfl⟩
    · exact ⟨c3, c5, c6⟩
  obtain ⟨m1, _, _, m4, m5⟩ := mark_refs_frame mode (fun _ => none) w (h.fields task.obj)
    (if CL = true then count_liveness w task.obj h else h)
  rw [← h1eq] at m1 m4 m5
  have hfwd1 : h1.fwd = h.fwd := m1.trans hc.1
  have hfields1 : h1.fields = h.fields := m4.trans hc.2.1
  have harr1 : h1.is_objArray = h.is_objArray := m5.trans hc.2.2
  have hidem1 : ∀ x, h1.fwd (h1.fwd x) = h1.fwd x := by rw [hfwd1]; exact hidem
  have hobj1 : h1.is_objArray task.obj = false ∨
      (array_length h1 task.obj ≤ 2 * S ∧ S ≤ 1073741823) := by
    unfold array_length at hobj ⊢
    rw [harr1, hfields1]
    exact hobj
  have hdone1 : ∀ p ∈ h.fields task.obj, CellDone mode h1 p := by
    rw [h1eq]
    exact (mark_refs_done mode w (h.fields task.obj) _ (by rw [hc.1]; exact hidem)).1
  obtain ⟨d1, d2, d3, d4, d5, d6⟩ := count_liveness_frame w task.obj h1
  rw [do_task_whole mode CL S C _ w task h1 hchunk hobj1, hfields1]
  refine ⟨_, rfl, ?_⟩
  cases CL
  · obtain ⟨i1, i2⟩ := mark_refs_idle mode w (h.fields task.obj) h1 hidem1 hdone1
    obtain ⟨_, n2, n3, _⟩ := mark_refs_frame mode (fun _ => none) w (h.fields task.obj) h1
    simp only [Bool.false_eq_true, if_false]
    refine ⟨i2, i1, fun _ => ⟨n2, n3⟩, ?_⟩
    intro hcl
    simp at hcl
  · have hdone2 : ∀ p ∈ h.fields task.obj, CellDone mode (count_liveness w task.obj h1) p := by
      intro p hp e he
      rw [d1] at he
      have := hdone1 p hp e he
      have hr : resolution mode (count_liveness w task.obj h1) e = resolution mode h1 e := by
        cases mode <;> simp [resolution, d3]
      rw [hr, d2]
      exact this
    obtain ⟨i1, i2⟩ := mark_refs_idle mode w (h.fields task.obj)
      (count_liveness w task.obj h1) (by rw [d3]; exact hidem1) hdone2
    obtain ⟨_, n2, n3, _⟩ := mark_refs_frame mode (fun _ => none) w (h.fields task.obj)
      (count_liveness w task.obj h1)
    simp only [if_true]
    refine ⟨i2.trans d4, i1.trans d2, ?_, fun _ => ⟨n2, n3⟩⟩
    intro hcl
    simp at hcl

/-! ## Further claims on liveness accounting -/

/-- One `count_liveness` call with a non-negative `size` (the `int` computed at
source line 76) keeps every local counter of the worker in `[0, 65535)` and
adds `size` to the sum of the two counters of the object's region. -/
theorem count_liveness_bounded (w o : Nat) (h : ShenandoahHeap)
    (hs : 0 ≤ wrap32 (h.size o + h.word_size))
    (hinv : ∀ r, 0 ≤ h.live_data w r ∧ h.live_data w r < 65535) :
    (∀ r, 0 ≤ (count_liveness w o h).live_data w r ∧
      (count_liveness w o h).live_data w r < 65535) ∧
    (∀ r, (count_liveness w o h).live r + (count_liveness w o h).live_data w r =
      h.live r + h.live_data w r +
        if h.region o = r then wrap32 (h.size o + h.word_size) else 0) ∧
    (count_liveness w o h).size = h.size ∧ (count_liveness w o h).region = h.region ∧
    (count_liveness w o h).word_size = h.word_size := by
  have hcur := hinv (h.region o)
  unfold count_liveness
  simp only [live_data_max_eq]
  generalize wrap32 (h.size o + h.word_size) = sz at hs ⊢
  by_cases c1 : sz ≥ 65535
  · rw [if_pos c1]
    refine ⟨hinv, ?_, rfl, rfl, rfl⟩
    intro r
    simp only [increase_live_data_words, upd]
    by_cases hr : r = h.region o
    · subst hr; simp
      omega
    · have hr2 : ¬ h.region o = r := fun e => hr e.symm
      simp [hr, hr2]
  · rw [if_neg c1]
    have hnv : wrap32 (h.live_data w (h.region o) + sz) = h.live_data w (h.region o) + sz := by
      rw [wrap32_eq] <;> omega
    rw [hnv]
    by_cases c2 : h.live_data w (h.region o) + sz ≥ 65535
    · rw [if_pos c2]
      refine ⟨?_, ?_, rfl, rfl, rfl⟩
      · intro r
        simp only [increase_live_data_words, upd, if_true]
        by_cases hr : r = h.region o
        · simp [hr]
        · simpa [hr] using hinv r
      · intro r
        simp only [increase_live_data_words, upd, if_true]
        by_cases hr : r = h.region o
        · subst hr; simp
          omega
        · have hr2 : ¬ h.region o = r := fun e => hr e.symm
          simp [hr, hr2]
    · rw [if_neg c2]
      refine ⟨?_, ?_, rfl, rfl, rfl⟩
      · intro r
        simp only [upd, if_true]
        by_cases hr : r = h.region o
        · simp only [hr, if_true]
          omega
        · simpa [hr] using hinv r
      · intro r
        simp only [upd, if_true]
        by_cases hr : r = h.region o
        · subst hr
          simp only [if_true]
          omega
        · have hr2 : ¬ h.region o = r := fun e => hr e.symm
          simp [hr, hr2]

/-- C14. Queue tier order: `try_queue` returns the Task popped from the first
tier whose pop succeeds, in the order buffer, local deque, overflow pool, and
leaves the later tiers (and the empty earlier ones) as they were; the queue
loses exactly the Task returned. It reports empty iff all three pops fail,
which is when no tier holds a Task. -/
theorem try_queue_tier_order (q : SCMObjToScanQueue) :
    (∀ r, q.pop_buffer = some r →
      try_queue q = some r ∧ r.2.deque = q.deque ∧ r.2.overflow = q.overflow) ∧
    (∀ r, q.pop_buffer = none → q.pop_local = some r →
      try_queue q = some r ∧ r.2.buf = q.buf ∧ r.2.overflow = q.overflow) ∧
    (∀ r, q.pop_buffer = none → q.pop_local = none → q.pop_overflow = some r →
      try_queue q = some r ∧ r.2.buf = q.buf ∧ r.2.deque = q.deque) ∧
    (∀ r, try_queue q = some r → q.tasks = r.1 :: r.2.tasks) ∧
    (try_queue q = none ↔
      q.pop_buffer = none ∧ q.pop_local = none ∧ q.pop_overflow = none) ∧
    (try_queue q = none ↔ q.buf = none ∧ q.deque = [] ∧ q.overflow = []) := by
  unfold try_queue SCMObjToScanQueue.pop_buffer SCMObjToScanQueue.pop_local
    SCMObjToScanQueue.pop_overflow SCMObjToScanQueue.tasks
  cases hb : q.buf with
  | some t =>
    refine ⟨?_, by simp, by simp, ?_, by simp, by simp⟩
    · intro r hr
      simp only [Option.some.injEq] at hr
      subst hr
      exact ⟨rfl, rfl, rfl⟩
    · intro r hr
      simp only [Option.some.injEq] at hr
      subst hr
      simp
  | none =>
    cases hd : q.deque with
    | cons t rest =>
      refine ⟨by simp, ?_, by simp, ?_, by simp, by simp⟩
      · intro r _ hr
        simp only [Option.some.injEq] at hr
        subst hr
        exact ⟨rfl, rfl, rfl⟩
      · intro r hr
        simp only [Option.some.injEq] at hr
        subst hr
        simp [hb]
    | nil =>
      cases ho : q.overflow with
      | cons t rest =>
        refine ⟨by simp, by simp, ?_, ?_, by simp, by simp⟩
        · intro r _ _ hr
          simp only [Option.some.injEq] at hr
          subst hr
          exact ⟨rfl, rfl, rfl⟩
        · intro r hr
          simp only [Option.some.injEq] at hr
          subst hr
          simp [hb, hd]
      | nil => simp

/-- C14 on a queue with an empty buffer, Task `(7, 0, 0)` on the local deque and
Task `(8, 0, 0)` in the overflow pool: the deque is popped, the overflow pool
is left alone. -/
theorem try_queue_tier_order_witness :
    try_queue (SCMObjToScanQueue.mk none [SCMTask.mk 7 0 0] [SCMTask.mk 8 0 0] 4) =
        some (SCMTask.mk 7 0 0, SCMObjToScanQueue.mk none [] [SCMTask.mk 8 0 0] 4) ∧
      (SCMTask.mk 7 0 0, SCMObjToScanQueue.mk none [] [SCMTask.mk 8 0 0] 4).2.buf =
        (SCMObjToScanQueue.mk none [SCMTask.mk 7 0 0] [SCMTask.mk 8 0 0] 4).buf ∧
      (SCMTask.mk 7 0 0, SCMObjToScanQueue.mk none [] [SCMTask.mk 8 0 0] 4).2.overflow =
        (SCMObjToScanQueue.mk none [SCMTask.mk 7 0 0] [SCMTask.mk 8 0 0] 4).overflow :=
  (try_queue_tier_order (SCMObjToScanQueue.mk none [SCMTask.mk 7 0 0] [SCMTask.mk 8 0 0] 4)).2.1
    (SCMTask.mk 7 0 0, SCMObjToScanQueue.mk none [] [SCMTask.mk 8 0 0] 4) rfl rfl

theorem push_tasks_perm (q : SCMObjToScanQueue) (t : SCMTask) :
    (q.push t).tasks.Perm (t :: q.tasks) := by
  unfold SCMObjToScanQueue.push SCMObjToScanQueue.tasks
  cases hb : q.buf with
  | none => simp
  | some e =>
    by_cases hc : q.deque.length < q.cap
    · simp only [hc, if_true, Option.toList_some, List.singleton_append, List.cons_append]
      exact List.Perm.refl _
    · simp only [hc, if_false, Option.toList_some, List.singleton_append, List.cons_append]
      refine List.Perm.cons t ?_
      have h1 : (q.deque ++ e :: q.overflow).Perm (e :: (q.deque ++ q.overflow)) :=
        List.perm_middle
      exact h1

/-- The two outcomes of `mark_through_ref` on the mark state and the queues:
a claim of the resolved object with a push of its whole-object Task on the
caller's queue, or no change. -/
theorem mark_through_ref_outcome (mode : UpdateRefsMode) (race : Option (Option Nat))
    (p w : Nat) (h : ShenandoahHeap) :
    (∀ obj, (MarkCall.mk mode race p w).resolved h = some obj → h.marked obj = false →
      (mark_through_ref mode race p w h).marked = upd h.marked obj true ∧
      (mark_through_ref mode race p w h).queues =
        upd h.queues w ((h.queues w).push ⟨obj, 0, 0⟩)) ∧
    ((∀ obj, (MarkCall.mk mode race p w).resolved h = some obj → h.marked obj = true) →
      (mark_through_ref mode race p w h).marked = h.marked ∧
      (mark_through_ref mode race p w h).queues = h.queues) := by
  unfold MarkCall.resolved mark_through_ref
  simp only
  cases hm : h.mem p with
  | none => simp
  | some o =>
    obtain ⟨f1, f2, -⟩ := resolve_ref_frame mode race p o h
    obtain ⟨r, hr⟩ : ∃ r, resolve_ref mode race p o h = r := ⟨_, rfl⟩
    rw [hr] at f1 f2
    simp only [hr]
    obtain ⟨ro, rh⟩ := r
    simp only at f1 f2 ⊢
    cases ro with
    | none => simp [f1, f2]
    | some obj =>
      simp only [mark_next, f1, Option.some.injEq, forall_eq']
      by_cases hmk : h.marked obj = true
      · simp [hmk, f1, f2]
      · have hmk2 : h.marked obj = false := by simpa using hmk
        simp [hmk2, push_task, f1, f2]

/-- C11. Postcondition of the marking primitive, for every cell, mode, race,
mark state and worker `w`. If the cell is non-null, the resolved object `obj`
is non-null and `obj` was unmarked, then `obj` becomes marked (and nothing
else does), exactly one Task is added to the queue of `w`, the whole-object
Task `{obj, chunk = 0}`, and the other queues are unchanged. In every other
case (null cell, object vanished, object already marked) the mark state and
all queues are unchanged. -/
theorem mark_through_ref_postcondition (mode : UpdateRefsMode) (race : Option (Option Nat))
    (p w : Nat) (h : ShenandoahHeap) :
    (∀ obj, (MarkCall.mk mode race p w).resolved h = some obj → h.marked obj = false →
      (mark_through_ref mode race p w h).marked = upd h.marked obj true ∧
      (∀ v, v ≠ w → (mark_through_ref mode race p w h).queues v = h.queues v) ∧
      ((mark_through_ref mode race p w h).queues w).tasks.Perm
        (⟨obj, 0, 0⟩ :: (h.queues w).tasks) ∧
      (SCMTask.mk obj 0 0).is_not_chunked = true) ∧
    ((∀ obj, (MarkCall.mk mode race p w).resolved h = some obj → h.marked obj = true) →
      (mark_through_ref mode race p w h).marked = h.marked ∧
      (mark_through_ref mode race p w h).queues = h.queues) := by
  obtain ⟨o1, o2⟩ := mark_through_ref_outcome mode race p w h
  refine ⟨?_, o2⟩
  intro obj hres hun
  obtain ⟨m1, m2⟩ := o1 obj hres hun
  refine ⟨m1, ?_, ?_, rfl⟩
  · intro v hv
    rw [m2]
    simp [upd, hv]
  · rw [m2]
    simp only [upd, if_true]
    exact push_tasks_perm _ _

/-- C11 on the example heap: worker 0 marks through cell 10, which refers to
the unmarked object 2. -/
theorem mark_through_ref_postcondition_witness :
    (mark_through_ref UpdateRefsMode.RESOLVE none 10 0 example_heap).marked =
        upd example_heap.marked 2 true ∧
      (∀ v, v ≠ 0 → (mark_through_ref UpdateRefsMode.RESOLVE none 10 0 example_heap).queues v =
        example_heap.queues v) ∧
      ((mark_through_ref UpdateRefsMode.RESOLVE none 10 0 example_heap).queues 0).tasks.Perm
        (⟨2, 0, 0⟩ :: (example_heap.queues 0).tasks) ∧
      (SCMTask.mk 2 0 0).is_not_chunked = true :=
  (mark_through_ref_postcondition UpdateRefsMode.RESOLVE none 10 0 example_heap).1 2
    (by decide) (by decide)

/-! ## Further claims on the array chunk decomposer -/

/-- C20. The direct tail of the start algorithm is never empty: for `S ≥ 1`,
any `C` and `2*S < L ≤ 2^31-1`, when the splitting loop ends with `chunk`,
`pow` and `last_idx`, then `last_idx < L`, `last_idx = (chunk-1)*2^pow` and
`L ≤ chunk*2^pow`; so the tail `[last_idx, L)`, which the start algorithm
visits directly after the pushes of the loop, is non-empty and has at most
`2^pow` elements. -/
theorem start_tail_nonempty (L S C : Int) (hS : 1 ≤ S) (hlong : 2 * S < L)
    (hL : L ≤ 2147483647) :
    ∃ (r : LoopResult) (m : Nat), start_split S C L = some r ∧ r.pow = (m : Int) ∧
      r.last_idx < L ∧ r.last_idx = (r.chunk - 1) * 2 ^ m ∧ L ≤ r.chunk * 2 ^ m ∧
      0 < L - r.last_idx ∧ L - r.last_idx ≤ 2 ^ m ∧
      do_chunked_array_start S C L = some (r.events ++ [Event.iterate r.last_idx L]) := by
  obtain ⟨r, m, ts, hr, h3, _, h5, h6, _, h8, h9, _, _, _⟩ :=
    start_split_spec S C L hS (by omega) hL
  have hsub : (r.chunk - 1) * 2 ^ m = r.chunk * 2 ^ m - 2 ^ m := by ring
  refine ⟨r, m, hr, h3, h9, h8, h6, by omega, by omega, ?_⟩
  unfold do_chunked_array_start
  have hw : wrap32 (S * 2) = S * 2 := by rw [wrap32_eq] <;> omega
  rw [hw, if_neg (by omega), hr]
  simp [h9]

/-- C20 at length 1024, an exact power of two, with stride 16 and cap 1024. -/
theorem start_tail_nonempty_witness :
    ∃ (r : LoopResult) (m : Nat), start_split 16 1024 1024 = some r ∧ r.pow = (m : Int) ∧
      r.last_idx < 1024 ∧ r.last_idx = (r.chunk - 1) * 2 ^ m ∧ 1024 ≤ r.chunk * 2 ^ m ∧
      0 < 1024 - r.last_idx ∧ 1024 - r.last_idx ≤ 2 ^ m ∧
      do_chunked_array_start 16 1024 1024 = some (r.events ++ [Event.iterate r.last_idx 1024]) :=
  start_tail_nonempty 1024 16 1024 (by decide) (by decide) (by decide)

/-- Closed form of the splitting loop of the continuation algorithm: after `k`
rounds the chunk index is `chunk * 2^k`, the exponent `n - k`, and round `j`
has pushed the left half `(chunk * 2^(j+1) - 1, n - (j+1))`. -/
theorem chunk_loop_closed (S C : Int) (hS : 1 ≤ S) :
    ∀ (fuel n : Nat) (chunk : Int), n < fuel → n ≤ 30 → 1 ≤ chunk →
      chunk * 2 ^ n < 2147483648 →
      ∃ k : Nat, k ≤ n ∧
        chunk_loop S C fuel chunk n = some ⟨chunk * 2 ^ k, ((n - k : Nat) : Int), 0,
          (List.range k).map
            (fun j : Nat => Event.push (chunk * 2 ^ (j + 1) - 1) ((n : Int) - ((j : Int) + 1)))⟩ ∧
        (2 ^ (n - k) ≤ S ∨ C ≤ 2 * (chunk * 2 ^ k)) := by
  intro fuel
  induction fuel with
  | zero => intro n _ h; omega
  | succ fuel ih =>
    intro n chunk hf hn hc hhi
    rw [chunk_loop, shl32_one n hn]
    have hP0 := two_pow_pos n
    have hc2 : chunk ≤ chunk * 2 ^ n := le_mul_of_one_le_right (by omega) hP0
    by_cases hcond : (2 : Int) ^ n > S ∧ wrap32 (chunk * 2) < C
    · rw [if_pos hcond]
      obtain ⟨m, rfl⟩ : ∃ m, n = m + 1 := by
        rcases n with _ | m
        · simp at hcond; omega
        · exact ⟨m, rfl⟩
      have hP := two_pow_pos m
      have hpow : (2 : Int) ^ (m + 1) = 2 * 2 ^ m := by ring
      rw [hpow] at hhi
      have hX : chunk ≤ chunk * 2 ^ m := le_mul_of_one_le_right (by omega) hP
      have hmul : chunk * (2 * 2 ^ m) = 2 * (chunk * 2 ^ m) := by ring
      have hpow1 : wrap32 (((m + 1 : Nat) : Int) - 1) = (m : Int) := by
        rw [wrap32_eq] <;> omega
      have hright : wrap32 (chunk * 2) = 2 * chunk := by
        rw [wrap32_eq] <;> omega
      have hleft : wrap32 (2 * chunk - 1) = 2 * chunk - 1 := by
        rw [wrap32_eq] <;> omega
      simp only [hpow1, hright, hleft]
      obtain ⟨k, hk, hrun, hstop⟩ :=
        ih m (2 * chunk) (by omega) (by omega) (by omega) (by rw [mul_assoc]; omega)
      refine ⟨k + 1, by omega, ?_, ?_⟩
      · rw [hrun]
        simp only [Option.map_some', Option.some.injEq, LoopResult.mk.injEq]
        refine ⟨by ring, by congr 1; omega, trivial, ?_⟩
        rw [List.range_succ_eq_map, List.map_cons, List.map_map]
        refine congrArg₂ _ ?_ ?_
        · simp [mul_comm]
        · refine List.map_congr_left ?_
          intro j _
          simp only [Function.comp, Nat.succ_eq_add_one]
          refine congrArg₂ _ (by ring) (by push_cast; ring)
      · have e1 : m + 1 - (k + 1) = m - k := by omega
        have e2 : chunk * 2 ^ (k + 1) = 2 * chunk * 2 ^ k := by ring
        rw [e1, e2]
        exact hstop
    · rw [if_neg hcond]
      refine ⟨0, by omega, by simp, ?_⟩
      simp only [Nat.sub_zero, pow_zero, mul_one]
      by_cases h : (2 : Int) ^ n ≤ S
      · exact Or.inl h
      · right
        by_contra h2
        have hright : wrap32 (chunk * 2) = chunk * 2 := by
          rcases n with _ | m
          · simp at h; omega
          · have hP := two_pow_pos m
            have hpow : (2 : Int) ^ (m + 1) = 2 * 2 ^ m := by ring
            rw [hpow] at hhi
            have hX : chunk ≤ chunk * 2 ^ m := le_mul_of_one_le_right (by omega) hP
            have hmul : chunk * (2 * 2 ^ m) = 2 * (chunk * 2 ^ m) := by ring
            rw [wrap32_eq] <;> omega
        exact hcond ⟨by omega, by omega⟩

/-- C15, as stated, fails for Tasks whose range does not fit a signed 32-bit
`int`. For `chunk = 1`, `pow = 31` the shift `1 << 31` wraps and the range
visited is `(0, -2^31)`, not `[0, 2^31)`; for `chunk = 3`, `pow = 30` the
products wrap and the range visited is `(-2^31, -2^30)`, not
`[2^31, 3*2^30)`. -/
theorem continuation_step_overflow :
    do_chunked_array 1 1024 1 31 = some [Event.iterate 0 (-2147483648)] ∧
    do_chunked_array 1073741824 1024 3 30 =
      some [Event.iterate (-2147483648) (-1073741824)] := by
  decide

/-- C15 amended. One step of the continuation algorithm on a Task
`(chunk, pow)` with `chunk ≥ 1`, `0 ≤ pow ≤ 30` and `chunk * 2^pow ≤ 2^31-1`,
for `S ≥ 1` and any `C`. The loop makes `k ≤ pow` rounds; round `j` splits the
current chunk `(chunk*2^j, pow-j)`, pushes its left half
`(chunk*2^(j+1) - 1, pow-j-1)` and keeps its right half; the one range visited
is that of the final chunk `(c', p') = (chunk*2^k, pow-k)`; when the loop stops
`2^p' ≤ S` or `2*c' ≥ C`; and the visited range and the ranges of the pushed
Tasks together hold every index of the input range exactly once and no other
index. -/
theorem continuation_step (S C chunk : Int) (n : Nat) (hS : 1 ≤ S) (hc : 1 ≤ chunk)
    (hn : n ≤ 30) (hhi : chunk * 2 ^ n ≤ 2147483647) :
    ∃ (k : Nat) (evs : List Event), k ≤ n ∧ do_chunked_array S C chunk n = some evs ∧
      evs = (List.range k).map
          (fun j : Nat => Event.push (chunk * 2 ^ (j + 1) - 1) ((n : Int) - ((j : Int) + 1))) ++
        [Event.iterate ((chunk * 2 ^ k - 1) * 2 ^ (n - k)) (chunk * 2 ^ k * 2 ^ (n - k))] ∧
      (2 ^ (n - k) ≤ S ∨ C ≤ 2 * (chunk * 2 ^ k)) ∧
      ∀ i : Int, List.countP (covers i) (visits evs) +
        List.countP (covers i) ((pushes evs).map chunkRange) =
          if covers i (chunkRange (chunk, (n : Int))) then 1 else 0 := by
  obtain ⟨k, hk, hloop, hstop⟩ :=
    chunk_loop_closed S C hS 32 n chunk (by omega) hn hc (by omega)
  obtain ⟨lo, hi, ts, hrun, _, _, _, _, _, hcov⟩ :=
    valid_task_split S C (chunk * 2 ^ n) hS hhi (chunk, (n : Int)) ⟨n, rfl, hn, hc, le_refl _⟩
  have hsplit : (2 : Int) ^ n = 2 ^ k * 2 ^ (n - k) := by
    rw [← pow_add]
    congr 1
    omega
  have hPk := two_pow_pos k
  have hPm := two_pow_pos (n - k)
  have hprod : chunk * 2 ^ k * 2 ^ (n - k) = chunk * 2 ^ n := by rw [hsplit]; ring
  have hck : 1 ≤ chunk * 2 ^ k := by
    have : chunk ≤ chunk * 2 ^ k := le_mul_of_one_le_right (by omega) hPk
    omega
  have hle1 : chunk * 2 ^ k ≤ chunk * 2 ^ k * 2 ^ (n - k) :=
    le_mul_of_one_le_right (by omega) hPm
  have hle2 : (2 : Int) ^ (n - k) ≤ chunk * 2 ^ k * 2 ^ (n - k) :=
    le_mul_of_one_le_left (by omega) hck
  have hsub : (chunk * 2 ^ k - 1) * 2 ^ (n - k) =
      chunk * 2 ^ k * 2 ^ (n - k) - 2 ^ (n - k) := by ring
  have hclosed : do_chunked_array S C chunk n = some ((List.range k).map
      (fun j : Nat => Event.push (chunk * 2 ^ (j + 1) - 1) ((n : Int) - ((j : Int) + 1))) ++
      [Event.iterate ((chunk * 2 ^ k - 1) * 2 ^ (n - k)) (chunk * 2 ^ k * 2 ^ (n - k))]) := by
    unfold do_chunked_array
    rw [hloop]
    simp only [Option.map_some', shl32_one (n - k) (by omega)]
    rw [wrap32_eq (chunk * 2 ^ k - 1) (by omega) (by omega),
      wrap32_eq _ (by omega) (by omega), wrap32_eq _ (by omega) (by omega)]
  refine ⟨k, _, hk, hclosed, rfl, hstop, ?_⟩
  have hev := Option.some.inj (hclosed.symm.trans hrun)
  rw [hev]
  intro i
  simp only [visits_map_push, pushes_map_push, visits, pushes, List.append_nil]
  exact hcov i

/-- C15 amended, on the Task `(1, 9)` with stride 16 and cap 1024. -/
theorem continuation_step_witness :
    ∃ (k : Nat) (evs : List Event), k ≤ 9 ∧ do_chunked_array 16 1024 1 (9 : Nat) = some evs ∧
      evs = (List.range k).map
          (fun j : Nat => Event.push (1 * 2 ^ (j + 1) - 1) (((9 : Nat) : Int) - ((j : Int) + 1))) ++
        [Event.iterate ((1 * 2 ^ k - 1) * 2 ^ (9 - k)) (1 * 2 ^ k * 2 ^ (9 - k))] ∧
      (2 ^ (9 - k) ≤ (16 : Int) ∨ (1024 : Int) ≤ 2 * (1 * 2 ^ k)) ∧
      ∀ i : Int, List.countP (covers i) (visits evs) +
        List.countP (covers i) ((pushes evs).map chunkRange) =
          if covers i (chunkRange (1, ((9 : Nat) : Int))) then 1 else 0 :=
  continuation_step 16 1024 1 9 (by decide) (by decide) (by decide) (by decide)

/-! ## The splitting loops end -/

/-- A shift `1 << pow` that exceeds a stride `S ≥ 1` has a count that is, modulo
32, between 1 and 30. -/
theorem shl32_one_gt (pow S : Int) (hS : 1 ≤ S) (h : shl32 1 pow > S) :
    1 ≤ pow % 32 ∧ pow % 32 ≤ 30 := by
  have hm : 0 ≤ pow % 32 ∧ pow % 32 < 32 := by omega
  by_cases h0 : pow % 32 = 0
  · have : shl32 1 pow = 1 := by
      unfold shl32
      rw [h0]
      decide
    omega
  · by_cases h31 : pow % 32 = 31
    · have : shl32 1 pow = -2147483648 := by
        unfold shl32
        rw [h31]
        decide
      omega
    · omega

theorem wrap32_pred_mod (pow : Int) (h : 1 ≤ pow % 32) :
    wrap32 (pow - 1) % 32 = pow % 32 - 1 := by
  unfold wrap32
  omega

/-- For a stride `S ≥ 1` the splitting loop of the continuation algorithm ends
within 32 rounds, whatever the Task. -/
theorem chunk_loop_total (S C : Int) (hS : 1 ≤ S) :
    ∀ (fuel : Nat) (chunk pow : Int), (pow % 32 = 31 ∨ (pow % 32).toNat < fuel) → 0 < fuel →
      ∃ r, chunk_loop S C fuel chunk pow = some r := by
  intro fuel
  induction fuel with
  | zero => intro _ _ _ h; omega
  | succ fuel ih =>
    intro chunk pow hm _
    rw [chunk_loop]
    by_cases hcond : shl32 1 pow > S ∧ wrap32 (chunk * 2) < C
    · rw [if_pos hcond]
      obtain ⟨m1, m2⟩ := shl32_one_gt pow S hS hcond.1
      have hp := wrap32_pred_mod pow m1
      obtain ⟨r, hr⟩ := ih (wrap32 (chunk * 2)) (wrap32 (pow - 1))
        (Or.inr (by omega)) (by omega)
      exact ⟨_, by simp only [hr]; rfl⟩
    · rw [if_neg hcond]
      exact ⟨_, rfl⟩

/-- For a stride `S ≥ 1` the splitting loop of the start algorithm ends within
32 rounds, whatever its initial state. -/
theorem start_loop_total (S C len : Int) (hS : 1 ≤ S) :
    ∀ (fuel : Nat) (chunk pow last : Int), (pow % 32 = 31 ∨ (pow % 32).toNat < fuel) →
      0 < fuel → ∃ r, start_loop S C len fuel chunk pow last = some r := by
  intro fuel
  induction fuel with
  | zero => intro _ _ _ _ h; omega
  | succ fuel ih =>
    intro chunk pow last hm _
    rw [start_loop]
    by_cases hcond : shl32 1 pow > S ∧ wrap32 (chunk * 2) < C
    · rw [if_pos hcond]
      obtain ⟨m1, m2⟩ := shl32_one_gt pow S hS hcond.1
      have hp := wrap32_pred_mod pow m1
      simp only
      split_ifs
      · obtain ⟨r, hr⟩ := ih (wrap32 (chunk * 2)) (wrap32 (pow - 1))
          (wrap32 (wrap32 (wrap32 (chunk * 2) - 1) * shl32 1 (wrap32 (pow - 1))))
          (Or.inr (by omega)) (by omega)
        exact ⟨_, by simp only [hr]; rfl⟩
      · exact ih _ _ _ (Or.inr (by omega)) (by omega)
    · rw [if_neg hcond]
      exact ⟨_, rfl⟩

theorem do_chunked_array_total (S C chunk pow : Int) (hS : 1 ≤ S) :
    ∃ evs, do_chunked_array S C chunk pow = some evs := by
  obtain ⟨r, hr⟩ := chunk_loop_total S C hS 32 chunk pow (Or.inr (by omega)) (by omega)
  exact ⟨_, by unfold do_chunked_array; rw [hr]; rfl⟩

theorem do_chunked_array_start_total (S C len : Int) (hS : 1 ≤ S) :
    ∃ evs, do_chunked_array_start S C len = some evs := by
  unfold do_chunked_array_start
  split_ifs
  · exact ⟨_, rfl⟩
  · have hsplit : ∃ r, start_split S C len = some r := by
      unfold start_split
      simp only
      split_ifs
      · obtain ⟨r, hr⟩ := start_loop_total S C len hS 32 2 (wrap32 (start_bits len - 1))
          (shl32 1 (wrap32 (start_bits len - 1))) (Or.inr (by omega)) (by omega)
        exact ⟨_, by rw [hr]; rfl⟩
      · exact start_loop_total S C len hS 32 1 (start_bits len) 0 (Or.inr (by omega)) (by omega)
    obtain ⟨r, hr⟩ := hsplit
    exact ⟨_, by rw [hr]; rfl⟩

/-! ## Chunk indices stay below the cap -/

/-- Every chunk index pushed by the splitting loop of the start algorithm is
below the cap. -/
theorem start_loop_pushes_lt (S C len : Int) (hS : 1 ≤ S) :
    ∀ (fuel n : Nat) (chunk last : Int), n ≤ 30 → 1 ≤ chunk →
      len ≤ chunk * 2 ^ n → chunk * 2 ^ n ≤ 2147483648 → len ≤ 2147483647 →
      ∀ r, start_loop S C len fuel chunk n last = some r →
        ∀ t ∈ pushes r.events, t.1 < C := by
  intro fuel
  induction fuel with
  | zero => intro n chunk last _ _ _ _ _ r hr; simp [start_loop] at hr
  | succ fuel ih =>
    intro n chunk last hn hc hlo hhi hlen r hr
    rw [start_loop, shl32_one n hn] at hr
    by_cases hcond : (2 : Int) ^ n > S ∧ wrap32 (chunk * 2) < C
    · rw [if_pos hcond] at hr
      obtain ⟨k, rfl⟩ : ∃ k, n = k + 1 := by
        rcases n with _ | k
        · simp at hcond; omega
        · exact ⟨k, rfl⟩
      have hP := two_pow_pos k
      have hpow : (2 : Int) ^ (k + 1) = 2 * 2 ^ k := by ring
      rw [hpow] at hlo hhi
      have hX : chunk ≤ chunk * 2 ^ k := le_mul_of_one_le_right (by omega) hP
      have hX2 : (2 : Int) ^ k ≤ chunk * 2 ^ k := le_mul_of_one_le_left (by omega) hc
      have hmul : chunk * (2 * 2 ^ k) = 2 * (chunk * 2 ^ k) := by ring
      have hpow1 : wrap32 (((k + 1 : Nat) : Int) - 1) = (k : Int) := by
        rw [wrap32_eq] <;> omega
      have hleft : wrap32 (wrap32 (chunk * 2) - 1) = 2 * chunk - 1 := by
        unfold wrap32; omega
      have hlce_eq : (2 * chunk - 1) * 2 ^ k = 2 * (chunk * 2 ^ k) - 2 ^ k := by ring
      have hlce : wrap32 ((2 * chunk - 1) * 2 ^ k) = (2 * chunk - 1) * 2 ^ k := by
        rw [wrap32_eq] <;> omega
      simp only [hpow1, hleft, shl32_one k (by omega), hlce] at hr
      by_cases hbr : (2 * chunk - 1) * 2 ^ k < len
      · rw [if_pos hbr] at hr
        have hright : wrap32 (chunk * 2) = 2 * chunk := by
          have hne : chunk ≠ 1073741824 := by
            intro h
            have h0 : chunk * (2 ^ k - 1) = 0 := by
              have : chunk * (2 ^ k - 1) = chunk * 2 ^ k - chunk := by ring
              omega
            rcases mul_eq_zero.mp h0 with h1 | h1 <;> omega
          rw [wrap32_eq] <;> omega
        rw [hright] at hr hcond
        obtain ⟨r2, hr2, hr3⟩ := Option.map_eq_some'.mp hr
        subst hr3
        intro t ht
        simp only [pushes, List.mem_cons] at ht
        rcases ht with rfl | ht
        · show 2 * chunk - 1 < C
          omega
        · exact ih k (2 * chunk) _ (by omega) (by omega) (by rw [mul_assoc]; omega)
            (by rw [mul_assoc]; omega) hlen r2 hr2 t ht
      · rw [if_neg hbr] at hr
        exact ih k (2 * chunk - 1) last (by omega) (by omega) (by omega) (by omega) hlen r hr
    · rw [if_neg hcond] at hr
      rw [← Option.some.inj hr]
      intro t ht
      simp [pushes] at ht

/-- With a cap of at most `2^30`, every Task pushed by the splitting loop of
the continuation algorithm, started with `1 ≤ chunk < C` and `0 ≤ pow ≤ 30`,
has a chunk index in `[1, C)` and an exponent in `[0, 30]`. -/
theorem chunk_loop_pushes_bounds (S C : Int) (hS : 1 ≤ S) (hC : C ≤ 1073741824) :
    ∀ (fuel n : Nat) (chunk : Int), n ≤ 30 → 1 ≤ chunk → chunk < C →
      ∀ r, chunk_loop S C fuel chunk n = some r →
        ∀ t ∈ pushes r.events, 1 ≤ t.1 ∧ t.1 < C ∧ 0 ≤ t.2 ∧ t.2 ≤ 30 := by
  intro fuel
  induction fuel with
  | zero => intro n chunk _ _ _ r hr; simp [chunk_loop] at hr
  | succ fuel ih =>
    intro n chunk hn hc hlt r hr
    rw [chunk_loop, shl32_one n hn] at hr
    by_cases hcond : (2 : Int) ^ n > S ∧ wrap32 (chunk * 2) < C
    · rw [if_pos hcond] at hr
      obtain ⟨k, rfl⟩ : ∃ k, n = k + 1 := by
        rcases n with _ | k
        · simp at hcond; omega
        · exact ⟨k, rfl⟩
      have hpow1 : wrap32 (((k + 1 : Nat) : Int) - 1) = (k : Int) := by
        rw [wrap32_eq] <;> omega
      have hright : wrap32 (chunk * 2) = 2 * chunk := by
        rw [wrap32_eq] <;> omega
      have hleft : wrap32 (2 * chunk - 1) = 2 * chunk - 1 := by
        rw [wrap32_eq] <;> omega
      rw [hright] at hcond
      simp only [hpow1, hright, hleft] at hr
      obtain ⟨r2, hr2, hr3⟩ := Option.map_eq_some'.mp hr
      subst hr3
      intro t ht
      simp only [pushes, List.mem_cons] at ht
      rcases ht with rfl | ht
      · exact ⟨by show 1 ≤ 2 * chunk - 1; omega, by show 2 * chunk - 1 < C; omega,
          by show (0 : Int) ≤ (k : Int); omega, by show (k : Int) ≤ 30; omega⟩
      · exact ih k (2 * chunk) (by omega) (by omega) (by omega) r2 hr2 t ht
    · rw [if_neg hcond] at hr
      rw [← Option.some.inj hr]
      intro t ht
      simp [pushes] at ht

theorem pushes_append (xs ys : List Event) : pushes (xs ++ ys) = pushes xs ++ pushes ys := by
  induction xs with
  | nil => rfl
  | cons e es ih => cases e <;> simp [pushes, ih]

/-- Every chunk index pushed by the start algorithm is below a cap `C ≥ 2`. -/
theorem start_pushes_lt (S C L : Int) (hS : 1 ≤ S) (hL0 : 0 ≤ L) (hL : L ≤ 2147483647)
    (hC : 2 ≤ C) (evs : List Event) (h : do_chunked_array_start S C L = some evs) :
    ∀ t ∈ pushes evs, t.1 < C := by
  unfold do_chunked_array_start at h
  by_cases hshort : L ≤ wrap32 (S * 2)
  · rw [if_pos hshort] at h
    rw [← Option.some.inj h]
    intro t ht
    simp [pushes] at ht
  · rw [if_neg hshort] at h
    obtain ⟨r, hr, hev⟩ := Option.map_eq_some'.mp h
    have hpe : pushes evs = pushes r.events := by
      rw [← hev]
      split_ifs
      · rw [pushes_append]
        simp [pushes]
      · rfl
    rw [hpe]
    obtain ⟨n, hn, hn31, hle⟩ : ∃ n : Nat, start_bits L = (n : Int) ∧ n ≤ 31 ∧ L ≤ 2 ^ n := by
      by_cases h0 : L = 0
      · subst h0
        exact ⟨0, by decide, by omega, by norm_num⟩
      · obtain ⟨n, e1, e2, e3, _⟩ := start_bits_spec L (by omega) hL
        exact ⟨n, e1, e2, e3⟩
    unfold start_split at hr
    simp only [hn] at hr
    by_cases hov : (n : Int) ≥ 31
    · have hn2 : n = 31 := by omega
      subst hn2
      rw [if_pos hov] at hr
      have hpow : wrap32 (((31 : Nat) : Int) - 1) = ((30 : Nat) : Int) := by decide
      rw [hpow] at hr
      obtain ⟨r2, hr2, hr3⟩ := Option.map_eq_some'.mp hr
      subst hr3
      intro t ht
      simp only [pushes, List.mem_cons] at ht
      rcases ht with rfl | ht
      · show (1 : Int) < C
        omega
      · exact start_loop_pushes_lt S C L hS 32 30 2 _ (by omega) (by omega)
          (by norm_num at hle ⊢; omega) (by norm_num) hL r2 hr2 t ht
    · rw [if_neg hov] at hr
      exact start_loop_pushes_lt S C L hS 32 n 1 0 (by omega) (by omega) (by omega)
        (by have := two_pow_le_30 n (by omega); omega) hL r hr

/-- C18, as stated, fails for a cap above `2^30`: with `C = 2^31-1` and
stride 1, `do_chunked_array` called on the Task `(2^30, 1)`, for which
`1 ≤ chunk < C` and `pow ≤ 30`, finds `chunk*2` wrapped to `-2^31 < C` and
pushes the Task `(2^31-1, 0)`, whose chunk index is not below `C`. -/
theorem pushed_chunk_reaches_cap :
    do_chunked_array 1 2147483647 1073741824 1 =
      some [Event.push 2147483647 0, Event.iterate 2147483647 (-2147483648)] ∧
    ¬ ((2147483647 : Int) < 2147483647) := by
  decide

/-- C18 amended. Pushed chunk Tasks are encodable and never look like
whole-object Tasks. For every `0 ≤ L ≤ 2^31-1`, `S ≥ 1` and `C ≥ 2`, every Task
`(chunk, pow)` pushed by `do_chunked_array_start` has `1 ≤ chunk < C` and
`0 ≤ pow ≤ 30`. When moreover `C ≤ 2^30`, so that `chunk*2` cannot wrap, the
same holds for every Task pushed by `do_chunked_array` called with
`1 ≤ chunk < C` and `0 ≤ pow ≤ 30`. In both cases `chunk` is not 0, so the
pushed Task is not dispatched as not chunked. -/
theorem pushed_tasks_encodable (L S C : Int) (hL0 : 0 ≤ L) (hL : L ≤ 2147483647)
    (hS : 1 ≤ S) (hC : 2 ≤ C) :
    (∃ evs, do_chunked_array_start S C L = some evs ∧
      ∀ t ∈ pushes evs, (1 ≤ t.1 ∧ t.1 < C ∧ 0 ≤ t.2 ∧ t.2 ≤ 30) ∧
        ∀ o, (SCMTask.mk o t.1 t.2).is_not_chunked = false) ∧
    (C ≤ 1073741824 → ∀ chunk pow : Int, 1 ≤ chunk → chunk < C → 0 ≤ pow → pow ≤ 30 →
      ∃ evs, do_chunked_array S C chunk pow = some evs ∧
        ∀ t ∈ pushes evs, (1 ≤ t.1 ∧ t.1 < C ∧ 0 ≤ t.2 ∧ t.2 ≤ 30) ∧
          ∀ o, (SCMTask.mk o t.1 t.2).is_not_chunked = false) := by
  have hnc : ∀ (t : Int × Int), 1 ≤ t.1 → ∀ o, (SCMTask.mk o t.1 t.2).is_not_chunked = false := by
    intro t ht o
    simp only [SCMTask.is_not_chunked, decide_eq_false_iff_not]
    omega
  refine ⟨?_, ?_⟩
  · obtain ⟨evs, hevs⟩ := do_chunked_array_start_total S C L hS
    refine ⟨evs, hevs, ?_⟩
    intro t ht
    obtain ⟨m, e1, e2, e3, _⟩ := start_pushes_valid S C L hS hL0 hL evs hevs t ht
    have hlt := start_pushes_lt S C L hS hL0 hL hC evs hevs t ht
    exact ⟨⟨e3, hlt, by omega, by omega⟩, hnc t e3⟩
  · intro hC2 chunk pow hc hlt hp0 hp30
    obtain ⟨n, rfl⟩ : ∃ n : Nat, pow = (n : Int) := ⟨pow.toNat, by omega⟩
    obtain ⟨r, hr⟩ := chunk_loop_total S C hS 32 chunk n (Or.inr (by omega)) (by omega)
    have hb := chunk_loop_pushes_bounds S C hS hC2 32 n chunk (by omega) hc hlt r hr
    refine ⟨_, by unfold do_chunked_array; rw [hr]; rfl, ?_⟩
    intro t ht
    rw [pushes_append] at ht
    simp only [pushes, List.append_nil] at ht
    exact ⟨hb t ht, hnc t (hb t ht).1⟩

/-- C18 amended, at length 1000, stride 16 and cap 1024. -/
theorem pushed_tasks_encodable_witness :
    (∃ evs, do_chunked_array_start 16 1024 1000 = some evs ∧
      ∀ t ∈ pushes evs, (1 ≤ t.1 ∧ t.1 < 1024 ∧ 0 ≤ t.2 ∧ t.2 ≤ 30) ∧
        ∀ o, (SCMTask.mk o t.1 t.2).is_not_chunked = false) ∧
    ((1024 : Int) ≤ 1073741824 → ∀ chunk pow : Int, 1 ≤ chunk → chunk < 1024 → 0 ≤ pow →
      pow ≤ 30 →
      ∃ evs, do_chunked_array 16 1024 chunk pow = some evs ∧
        ∀ t ∈ pushes evs, (1 ≤ t.1 ∧ t.1 < 1024 ∧ 0 ≤ t.2 ∧ t.2 ≤ 30) ∧
          ∀ o, (SCMTask.mk o t.1 t.2).is_not_chunked = false) :=
  pushed_tasks_encodable 1000 16 1024 (by decide) (by decide) (by decide) (by decide)

/-! ## Claims on the dispatcher: liveness and marked queues -/

theorem run_events_frame (mode : UpdateRefsMode) (races : Nat → Option (Option Nat))
    (w obj : Nat) : ∀ (evs : List Event) (h : ShenandoahHeap),
      (run_events mode races w obj evs h).live = h.live ∧
      (run_events mode races w obj evs h).live_data = h.live_data := by
  intro evs
  induction evs with
  | nil => intro h; exact ⟨rfl, rfl⟩
  | cons e es ih =>
    intro h
    cases e with
    | push c p =>
      obtain ⟨i1, i2⟩ := ih (push_task w ⟨obj, c, p⟩ h)
      exact ⟨i1, i2⟩
    | iterate lo hi =>
      obtain ⟨i1, i2⟩ := ih (oop_iterate_range mode races w obj lo hi h)
      obtain ⟨_, m2, m3, _⟩ := mark_refs_frame mode races w
        (((h.fields obj).take hi.toNat).drop lo.toNat) h
      exact ⟨i1.trans m2, i2.trans m3⟩

/-- The dispatch of a Task with `chunk ≠ 0` ends, for a stride `S ≥ 1`, and
leaves all liveness counters as they were. -/
theorem do_task_chunk_frame (mode : UpdateRefsMode) (CL : Bool) (S C : Int)
    (races : Nat → Option (Option Nat)) (w : Nat) (task : SCMTask) (h : ShenandoahHeap)
    (hS : 1 ≤ S) (hchunk : task.chunk ≠ 0) :
    ∃ h2, do_task mode CL S C races w task h = some h2 ∧ h2.live = h.live ∧
      h2.live_data = h.live_data := by
  obtain ⟨evs, hevs⟩ := do_chunked_array_total S C task.chunk task.pow hS
  obtain ⟨f1, f2⟩ := run_events_frame mode races w task.obj evs h
  refine ⟨run_events mode races w task.obj evs h, ?_, f1, f2⟩
  unfold do_task
  simp [SCMTask.is_not_chunked, hchunk, hevs]

theorem dispatch_all_chunk_frame (mode : UpdateRefsMode) (CL : Bool) (S C : Int)
    (races : Nat → Option (Option Nat)) (w : Nat) (hS : 1 ≤ S) :
    ∀ (ts : List SCMTask) (h : ShenandoahHeap), (∀ t ∈ ts, t.chunk ≠ 0) →
      ∃ h2, dispatch_all mode CL S C races w ts h = some h2 ∧ h2.live = h.live ∧
        h2.live_data = h.live_data := by
  intro ts
  induction ts with
  | nil => intro h _; exact ⟨h, rfl, rfl, rfl⟩
  | cons t ts ih =>
    intro h hts
    obtain ⟨h1, hrun, f1, f2⟩ := do_task_chunk_frame mode CL S C races w t h hS
      (hts t (List.mem_cons_self _ _))
    obtain ⟨h2, hrun2, g1, g2⟩ := ih h1 (fun x hx => hts x (List.mem_cons_of_mem _ hx))
    refine ⟨h2, ?_, g1.trans f1, g2.trans f2⟩
    rw [dispatch_all, hrun]
    exact hrun2

/-- C12. Liveness is recorded once per array. With liveness tracking on and a
stride `S ≥ 1`, the dispatch of the whole-object Task `{o, chunk = 0}` of an
object array `o` of any length ends and changes the liveness counters exactly
as the one call `count_liveness(o)` does; the dispatch of any Task with
`chunk ≠ 0` ends and leaves the local and the authoritative counters of every
region unchanged, so after the chunk Tasks `ts` have been dispatched as well,
in any order, the counters are still those after that one call; and the chunk
Tasks that stem from the array (of length at most `2^31-1`) all have
`chunk ≠ 0`. -/
theorem liveness_once_per_array (mode : UpdateRefsMode) (S C : Int)
    (races : Nat → Option (Option Nat)) (w o : Nat) (h : ShenandoahHeap) (ts : List SCMTask)
    (hS : 1 ≤ S) (harr : h.is_objArray o = true) (hts : ∀ t ∈ ts, t.chunk ≠ 0) :
    (∃ h1 h2, do_task mode true S C races w ⟨o, 0, 0⟩ h = some h1 ∧
      dispatch_all mode true S C races w ts h1 = some h2 ∧
      h1.live = (count_liveness w o h).live ∧
      h1.live_data = (count_liveness w o h).live_data ∧
      h2.live = (count_liveness w o h).live ∧
      h2.live_data = (count_liveness w o h).live_data) ∧
    (∀ (task : SCMTask) (g : ShenandoahHeap), task.chunk ≠ 0 →
      ∃ g2, do_task mode true S C races w task g = some g2 ∧ g2.live = g.live ∧
        g2.live_data = g.live_data) ∧
    (array_length h o ≤ 2147483647 → ∀ t, Pushed S C (array_length h o) t → t.1 ≠ 0) := by
  refine ⟨?_, fun task g hc => do_task_chunk_frame mode true S C races w task g hS hc, ?_⟩
  · obtain ⟨evs, hevs⟩ := do_chunked_array_start_total S C
      (array_length (count_liveness w o h) o) hS
    obtain ⟨f1, f2⟩ := run_events_frame mode races w o evs (count_liveness w o h)
    have harr2 : (count_liveness w o h).is_objArray o = true := by
      rw [(count_liveness_frame w o h).2.2.2.2.2]
      exact harr
    have hfirst : do_task mode true S C races w ⟨o, 0, 0⟩ h =
        some (run_events mode races w o evs (count_liveness w o h)) := by
      unfold do_task
      simp [SCMTask.is_not_chunked, harr2, hevs]
    obtain ⟨h2, hrun2, g1, g2⟩ := dispatch_all_chunk_frame mode true S C races w hS ts
      (run_events mode races w o evs (count_liveness w o h)) hts
    exact ⟨_, h2, hfirst, hrun2, f1, f2, g1.trans f1, g2.trans f2⟩
  · intro hlen t ht
    obtain ⟨m, _, _, e3, _⟩ := Pushed_valid S C (array_length h o) hS
      (by unfold array_length; exact Int.natCast_nonneg _) hlen t ht
    omega

/-- C12 on the example heap with the array 5 of ten elements, stride 4 and cap
1024: the whole-object Task is dispatched, then the chunk Task `(1, 3)` that
it pushed. -/
theorem liveness_once_per_array_witness :
    (∃ h1 h2, do_task UpdateRefsMode.RESOLVE true 4 1024 (fun _ => none) 0 ⟨5, 0, 0⟩
        example_array_heap = some h1 ∧
      dispatch_all UpdateRefsMode.RESOLVE true 4 1024 (fun _ => none) 0 [⟨5, 1, 3⟩] h1 = some h2 ∧
      h1.live = (count_liveness 0 5 example_array_heap).live ∧
      h1.live_data = (count_liveness 0 5 example_array_heap).live_data ∧
      h2.live = (count_liveness 0 5 example_array_heap).live ∧
      h2.live_data = (count_liveness 0 5 example_array_heap).live_data) ∧
    (∀ (task : SCMTask) (g : ShenandoahHeap), task.chunk ≠ 0 →
      ∃ g2, do_task UpdateRefsMode.RESOLVE true 4 1024 (fun _ => none) 0 task g = some g2 ∧
        g2.live = g.live ∧ g2.live_data = g.live_data) ∧
    (array_length example_array_heap 5 ≤ 2147483647 →
      ∀ t, Pushed 4 1024 (array_length example_array_heap 5) t → t.1 ≠ 0) :=
  liveness_once_per_array UpdateRefsMode.RESOLVE 4 1024 (fun _ => none) 0 5 example_array_heap
    [⟨5, 1, 3⟩] (by decide) (by decide) (by decide)

theorem push_tasks_mem (q : SCMObjToScanQueue) (t u : SCMTask) (hu : u ∈ (q.push t).tasks) :
    u = t ∨ u ∈ q.tasks := by
  have := (push_tasks_perm q t).mem_iff.mp hu
  simpa using this

theorem try_queue_tasks (q : SCMObjToScanQueue) (r : SCMTask × SCMObjToScanQueue)
    (h : try_queue q = some r) : q.tasks = r.1 :: r.2.tasks := by
  unfold try_queue SCMObjToScanQueue.pop_buffer SCMObjToScanQueue.pop_local
    SCMObjToScanQueue.pop_overflow at h
  unfold SCMObjToScanQueue.tasks
  cases hb : q.buf with
  | some t =>
    simp only [hb, Option.some.injEq] at h
    subst h
    simp
  | none =>
    cases hd : q.deque with
    | cons t rest =>
      simp only [hb, hd, Option.some.injEq] at h
      subst h
      simp
    | nil =>
      cases ho : q.overflow with
      | cons t rest =>
        simp only [hb, hd, ho, Option.some.injEq] at h
        subst h
        simp
      | nil => simp [hb, hd, ho] at h

theorem QueuesMarked_push (w : Nat) (t : SCMTask) (h : ShenandoahHeap)
    (hinv : QueuesMarked h) (ht : h.marked t.obj = true) : QueuesMarked (push_task w t h) := by
  intro v u hu
  simp only [push_task, upd] at hu ⊢
  by_cases hv : v = w
  · rw [if_pos hv] at hu
    rcases push_tasks_mem _ _ _ hu with rfl | hu
    · exact ht
    · exact hinv w u hu
  · rw [if_neg hv] at hu
    exact hinv v u hu

/-- A call of the marking primitive keeps the queues holding marked objects
only, and unmarks nothing. -/
theorem mark_through_ref_inv (mode : UpdateRefsMode) (race : Option (Option Nat)) (p w : Nat)
    (h : ShenandoahHeap) (hinv : QueuesMarked h) :
    QueuesMarked (mark_through_ref mode race p w h) ∧
    ∀ x, h.marked x = true → (mark_through_ref mode race p w h).marked x = true := by
  obtain ⟨o1, o2⟩ := mark_through_ref_outcome mode race p w h
  by_cases hcase : ∀ obj, (MarkCall.mk mode race p w).resolved h = some obj →
      h.marked obj = true
  · obtain ⟨m1, m2⟩ := o2 hcase
    refine ⟨?_, fun x hx => by rw [m1]; exact hx⟩
    intro v u hu
    rw [m2] at hu
    rw [m1]
    exact hinv v u hu
  · push_neg at hcase
    obtain ⟨obj, hres, hun⟩ := hcase
    obtain ⟨m1, m2⟩ := o1 obj hres (by simpa using hun)
    have hmono : ∀ x, h.marked x = true → upd h.marked obj true x = true := by
      intro x hx
      unfold upd
      split_ifs <;> simp [hx]
    refine ⟨?_, fun x hx => by rw [m1]; exact hmono x hx⟩
    intro v u hu
    rw [m2] at hu
    rw [m1]
    simp only [upd] at hu
    by_cases hv : v = w
    · rw [if_pos hv] at hu
      rcases push_tasks_mem _ _ _ hu with rfl | hu
      · simp [upd]
      · exact hmono _ (hinv w u hu)
    · rw [if_neg hv] at hu
      exact hmono _ (hinv v u hu)

theorem mark_refs_inv (mode : UpdateRefsMode) (races : Nat → Option (Option Nat)) (w : Nat) :
    ∀ (cells : List Nat) (h : ShenandoahHeap), QueuesMarked h →
      QueuesMarked (mark_refs mode races w cells h) ∧
      ∀ x, h.marked x = true → (mark_refs mode races w cells h).marked x = true := by
  intro cells
  induction cells with
  | nil => intro h hinv; exact ⟨hinv, fun _ hx => hx⟩
  | cons p ps ih =>
    intro h hinv
    obtain ⟨a1, a2⟩ := mark_through_ref_inv mode (races p) p w h hinv
    obtain ⟨b1, b2⟩ := ih (mark_through_ref mode (races p) p w h) a1
    exact ⟨b1, fun x hx => b2 x (a2 x hx)⟩

theorem run_events_inv (mode : UpdateRefsMode) (races : Nat → Option (Option Nat))
    (w obj : Nat) : ∀ (evs : List Event) (h : ShenandoahHeap), QueuesMarked h →
      h.marked obj = true → QueuesMarked (run_events mode races w obj evs h) := by
  intro evs
  induction evs with
  | nil => intro h hinv _; exact hinv
  | cons e es ih =>
    intro h hinv hobj
    cases e with
    | push c p =>
      exact ih (push_task w ⟨obj, c, p⟩ h) (QueuesMarked_push w ⟨obj, c, p⟩ h hinv hobj) hobj
    | iterate lo hi =>
      obtain ⟨a1, a2⟩ := mark_refs_inv mode races w
        (((h.fields obj).take hi.toNat).drop lo.toNat) h hinv
      exact ih (oop_iterate_range mode races w obj lo hi h) a1 (a2 obj hobj)

theorem do_buffer_inv (w buffer size : Nat) (h : ShenandoahHeap) (hinv : QueuesMarked h) :
    QueuesMarked (do_buffer w buffer size h) := by
  have key : ∀ (l : List Nat) (g : ShenandoahHeap), QueuesMarked g →
      QueuesMarked (l.foldl
        (fun h i => mark_through_ref UpdateRefsMode.RESOLVE none (buffer + i) w h) g) := by
    intro l
    induction l with
    | nil => intro g hg; exact hg
    | cons i l ih =>
      intro g hg
      exact ih _ (mark_through_ref_inv UpdateRefsMode.RESOLVE none (buffer + i) w g hg).1
  exact key (List.range size) h hinv

theorem QueuesMarked_pop (w : Nat) (t : SCMTask) (q : SCMObjToScanQueue) (h : ShenandoahHeap)
    (hinv : QueuesMarked h) (hpop : try_queue (h.queues w) = some (t, q)) :
    h.marked t.obj = true ∧ QueuesMarked { h with queues := upd h.queues w q } := by
  have htasks := try_queue_tasks _ _ hpop
  refine ⟨hinv w t (by rw [htasks]; exact List.mem_cons_self _ _), ?_⟩
  intro v u hu
  simp only [upd] at hu
  by_cases hv : v = w
  · rw [if_pos hv] at hu
    exact hinv w u (by rw [htasks]; exact List.mem_cons_of_mem _ hu)
  · rw [if_neg hv] at hu
    exact hinv v u hu

theorem try_draining_inv (w : Nat) (h : ShenandoahHeap) (hinv : QueuesMarked h) :
    QueuesMarked (try_draining_satb_buffer w h).2 ∧
    ∀ t, (try_draining_satb_buffer w h).1 = some t →
      (try_draining_satb_buffer w h).2.marked t.obj = true := by
  unfold try_draining_satb_buffer apply_closure_to_completed_buffer
  cases hs : h.satb with
  | nil => simp [hinv]
  | cons b rest =>
    have hinv1 : QueuesMarked (do_buffer w b.1 b.2 { h with satb := rest }) :=
      do_buffer_inv w b.1 b.2 _ (fun v u hu => hinv v u hu)
    simp only [if_true]
    cases htq : try_queue ((do_buffer w b.1 b.2 { h with satb := rest }).queues w) with
    | none => exact ⟨hinv1, by simp⟩
    | some r =>
      obtain ⟨t, q⟩ := r
      obtain ⟨p1, p2⟩ := QueuesMarked_pop w t q _ hinv1 htq
      refine ⟨p2, ?_⟩
      intro u hu
      simp only [Option.some.injEq] at hu
      subst hu
      exact p1

/-- For a stride `S ≥ 1`, the dispatch of a Task for a marked object ends and
keeps the queues holding marked objects only. -/
theorem do_task_inv (mode : UpdateRefsMode) (CL : Bool) (S C : Int)
    (races : Nat → Option (Option Nat)) (w : Nat) (task : SCMTask) (h : ShenandoahHeap)
    (hS : 1 ≤ S) (hinv : QueuesMarked h) (hobj : h.marked task.obj = true) :
    ∃ h2, do_task mode CL S C races w task h = some h2 ∧ QueuesMarked h2 := by
  unfold do_task
  by_cases hnc : task.is_not_chunked = true
  · simp only [hnc, if_true]
    have hc : QueuesMarked (if CL = true then count_liveness w task.obj h else h) ∧
        (if CL = true then count_liveness w task.obj h else h).marked task.obj = true := by
      cases CL
      · exact ⟨hinv, hobj⟩
      · obtain ⟨_, c2, _, c4, _⟩ := count_liveness_frame w task.obj h
        refine ⟨?_, by simp only [if_true]; rw [c2]; exact hobj⟩
        intro v u hu
        simp only [if_true] at hu ⊢
        rw [c4] at hu
        rw [c2]
        exact hinv v u hu
    generalize (if CL = true then count_liveness w task.obj h else h) = h1 at hc ⊢
    obtain ⟨hinv1, hobj1⟩ := hc
    by_cases ha : h1.is_objArray task.obj = true
    · obtain ⟨evs, hevs⟩ := do_chunked_array_start_total S C (array_length h1 task.obj) hS
      refine ⟨run_events mode races w task.obj evs h1, by simp [ha, hevs], ?_⟩
      exact run_events_inv mode races w task.obj evs h1 hinv1 hobj1
    · have ha2 : h1.is_objArray task.obj = false := by simpa using ha
      exact ⟨mark_refs mode races w (h1.fields task.obj) h1, by simp [ha2],
        (mark_refs_inv mode races w _ h1 hinv1).1⟩
  · have hnc2 : task.is_not_chunked = false := by simpa using hnc
    obtain ⟨evs, hevs⟩ := do_chunked_array_total S C task.chunk task.pow hS
    refine ⟨run_events mode races w task.obj evs h, by simp [hnc2, hevs], ?_⟩
    exact run_events_inv mode races w task.obj evs h hinv hobj

/-- C17. Only marked objects are on the task queues. If every Task on every
queue refers to a marked object, then this still holds after any
`mark_through_ref` call, after any SATB buffer drain (whose returned Task
refers to a marked object), after a Task is taken from a queue with
`try_queue` (that Task refers to a marked object), and after any `do_task`
dispatch of a Task for a marked object, which ends for a stride `S ≥ 1`; so
the assertion that only marked objects are on the task queue holds for every
Task these operations produce. -/
theorem queues_hold_marked (h : ShenandoahHeap) (hinv : QueuesMarked h) :
    (∀ mode race p w, QueuesMarked (mark_through_ref mode race p w h)) ∧
    (∀ w, QueuesMarked (try_draining_satb_buffer w h).2 ∧
      ∀ t, (try_draining_satb_buffer w h).1 = some t →
        (try_draining_satb_buffer w h).2.marked t.obj = true) ∧
    (∀ w t q, try_queue (h.queues w) = some (t, q) →
      h.marked t.obj = true ∧ QueuesMarked { h with queues := upd h.queues w q }) ∧
    (∀ mode CL S C races w task, 1 ≤ S → h.marked task.obj = true →
      ∃ h2, do_task mode CL S C races w task h = some h2 ∧ QueuesMarked h2) :=
  ⟨fun mode race p w => (mark_through_ref_inv mode race p w h hinv).1,
    fun w => try_draining_inv w h hinv,
    fun w t q hpop => QueuesMarked_pop w t q h hinv hpop,
    fun mode CL S C races w task hS hobj => do_task_inv mode CL S C races w task h hS hinv hobj⟩

/-- C17 on the example heap with the marked array 5, whose queues are empty:
the dispatch of the whole-object Task of the array, with stride 4 and cap 1024,
pushes the chunk Task `(1, 3)` of the marked array. -/
theorem queues_hold_marked_witness :
    ∃ h2, do_task UpdateRefsMode.RESOLVE true 4 1024 (fun _ => none) 0 ⟨5, 0, 0⟩
        example_array_heap = some h2 ∧ QueuesMarked h2 :=
  (queues_hold_marked example_array_heap (fun _ _ hu => by simp [example_array_heap,
      example_heap, SCMObjToScanQueue.tasks] at hu)).2.2.2
    UpdateRefsMode.RESOLVE true 4 1024 (fun _ => none) 0 ⟨5, 0, 0⟩ (by decide) (by decide)

/-! ## Claims on overflow in the chunk arithmetic -/

theorem chk32_eq (x : Int) (h1 : -2147483648 ≤ x) (h2 : x ≤ 2147483647) : chk32 x = some x := by
  unfold chk32
  rw [if_pos ⟨h1, h2⟩]

theorem shl_exact_one (n : Nat) (h : n ≤ 30) : shl_exact 1 (n : Int) = some (2 ^ n) := by
  unfold shl_exact
  rw [if_pos ⟨by omega, by omega⟩, Int.toNat_ofNat, one_mul]
  exact chk32_eq _ (by have := two_pow_pos n; omega) (by have := two_pow_le_30 n h; omega)

/-- With a cap of at most `2^30` the splitting loop of the start algorithm
computes no value outside the `int` range: the exact run and the wrap-around
run agree. -/
theorem start_loop_exact_eq (S C len : Int) (hS : 1 ≤ S) (hC : C ≤ 1073741824) :
    ∀ (fuel n : Nat) (chunk last : Int), n ≤ 30 → 1 ≤ chunk →
      len ≤ chunk * 2 ^ n → chunk * 2 ^ n ≤ 2147483648 → len ≤ 2147483647 →
      (chunk ≤ 2 ∨ chunk < C) →
      start_loop_exact S C len fuel chunk n last = start_loop S C len fuel chunk n last := by
  intro fuel
  induction fuel with
  | zero => intro n chunk last _ _ _ _ _ _; rfl
  | succ fuel ih =>
    intro n chunk last hn hc hlo hhi hlen hcap
    rw [start_loop_exact, start_loop, shl_exact_one n hn, shl32_one n hn]
    have hc2 : chk32 (chunk * 2) = some (chunk * 2) := chk32_eq _ (by omega) (by omega)
    have hw2 : wrap32 (chunk * 2) = chunk * 2 := by rw [wrap32_eq] <;> omega
    simp only [Option.bind_eq_bind, Option.some_bind, hw2]
    by_cases hp : (2 : Int) ^ n > S
    · rw [if_pos hp]
      simp only [hc2, Option.some_bind]
      by_cases hcc : chunk * 2 < C
      · rw [if_pos hcc, if_pos ⟨hp, hcc⟩]
        obtain ⟨k, rfl⟩ : ∃ k, n = k + 1 := by
          rcases n with _ | k
          · simp at hp; omega
          · exact ⟨k, rfl⟩
        have hP := two_pow_pos k
        have hpow : (2 : Int) ^ (k + 1) = 2 * 2 ^ k := by ring
        rw [hpow] at hlo hhi
        have hX : chunk ≤ chunk * 2 ^ k := le_mul_of_one_le_right (by omega) hP
        have hX2 : (2 : Int) ^ k ≤ chunk * 2 ^ k := le_mul_of_one_le_left (by omega) hc
        have hmul : chunk * (2 * 2 ^ k) = 2 * (chunk * 2 ^ k) := by ring
        have hmul2 : chunk * 2 * 2 ^ k = 2 * (chunk * 2 ^ k) := by ring
        have hlce_eq : (chunk * 2 - 1) * 2 ^ k = 2 * (chunk * 2 ^ k) - 2 ^ k := by ring
        have e1 : chk32 (((k + 1 : Nat) : Int) - 1) = some (k : Int) := by
          have : ((k + 1 : Nat) : Int) - 1 = (k : Int) := by push_cast; ring
          rw [this]
          exact chk32_eq _ (by omega) (by omega)
        have w1 : wrap32 (((k + 1 : Nat) : Int) - 1) = (k : Int) := by
          rw [wrap32_eq] <;> omega
        have e2 : chk32 (chunk * 2 - 1) = some (chunk * 2 - 1) :=
          chk32_eq _ (by omega) (by omega)
        have w2 : wrap32 (chunk * 2 - 1) = chunk * 2 - 1 := by rw [wrap32_eq] <;> omega
        have e3 : chk32 ((chunk * 2 - 1) * 2 ^ k) = some ((chunk * 2 - 1) * 2 ^ k) :=
          chk32_eq _ (by omega) (by omega)
        have w3 : wrap32 ((chunk * 2 - 1) * 2 ^ k) = (chunk * 2 - 1) * 2 ^ k := by
          rw [wrap32_eq] <;> omega
        simp only [e1, w1, e2, w2, shl_exact_one k (by omega), shl32_one k (by omega), e3, w3,
          Option.some_bind]
        by_cases hbr : (chunk * 2 - 1) * 2 ^ k < len
        · rw [if_pos hbr, if_pos hbr,
            ih k (chunk * 2) ((chunk * 2 - 1) * 2 ^ k) (by omega) (by omega) (by omega)
              (by omega) hlen (Or.inr hcc)]
          cases start_loop S C len fuel (chunk * 2) k ((chunk * 2 - 1) * 2 ^ k) <;> rfl
        · rw [if_neg hbr, if_neg hbr]
          exact ih k (chunk * 2 - 1) last (by omega) (by omega) (by omega) (by omega) hlen
            (Or.inr (by omega))
      · rw [if_neg hcc, if_neg (fun h => hcc h.2)]
        rfl
    · rw [if_neg hp, if_neg (fun h => hp h.1)]
      rfl

/-- On a Task whose range fits an `int` the splitting loop of the continuation
algorithm computes no value outside the `int` range. -/
theorem chunk_loop_exact_eq (S C : Int) (hS : 1 ≤ S) :
    ∀ (fuel n : Nat) (chunk : Int), n ≤ 30 → 1 ≤ chunk → chunk * 2 ^ n < 2147483648 →
      chunk_loop_exact S C fuel chunk n = chunk_loop S C fuel chunk n := by
  intro fuel
  induction fuel with
  | zero => intro n chunk _ _ _; rfl
  | succ fuel ih =>
    intro n chunk hn hc hhi
    rw [chunk_loop_exact, chunk_loop, shl_exact_one n hn, shl32_one n hn]
    simp only [Option.bind_eq_bind, Option.some_bind]
    by_cases hp : (2 : Int) ^ n > S
    · rw [if_pos hp]
      obtain ⟨k, rfl⟩ : ∃ k, n = k + 1 := by
        rcases n with _ | k
        · simp at hp; omega
        · exact ⟨k, rfl⟩
      have hP := two_pow_pos k
      have hpow : (2 : Int) ^ (k + 1) = 2 * 2 ^ k := by ring
      rw [hpow] at hhi
      have hX : chunk ≤ chunk * 2 ^ k := le_mul_of_one_le_right (by omega) hP
      have hmul : chunk * (2 * 2 ^ k) = 2 * (chunk * 2 ^ k) := by ring
      have hmul2 : chunk * 2 * 2 ^ k = 2 * (chunk * 2 ^ k) := by ring
      have hc2 : chk32 (chunk * 2) = some (chunk * 2) := chk32_eq _ (by omega) (by omega)
      have hw2 : wrap32 (chunk * 2) = chunk * 2 := by rw [wrap32_eq] <;> omega
      simp only [hc2, hw2, Option.some_bind]
      by_cases hcc : chunk * 2 < C
      · rw [if_pos hcc, if_pos ⟨hp, hcc⟩]
        have e1 : chk32 (((k + 1 : Nat) : Int) - 1) = some (k : Int) := by
          have : ((k + 1 : Nat) : Int) - 1 = (k : Int) := by push_cast; ring
          rw [this]
          exact chk32_eq _ (by omega) (by omega)
        have w1 : wrap32 (((k + 1 : Nat) : Int) - 1) = (k : Int) := by
          rw [wrap32_eq] <;> omega
        have e2 : chk32 (chunk * 2 - 1) = some (chunk * 2 - 1) :=
          chk32_eq _ (by omega) (by omega)
        have w2 : wrap32 (chunk * 2 - 1) = chunk * 2 - 1 := by rw [wrap32_eq] <;> omega
        simp only [e1, w1, e2, w2, Option.some_bind]
        rw [ih k (chunk * 2) (by omega) (by omega) (by omega)]
        cases chunk_loop S C fuel (chunk * 2) k <;> rfl
      · rw [if_neg hcc, if_neg (fun h => hcc h.2)]
        rfl
    · rw [if_neg hp, if_neg (fun h => hp h.1)]
      rfl

/-- On a Task whose range fits an `int`, the continuation algorithm computes
no value outside the `int` range and evaluates no shift with a count outside
`0..30`. -/
theorem do_chunked_array_exact_eq (S C : Int) (hS : 1 ≤ S) (n : Nat) (chunk : Int)
    (hn : n ≤ 30) (hc : 1 ≤ chunk) (hhi : chunk * 2 ^ n < 2147483648) :
    do_chunked_array_exact S C chunk n = do_chunked_array S C chunk n ∧
    ∃ evs, do_chunked_array S C chunk n = some evs := by
  obtain ⟨r, m, ts, hr, h1, h2, h3, h4, _, _, _⟩ :=
    chunk_loop_spec S C hS 32 n chunk (by omega) hn hc hhi
  have hP := two_pow_pos m
  have hP2 : (2 : Int) ^ m ≤ r.chunk * 2 ^ m := le_mul_of_one_le_left (by omega) h3
  have hX : r.chunk ≤ r.chunk * 2 ^ m := le_mul_of_one_le_right (by omega) hP
  have hsub : (r.chunk - 1) * 2 ^ m = r.chunk * 2 ^ m - 2 ^ m := by ring
  have e1 : chk32 (r.chunk - 1) = some (r.chunk - 1) := chk32_eq _ (by omega) (by omega)
  have w1 : wrap32 (r.chunk - 1) = r.chunk - 1 := by rw [wrap32_eq] <;> omega
  have e2 : chk32 ((r.chunk - 1) * 2 ^ m) = some ((r.chunk - 1) * 2 ^ m) :=
    chk32_eq _ (by omega) (by omega)
  have w2 : wrap32 ((r.chunk - 1) * 2 ^ m) = (r.chunk - 1) * 2 ^ m := by
    rw [wrap32_eq] <;> omega
  have e3 : chk32 (r.chunk * 2 ^ m) = some (r.chunk * 2 ^ m) :=
    chk32_eq _ (by omega) (by omega)
  have w3 : wrap32 (r.chunk * 2 ^ m) = r.chunk * 2 ^ m := by rw [wrap32_eq] <;> omega
  have hwrap : do_chunked_array S C chunk n =
      some (r.events ++ [Event.iterate ((r.chunk - 1) * 2 ^ m) (r.chunk * 2 ^ m)]) := by
    unfold do_chunked_array
    rw [hr]
    simp only [Option.map_some', h1, shl32_one m (by omega), w1, w2, w3]
  refine ⟨?_, _, hwrap⟩
  rw [hwrap]
  unfold do_chunked_array_exact
  rw [chunk_loop_exact_eq S C hS 32 n chunk hn hc hhi, hr]
  simp only [Option.bind_eq_bind, Option.some_bind, h1, shl_exact_one m (by omega), e1, e2, e3]
  rfl

theorem start_bits_exact_eq (len : Int) (h1 : 1 ≤ len) (h2 : len ≤ 2147483647) :
    start_bits_exact len = some (start_bits len) := by
  obtain ⟨b, hb, hb30, _, _⟩ := log2_long_spec len h1 h2
  unfold start_bits_exact start_bits
  simp only [hb, shl_exact_one b hb30, shl32_one b hb30, Option.bind_eq_bind, Option.some_bind]
  by_cases he : len = 2 ^ b
  · simp [he]
  · rw [if_pos he, if_pos he, wrap32_eq _ (by omega) (by omega)]
    exact chk32_eq _ (by omega) (by omega)

/-- With a cap of at most `2^30` the chunking branch of the start algorithm
computes no value outside the `int` range, for every positive length. -/
theorem start_split_exact_eq (S C len : Int) (hS : 1 ≤ S) (hC : C ≤ 1073741824)
    (h1 : 1 ≤ len) (h2 : len ≤ 2147483647) :
    start_split_exact S C len = start_split S C len := by
  obtain ⟨n, hn, hn31, hle, hbig, _⟩ := start_bits_spec len h1 h2
  unfold start_split_exact start_split
  simp only [start_bits_exact_eq len h1 h2, Option.bind_eq_bind, Option.some_bind, hn]
  by_cases hov : (n : Int) ≥ 31
  · have hn2 : n = 31 := by omega
    subst hn2
    rw [if_pos hov, if_pos hov]
    have e1 : chk32 (((31 : Nat) : Int) - 1) = some ((30 : Nat) : Int) := by decide
    have w1 : wrap32 (((31 : Nat) : Int) - 1) = ((30 : Nat) : Int) := by decide
    simp only [e1, w1, Option.some_bind, shl_exact_one 30 (by omega), shl32_one 30 (by omega)]
    rw [start_loop_exact_eq S C len hS hC 32 30 2 (2 ^ 30) (by omega) (by omega)
      (by norm_num at hle ⊢; omega) (by norm_num) h2 (Or.inl (by omega))]
    cases start_loop S C len 32 2 ((30 : Nat) : Int) (2 ^ 30) <;> rfl
  · rw [if_neg hov, if_neg hov]
    exact start_loop_exact_eq S C len hS hC 32 n 1 0 (by omega) (by omega) (by omega)
      (by have := two_pow_le_30 n (by omega); omega) h2 (Or.inl (by omega))

/-- For a stride below `2^30` and a cap of at most `2^30` the start algorithm
computes no value outside the `int` range. -/
theorem start_exact_eq (L S C : Int) (hL : L ≤ 2147483647) (hS : 1 ≤ S)
    (hS2 : S < 1073741824) (hC : C ≤ 1073741824) :
    do_chunked_array_start_exact S C L = do_chunked_array_start S C L := by
  unfold do_chunked_array_start_exact do_chunked_array_start
  have e1 : chk32 (S * 2) = some (S * 2) := chk32_eq _ (by omega) (by omega)
  have w1 : wrap32 (S * 2) = S * 2 := by rw [wrap32_eq] <;> omega
  simp only [e1, w1, Option.bind_eq_bind, Option.some_bind]
  by_cases hshort : L ≤ S * 2
  · rw [if_pos hshort, if_pos hshort]
    rfl
  · rw [if_neg hshort, if_neg hshort, start_split_exact_eq S C L hS hC (by omega) hL]
    cases start_split S C L <;> rfl

/-- C19. No 32-bit overflow in the chunk arithmetic: for `0 ≤ L ≤ 2^31-1`,
`1 ≤ S < 2^30` and `C ≤ 2^30`, the start algorithm run in exact arithmetic,
which stops at the first intermediate value outside the signed 32-bit range
and at the first shift by a negative count or by 31 or more, runs to the end
and gives the result of the wrap-around run; and so does the continuation
algorithm on every Task that stems, transitively, from the start algorithm. -/
theorem chunk_arithmetic_no_overflow (L S C : Int) (hL0 : 0 ≤ L) (hL : L ≤ 2147483647)
    (hS : 1 ≤ S) (hS2 : S < 1073741824) (hC : C ≤ 1073741824) :
    (∃ evs, do_chunked_array_start_exact S C L = some evs ∧
      do_chunked_array_start S C L = some evs) ∧
    ∀ t, Pushed S C L t →
      ∃ evs, do_chunked_array_exact S C t.1 t.2 = some evs ∧
        do_chunked_array S C t.1 t.2 = some evs := by
  refine ⟨?_, ?_⟩
  · obtain ⟨evs, hevs⟩ := do_chunked_array_start_total S C L hS
    exact ⟨evs, by rw [start_exact_eq L S C hL hS hS2 hC, hevs], hevs⟩
  · intro t ht
    obtain ⟨m, e1, e2, e3, e4⟩ := Pushed_valid S C L hS hL0 hL t ht
    rw [e1]
    obtain ⟨heq, evs, hevs⟩ := do_chunked_array_exact_eq S C hS m t.1 e2 e3 (by omega)
    exact ⟨evs, by rw [heq, hevs], hevs⟩

/-- C19 at length 1000, stride 16 and cap 1024, and on the Task `(1, 9)` pushed
by the start algorithm. -/
theorem chunk_arithmetic_no_overflow_witness :
    (∃ evs, do_chunked_array_start_exact 16 1024 1000 = some evs ∧
      do_chunked_array_start 16 1024 1000 = some evs) ∧
    ∃ evs, do_chunked_array_exact 16 1024 ((1, 9) : Int × Int).1 ((1, 9) : Int × Int).2 =
        some evs ∧
      do_chunked_array 16 1024 ((1, 9) : Int × Int).1 ((1, 9) : Int × Int).2 = some evs :=
  ⟨(chunk_arithmetic_no_overflow 1000 16 1024 (by decide) (by decide) (by decide) (by decide)
      (by decide)).1,
    (chunk_arithmetic_no_overflow 1000 16 1024 (by decide) (by decide) (by decide) (by decide)
      (by decide)).2 (1, 9)
      (Pushed.start
        [Event.push 1 9, Event.push 3 8, Event.push 7 7, Event.push 15 6, Event.push 31 5,
          Event.iterate 992 1000] (1, 9) (by decide) (by decide))⟩

/-! ## Second dispatch of a whole-object Task -/

theorem push_chunks_length (obj : Nat) : ∀ (ts : List (Int × Int)) (q : SCMObjToScanQueue),
    (push_chunks obj ts q).tasks.length = q.tasks.length + ts.length := by
  intro ts
  induction ts with
  | nil => intro q; simp [push_chunks]
  | cons t ts ih =>
    intro q
    have hfold : push_chunks obj (t :: ts) q = push_chunks obj ts (q.push ⟨obj, t.1, t.2⟩) := rfl
    rw [hfold, ih, (push_tasks_perm q _).length_eq]
    simp only [List.length_cons]
    omega

/-- A quiet run of decomposer events on array `obj`: afterwards every cell of
the ranges visited is done, and cells that were done stay done. -/
theorem run_events_done (mode : UpdateRefsMode) (w obj : Nat) :
    ∀ (evs : List Event) (h : ShenandoahHeap), (∀ x, h.fwd (h.fwd x) = h.fwd x) →
      (∀ r ∈ visits evs, ∀ p ∈ ((h.fields obj).take r.2.toNat).drop r.1.toNat,
        CellDone mode (run_events mode (fun _ => none) w obj evs h) p) ∧
      (∀ p, CellDone mode h p →
        CellDone mode (run_events mode (fun _ => none) w obj evs h) p) ∧
      (run_events mode (fun _ => none) w obj evs h).fwd = h.fwd ∧
      (run_events mode (fun _ => none) w obj evs h).fields = h.fields ∧
      (run_events mode (fun _ => none) w obj evs h).is_objArray = h.is_objArray := by
  intro evs
  induction evs with
  | nil => intro h _; exact ⟨by simp [visits], fun _ hd => hd, rfl, rfl, rfl⟩
  | cons e es ih =>
    intro h hidem
    cases e with
    | push c p =>
      obtain ⟨i1, i2, i3, i4, i5⟩ := ih (push_task w ⟨obj, c, p⟩ h) hidem
      exact ⟨i1, fun q hd => i2 q hd, i3, i4, i5⟩
    | iterate lo hi =>
      obtain ⟨m1, _, _, m4, m5⟩ := mark_refs_frame mode (fun _ => none) w
        (((h.fields obj).take hi.toNat).drop lo.toNat) h
      obtain ⟨d1, d2⟩ := mark_refs_done mode w
        (((h.fields obj).take hi.toNat).drop lo.toNat) h hidem
      obtain ⟨i1, i2, i3, i4, i5⟩ := ih (oop_iterate_range mode (fun _ => none) w obj lo hi h)
        (by unfold oop_iterate_range; rw [m1]; exact hidem)
      refine ⟨?_, fun q hd => i2 q (d2 q hd), i3.trans m1, i4.trans m4, i5.trans m5⟩
      intro r hr p hp
      simp only [visits, List.mem_cons] at hr
      rcases hr with rfl | hr
      · exact i2 p (d1 p hp)
      · refine i1 r hr p ?_
        have hf : (oop_iterate_range mode (fun _ => none) w obj lo hi h).fields = h.fields := m4
        rw [hf]
        exact hp

/-- A quiet run of decomposer events on array `obj` whose visited cells are
all done marks nothing, leaves the queues of the other workers alone, and
pushes the chunk Tasks of the run on the queue of worker `w`. -/
theorem run_events_idle (mode : UpdateRefsMode) (w obj : Nat) :
    ∀ (evs : List Event) (h : ShenandoahHeap), (∀ x, h.fwd (h.fwd x) = h.fwd x) →
      (∀ r ∈ visits evs, ∀ p ∈ ((h.fields obj).take r.2.toNat).drop r.1.toNat,
        CellDone mode h p) →
      (run_events mode (fun _ => none) w obj evs h).marked = h.marked ∧
      (∀ v, v ≠ w → (run_events mode (fun _ => none) w obj evs h).queues v = h.queues v) ∧
      (run_events mode (fun _ => none) w obj evs h).queues w =
        push_chunks obj (pushes evs) (h.queues w) := by
  intro evs
  induction evs with
  | nil => intro h _ _; exact ⟨rfl, fun _ _ => rfl, rfl⟩
  | cons e es ih =>
    intro h hidem hd
    cases e with
    | push c p =>
      obtain ⟨i1, i2, i3⟩ := ih (push_task w ⟨obj, c, p⟩ h) hidem (fun r hr q hq => hd r hr q hq)
      refine ⟨i1, ?_, ?_⟩
      · intro v hv
        have := i2 v hv
        simp only [push_task, upd, hv, if_false] at this
        exact this
      · have hq : (push_task w ⟨obj, c, p⟩ h).queues w = (h.queues w).push ⟨obj, c, p⟩ := by
          simp [push_task, upd]
        have hrun : run_events mode (fun _ => none) w obj (Event.push c p :: es) h =
            run_events mode (fun _ => none) w obj es (push_task w ⟨obj, c, p⟩ h) := rfl
        rw [hrun, i3, hq]
        rfl
    | iterate lo hi =>
      obtain ⟨m1, _, _, m4, _⟩ := mark_refs_frame mode (fun _ => none) w
        (((h.fields obj).take hi.toNat).drop lo.toNat) h
      obtain ⟨_, d2⟩ := mark_refs_done mode w
        (((h.fields obj).take hi.toNat).drop lo.toNat) h hidem
      obtain ⟨n1, n2⟩ := mark_refs_idle mode w
        (((h.fields obj).take hi.toNat).drop lo.toNat) h hidem
        (fun q hq => hd (lo, hi) (by simp [visits]) q hq)
      have hf : (oop_iterate_range mode (fun _ => none) w obj lo hi h).fields = h.fields := m4
      obtain ⟨i1, i2, i3⟩ := ih (oop_iterate_range mode (fun _ => none) w obj lo hi h)
        (by unfold oop_iterate_range; rw [m1]; exact hidem)
        (fun r hr q hq => d2 q (hd r (by simp [visits, hr]) q (by rw [hf] at hq; exact hq)))
      have hm : (oop_iterate_range mode (fun _ => none) w obj lo hi h).marked = h.marked := n1
      have hq : (oop_iterate_range mode (fun _ => none) w obj lo hi h).queues = h.queues := n2
      have hrun : run_events mode (fun _ => none) w obj (Event.iterate lo hi :: es) h =
          run_events mode (fun _ => none) w obj es
            (oop_iterate_range mode (fun _ => none) w obj lo hi h) := rfl
      rw [hrun]
      refine ⟨i1.trans hm, ?_, ?_⟩
      · intro v hv
        rw [i2 v hv, hq]
      · rw [i3, hq]
        rfl

/-- Dispatch of the whole-object Task of an object array: liveness is recorded
when tracking is on, then the start algorithm runs on the array's length. -/
theorem do_task_array (mode : UpdateRefsMode) (CL : Bool) (S C : Int)
    (races : Nat → Option (Option Nat)) (w : Nat) (task : SCMTask) (h : ShenandoahHeap)
    (hchunk : task.chunk = 0) (harr : h.is_objArray task.obj = true) :
    do_task mode CL S C races w task h =
      (do_chunked_array_start S C (array_length h task.obj)).map
        (fun evs => run_events mode races w task.obj evs
          (if CL = true then count_liveness w task.obj h else h)) := by
  obtain ⟨_, _, _, _, c5, c6⟩ := count_liveness_frame w task.obj h
  unfold do_task
  cases CL
  · simp [SCMTask.is_not_chunked, hchunk, harr]
  · simp [SCMTask.is_not_chunked, hchunk, harr, c6, array_length, c5]

/-- On a long array, with a cap above 2, the start algorithm pushes at least
one chunk Task. -/
theorem start_long_pushes (L S C : Int) (hS : 1 ≤ S) (hC : 2 < C) (hlong : 2 * S < L)
    (hL : L ≤ 2147483647) (evs : List Event) (hevs : do_chunked_array_start S C L = some evs) :
    pushes evs ≠ [] := by
  obtain ⟨r, m, ts, hr, h3, h4, h5, h6, h7, h8, h9, h10, h11, h12⟩ :=
    start_split_spec S C L hS (by omega) hL
  have hP := two_pow_pos m
  have hne : ts ≠ [] := by
    intro he
    subst he
    have h0 : (0 : Int) = r.last_idx := h12
    have hc1 : r.chunk = 1 := by
      have hz : (r.chunk - 1) * 2 ^ m = 0 := by omega
      rcases mul_eq_zero.mp hz with hz | hz <;> omega
    rw [hc1] at h6 h10
    have hw : wrap32 (1 * 2) = 2 := by decide
    rw [hw] at h10
    omega
  have hst : do_chunked_array_start S C L =
      some (ts.map (fun u => Event.push u.1 u.2) ++ [Event.iterate r.last_idx L]) := by
    unfold do_chunked_array_start
    have hw : wrap32 (S * 2) = S * 2 := by rw [wrap32_eq] <;> omega
    rw [hw, if_neg (by omega), hr]
    simp [h9, h11]
  rw [hst] at hevs
  have he := (Option.some.inj hevs).symm
  rw [he, pushes_map_push]
  simp [hne]

/-- C5 amended. `do_task` has no guard of its own against a second dispatch.
For a whole-object Task `{o, chunk = 0}`, with idempotent forwarding (a
forwardee forwards to itself) and no mutator interference: the first dispatch
ends when `o` is not an array or `S ≥ 1`; and a second dispatch right after a
first one ends, marks nothing and leaves the queues of the other workers
unchanged. With liveness tracking off it leaves the liveness table unchanged;
with liveness tracking on it records `o` once more, as one further
`count_liveness` call does. If `o` is not an array, or is an array of at most
`2*S` elements with `S ≤ 2^30 - 1`, it pushes no Task. If `o` is an array, it
pushes on the worker's queue exactly the chunk Tasks that the start algorithm
pushes for the array's length, once more; there is at least one of them when
`S ≥ 1`, `C > 2` and `2*S < L ≤ 2^31 - 1`. -/
theorem redispatch_whole_object (mode : UpdateRefsMode) (CL : Bool) (S C : Int) (w : Nat)
    (task : SCMTask) (h : ShenandoahHeap)
    (hchunk : task.chunk = 0)
    (hidem : ∀ x, h.fwd (h.fwd x) = h.fwd x) :
    (h.is_objArray task.obj = false ∨ 1 ≤ S →
      ∃ h1, do_task mode CL S C (fun _ => none) w task h = some h1) ∧
    ∀ h1, do_task mode CL S C (fun _ => none) w task h = some h1 →
      ∃ h2, do_task mode CL S C (fun _ => none) w task h1 = some h2 ∧
        h2.marked = h1.marked ∧
        (∀ v, v ≠ w → h2.queues v = h1.queues v) ∧
        (CL = false → h2.live = h1.live ∧ h2.live_data = h1.live_data) ∧
        (CL = true → h2.live = (count_liveness w task.obj h1).live ∧
          h2.live_data = (count_liveness w task.obj h1).live_data) ∧
        (h.is_objArray task.obj = false ∨
            (array_length h task.obj ≤ 2 * S ∧ S ≤ 1073741823) →
          h2.queues = h1.queues) ∧
        (h.is_objArray task.obj = true →
          ∃ evs, do_chunked_array_start S C (array_length h task.obj) = some evs ∧
            h2.queues w = push_chunks task.obj (pushes evs) (h1.queues w) ∧
            (h2.queues w).tasks.length = (h1.queues w).tasks.length + (pushes evs).length ∧
            (1 ≤ S → 2 < C → 2 * S < array_length h task.obj →
              array_length h task.obj ≤ 2147483647 → pushes evs ≠ [])) := by
  have hlen0 : 0 ≤ array_length h task.obj := by
    unfold array_length
    exact Int.natCast_nonneg _
  refine ⟨?_, ?_⟩
  · intro hcase
    by_cases harr : h.is_objArray task.obj = true
    · have hS : 1 ≤ S := by
        rcases hcase with hc | hc
        · rw [harr] at hc; cases hc
        · exact hc
      obtain ⟨evs, hevs⟩ := do_chunked_array_start_total S C (array_length h task.obj) hS
      exact ⟨_, by rw [do_task_array mode CL S C _ w task h hchunk harr, hevs]; rfl⟩
    · have harr2 : h.is_objArray task.obj = false := by simpa using harr
      exact ⟨_, do_task_whole mode CL S C _ w task h hchunk (Or.inl harr2)⟩
  · intro h1 hfirst
    by_cases harr : h.is_objArray task.obj = true
    · rw [do_task_array mode CL S C _ w task h hchunk harr] at hfirst
      cases hst : do_chunked_array_start S C (array_length h task.obj) with
      | none => rw [hst] at hfirst; cases hfirst
      | some evs =>
        rw [hst] at hfirst
        have h1eq : run_events mode (fun _ => none) w task.obj evs
            (if CL = true then count_liveness w task.obj h else h) = h1 :=
          Option.some.inj hfirst
        obtain ⟨c1, c2, c3, c4, c5, c6⟩ := count_liveness_frame w task.obj h
        have hc : (if CL = true then count_liveness w task.obj h else h).fwd = h.fwd ∧
            (if CL = true then count_liveness w task.obj h else h).fields = h.fields ∧
            (if CL = true then count_liveness w task.obj h else h).is_objArray =
              h.is_objArray := by
          cases CL
          · exact ⟨rfl, rfl, rfl⟩
          · exact ⟨c3, c5, c6⟩
        obtain ⟨a1, _, a3, a4, a5⟩ := run_events_done mode w task.obj evs
          (if CL = true then count_liveness w task.obj h else h) (by rw [hc.1]; exact hidem)
        rw [h1eq] at a1 a3 a4 a5
        rw [hc.2.1] at a1
        have hfwd1 : h1.fwd = h.fwd := a3.trans hc.1
        have hfields1 : h1.fields = h.fields := a4.trans hc.2.1
        have harr1 : h1.is_objArray = h.is_objArray := a5.trans hc.2.2
        have hlen1 : array_length h1 task.obj = array_length h task.obj := by
          unfold array_length
          rw [hfields1]
        obtain ⟨d1, d2, d3, d4, d5, d6⟩ := count_liveness_frame w task.obj h1
        have hcell : ∀ p, CellDone mode h1 p →
            CellDone mode (if CL = true then count_liveness w task.obj h1 else h1) p := by
          intro p hp
          cases CL
          · exact hp
          · intro e he
            simp only [if_true] at he ⊢
            rw [d1] at he
            have := hp e he
            have hres : resolution mode (count_liveness w task.obj h1) e =
                resolution mode h1 e := by
              cases mode <;> simp [resolution, d3]
            rw [hres, d2]
            exact this
        have hc1 : (if CL = true then count_liveness w task.obj h1 else h1).fwd = h1.fwd ∧
            (if CL = true then count_liveness w task.obj h1 else h1).fields = h1.fields ∧
            (if CL = true then count_liveness w task.obj h1 else h1).marked = h1.marked ∧
            (if CL = true then count_liveness w task.obj h1 else h1).queues = h1.queues := by
          cases CL
          · exact ⟨rfl, rfl, rfl, rfl⟩
          · exact ⟨d3, d5, d2, d4⟩
        obtain ⟨b1, b2, b3⟩ := run_events_idle mode w task.obj evs
          (if CL = true then count_liveness w task.obj h1 else h1)
          (by rw [hc1.1, hfwd1]; exact hidem)
          (by
            intro r hr p hp
            rw [hc1.2.1, hfields1] at hp
            exact hcell p (a1 r hr p hp))
        obtain ⟨f1, f2⟩ := run_events_frame mode (fun _ => none) w task.obj evs
          (if CL = true then count_liveness w task.obj h1 else h1)
        have hsecond : do_task mode CL S C (fun _ => none) w task h1 =
            some (run_events mode (fun _ => none) w task.obj evs
              (if CL = true then count_liveness w task.obj h1 else h1)) := by
          rw [do_task_array mode CL S C _ w task h1 hchunk (by rw [harr1]; exact harr), hlen1,
            hst]
          rfl
        have hqw : (run_events mode (fun _ => none) w task.obj evs
            (if CL = true then count_liveness w task.obj h1 else h1)).queues w =
              push_chunks task.obj (pushes evs) (h1.queues w) := by
          rw [b3, hc1.2.2.2]
        refine ⟨_, hsecond, b1.trans hc1.2.2.1, ?_, ?_, ?_, ?_, ?_⟩
        · intro v hv
          rw [b2 v hv, hc1.2.2.2]
        · intro hcl
          subst hcl
          exact ⟨f1, f2⟩
        · intro hcl
          subst hcl
          exact ⟨f1, f2⟩
        · intro hcase
          rcases hcase with hn | ⟨hshort, hS⟩
          · rw [harr] at hn; cases hn
          · have hdir := short_array_direct (array_length h task.obj) S C hlen0 hS hshort
            rw [hst] at hdir
            have he := Option.some.inj hdir
            funext v
            by_cases hv : v = w
            · rw [hv, hqw, he]
              rfl
            · rw [b2 v hv, hc1.2.2.2]
        · intro _
          refine ⟨evs, rfl, hqw, ?_, ?_⟩
          · rw [hqw, push_chunks_length]
          · intro hS hC hlong hL
            exact start_long_pushes (array_length h task.obj) S C hS hC hlong hL evs hst
    · have harr2 : h.is_objArray task.obj = false := by simpa using harr
      obtain ⟨h2, e1, e2, e3, e4, e5⟩ := redispatch_direct mode CL S C w task h h1 hchunk
        (Or.inl harr2) hidem hfirst
      refine ⟨h2, e1, e3, fun v _ => by rw [e2], e4, e5, fun _ => e2, ?_⟩
      intro ha
      rw [harr2] at ha
      cases ha

/-- C5 amended, on the example heap with the marked array 5 of ten elements,
which forwards to itself: two dispatches of its whole-object Task in mode
RESOLVE with liveness tracking on, stride 4 and cap 1024. -/
theorem redispatch_whole_object_witness :
    example_array_heap.marked 5 = true ∧ example_array_heap.fwd 5 = 5 ∧
    (example_array_heap.is_objArray 5 = false ∨ (1 : Int) ≤ 4 →
      ∃ h1, do_task UpdateRefsMode.RESOLVE true 4 1024 (fun _ => none) 0 ⟨5, 0, 0⟩
        example_array_heap = some h1) ∧
    ∀ h1, do_task UpdateRefsMode.RESOLVE true 4 1024 (fun _ => none) 0 ⟨5, 0, 0⟩
        example_array_heap = some h1 →
      ∃ h2, do_task UpdateRefsMode.RESOLVE true 4 1024 (fun _ => none) 0 ⟨5, 0, 0⟩ h1 =
          some h2 ∧
        h2.marked = h1.marked ∧
        (∀ v, v ≠ 0 → h2.queues v = h1.queues v) ∧
        (true = false → h2.live = h1.live ∧ h2.live_data = h1.live_data) ∧
        (true = true → h2.live = (count_liveness 0 5 h1).live ∧
          h2.live_data = (count_liveness 0 5 h1).live_data) ∧
        (example_array_heap.is_objArray 5 = false ∨
            (array_length example_array_heap 5 ≤ 2 * 4 ∧ (4 : Int) ≤ 1073741823) →
          h2.queues = h1.queues) ∧
        (example_array_heap.is_objArray 5 = true →
          ∃ evs, do_chunked_array_start 4 1024 (array_length example_array_heap 5) =
              some evs ∧
            h2.queues 0 = push_chunks 5 (pushes evs) (h1.queues 0) ∧
            (h2.queues 0).tasks.length = (h1.queues 0).tasks.length + (pushes evs).length ∧
            ((1 : Int) ≤ 4 → (2 : Int) < 1024 → 2 * 4 < array_length example_array_heap 5 →
              array_length example_array_heap 5 ≤ 2147483647 → pushes evs ≠ [])) :=
  ⟨rfl, rfl,
    redispatch_whole_object UpdateRefsMode.RESOLVE true 4 1024 0 ⟨5, 0, 0⟩ example_array_heap
      rfl (fun _ => rfl)⟩

end Shenandoah
